import Mathlib

/-!
Shallow embedding of the keyed hash forest (KHF) crate: `src/topology.rs`,
`src/node.rs` and `src/khf.rs`.  Machine integers (`u64`, `usize`) are modelled
as `Nat`; none of the modelled arithmetic can overflow a `u64` on the inputs
considered.  Key bytes are modelled symbolically: a key is either a fresh
CSPRNG seed (numbered by the order in which it was drawn from the stream) or
the hash of a key together with a level/index pair, which is exactly the data
the source feeds the hasher (`key ∥ level_le8 ∥ index_le8`).  Rust panics
(out-of-bounds indexing, `unwrap` of `None`/`Err`, `usize` underflow) and
divergence are modelled by `Option`-valued functions returning `none`.
-/

namespace KHF

/-- Tree position: a (level, index) pair.  Source: `type Pos = (u64, u64)`. -/
abbrev Pos := Nat × Nat

/-- Symbolic key bytes.  `seed n` is the `n`-th block drawn from the CSPRNG;
`hash k level index` is the digest of `k ∥ level ∥ index` as produced by the
hash capability in `Node::derive`.  Two keys are equal iff they are built by
the same seed/hash tree, the ideal-hash reading of byte-string equality. -/
inductive Key where
  | seed (n : Nat)
  | hash (k : Key) (level : Nat) (index : Nat)
deriving DecidableEq

/-- Source: `struct Topology { descendants: Vec<u64> }`. -/
structure Topology where
  descendants : List Nat
deriving DecidableEq

/-- The loop of `Topology::new`: for each fanout push the current leaf count
and divide it by the fanout; afterwards push the trailing `1`. -/
def descList : List Nat → Nat → List Nat
  | [], _ => [1]
  | f :: fs, leaves => leaves :: descList fs (leaves / f)

/-- Source: `Topology::new` (pushes the sentinel `0` first). -/
def Topology.new (fanouts : List Nat) : Topology :=
  { descendants := 0 :: descList fanouts fanouts.prod }

/-- Source: `Topology::height` (`descendants.len()`). -/
def Topology.height (t : Topology) : Nat :=
  t.descendants.length

/-- Source: `Topology::descendants(level)`, i.e. `self.descendants[level]`.
The Rust indexing panics out of bounds; every in-proof use is in bounds, and
`desc?` below is the panic-aware version used where bounds are in question. -/
def Topology.desc (t : Topology) (level : Nat) : Nat :=
  t.descendants.getD level 0

/-- Panic-aware `self.descendants[level]`: `none` models the Rust panic. -/
def Topology.descQ (t : Topology) (level : Nat) : Option Nat :=
  t.descendants.get? level

/-- Source: `Topology::fanout`, with the out-of-bounds indexing of
`descendants[level]` / `descendants[level + 1]` surfaced as `none`. -/
def Topology.fanout (t : Topology) (level : Nat) : Option Nat :=
  if level = 0 then some 0
  else if level = t.height then some 1
  else do
    let a ← t.descQ level
    let b ← t.descQ (level + 1)
    some (a / b)

/-- Source: `Topology::start`. -/
def Topology.start (t : Topology) (p : Pos) : Nat :=
  if p.1 = 0 then 0 else p.2 * t.desc p.1

/-- Source: `Topology::end` (`end` is a Lean keyword, hence `stop`). -/
def Topology.stop (t : Topology) (p : Pos) : Nat :=
  if p.1 = 0 then 0 else t.start p + t.desc p.1

/-- Source: `Topology::offset`. -/
def Topology.offset (t : Topology) (leaf level : Nat) : Nat :=
  if level = 0 then 0 else leaf / t.desc level

/-- Source: `Topology::is_ancestor`. -/
def Topology.isAncestor (t : Topology) (n m : Pos) : Bool :=
  decide (m ≠ ((0, 0) : Pos)) &&
    (decide (n = ((0, 0) : Pos)) ||
      (decide (t.start n ≤ t.start m) && decide (t.stop m ≤ t.stop n)))

/-- Source: `Topology::leaf_position`. -/
def Topology.leafPosition (t : Topology) (leaf : Nat) : Pos :=
  (t.height - 1, leaf)

/-- The `Path` iterator of `topology.rs`, collected to a list.  `fl` is the
current `from` level, `tl` the target level; each `next` steps one level down
towards the target, taking the offset of the target's start at that level. -/
def pathAux (t : Topology) (leaf : Nat) (fl tl : Nat) : List Pos :=
  if fl < tl then (fl + 1, t.offset leaf (fl + 1)) :: pathAux t leaf (fl + 1) tl
  else []
termination_by tl - fl

/-- Source: `Topology::path` (the iterator, collected). -/
def Topology.path (t : Topology) (f p : Pos) : List Pos :=
  pathAux t (t.start p) f.1 p.1

/-- The `State::Post` phase of the `LeveledCoverage` iterator: ascend levels,
emitting as many nodes of the current level as fit.  `none` models the
divergence of the source when a descendant count is `0` and a node "fits"
forever (unreachable for topologies built from positive fanouts). -/
def covPost (t : Topology) (level s e : Nat) : Option (List Pos) :=
  if h : t.height ≤ level then some []
  else
    let d := t.desc level
    if hd : 0 < d ∧ s + d ≤ e then
      (covPost t level (s + d) e).map (fun l => (level, t.offset s level) :: l)
    else if d = 0 ∧ s + d ≤ e then none
    else covPost t (level + 1) s e
termination_by (t.height - level) + (e - s)
decreasing_by
  all_goals omega

/-- The `State::Intra` phase: emit whole nodes of the target level while they
fit, then hand over to `Post`.  The `none` on a missing descendant count
models the out-of-bounds `descendants[self.level]` panic of the source. -/
def covIntra (t : Topology) (lvl s e : Nat) : Option (List Pos) :=
  match t.descQ lvl with
  | none => none
  | some d =>
    if _hd : 0 < d ∧ s + d ≤ e then
      (covIntra t lvl (s + d) e).map (fun l => (lvl, t.offset s lvl) :: l)
    else if d = 0 ∧ s ≤ e then none
    else covPost t (lvl + 1) s e
termination_by e - s

/-- The `State::Pre` phase: descend from the leaf level, emitting a node of
the current level whenever the start is unaligned at the next level up and
the node still fits. -/
def covPre (t : Topology) (lvl level s e : Nat) : Option (List Pos) :=
  if h : level < lvl + 1 then covIntra t lvl s e
  else
    let d := t.desc level
    let d' := t.desc (level - 1)
    if hc : s % d' ≠ 0 ∧ s + d ≤ e then
      if hd : 0 < d then
        (covPre t lvl level (s + d) e).map (fun l => (level, t.offset s level) :: l)
      else none
    else covPre t lvl (level - 1) s e
termination_by level + (e - s)
decreasing_by
  all_goals omega

/-- Source: the `LeveledCoverage` iterator (target level `lvl`, range
`[s, e)`), collected to a list.  The `s > e` guard is the iterator's own
first check; once the phases run, `s ≤ e` is maintained. -/
def Topology.leveledCoverage (t : Topology) (lvl s e : Nat) : Option (List Pos) :=
  if s > e then some [] else covPre t lvl (t.height - 1) s e

/-- Source: `struct Node { pos: Pos, key: Key<N> }`. -/
structure Node where
  pos : Pos
  key : Key
deriving DecidableEq

/-- Source: `Node::new` (position defaults to `(0, 0)`). -/
def Node.new (k : Key) : Node :=
  { pos := (0, 0), key := k }

/-- Source: `Node::with_rng`: draw the next fresh seed from the CSPRNG
stream; returns the node and the advanced stream position. -/
def Node.withRng (ctr : Nat) : Node × Nat :=
  (Node.new (Key.seed ctr), ctr + 1)

/-- Source: `Node::derive`: fold the hash down the topology path. -/
def Node.derive (n : Node) (t : Topology) (p : Pos) : Key :=
  if n.pos = p then n.key
  else (t.path n.pos p).foldl (fun k q => Key.hash k q.1 q.2) n.key

/-- Source: `Node::coverage`: one node per coverage position, keyed by
deriving from `n`.  (The coverage iterator it consumes is the leveled one:
the call passes the target level through.) -/
def Node.coverage (n : Node) (t : Topology) (lvl s e : Nat) : Option (List Node) :=
  (t.leveledCoverage lvl s e).map (List.map (fun p => Node.mk p (n.derive t p)))

/-- A dummy node standing for the unused default of a checked index. -/
def dummyNode : Node :=
  Node.new (Key.seed 0)

/-- The core loop of Rust `slice::binary_search_by` (`left`/`right` bounds,
`mid = left + (right - left) / 2`).  The element access is in bounds whenever
`right ≤ l.length`, which every call guarantees. -/
def bsAux {α : Type} (f : α → Ordering) (l : List α) (d : α) (left right : Nat) :
    Except Nat Nat :=
  if _h : left < right then
    match f (l.getD (left + (right - left) / 2) d) with
    | .lt => bsAux f l d ((left + (right - left) / 2) + 1) right
    | .gt => bsAux f l d left (left + (right - left) / 2)
    | .eq => .ok (left + (right - left) / 2)
  else .error left
termination_by right - left
decreasing_by
  · omega
  · omega

/-- Rust `slice::binary_search_by`. -/
def binarySearchBy {α : Type} (l : List α) (f : α → Ordering) (d : α) : Except Nat Nat :=
  bsAux f l d 0 l.length

/-- The comparator closure of `Khf::derive_key` / `derive_key_immutable`. -/
def rootCmp (t : Topology) (p : Pos) (r : Node) : Ordering :=
  if t.isAncestor r.pos p then .eq
  else if t.stop r.pos ≤ t.start p then .lt
  else .gt

/-- Source: `struct Khf`.  `updatedKeys` models the `BTreeSet` as a sorted
duplicate-free list (its iteration order); `cachedKeys` models the `HashMap`
as an association list with at most one entry per id; `rng` is the position
of the CSPRNG stream (the next fresh seed number). -/
structure Khf where
  topology : Topology
  appendingRoot : Node
  inFlightKeys : Nat
  updatedKeys : List Nat
  roots : List Node
  keys : Nat
  cachedKeys : List (Nat × Key)
  rng : Nat
deriving DecidableEq

/-- Source: `Khf::new` (the appending root is drawn first, then the initial
`(0,0)` root). -/
def Khf.new (fanouts : List Nat) (ctr : Nat) : Khf :=
  let a := Node.withRng ctr
  let r := Node.withRng a.2
  { topology := Topology.new fanouts
    appendingRoot := a.1
    inFlightKeys := 0
    updatedKeys := []
    roots := [r.1]
    keys := 0
    cachedKeys := []
    rng := r.2 }

/-- Source: `Khf::is_consolidated`. -/
def Khf.isConsolidated (s : Khf) : Bool :=
  match s.roots with
  | [r] => decide (r.pos = ((0, 0) : Pos))
  | _ => false

/-- Source: `Khf::fragmentation`. -/
def Khf.fragmentation (s : Khf) : Nat :=
  s.roots.length

/-- HashMap lookup on the cache model. -/
def lookupCache (c : List (Nat × Key)) (x : Nat) : Option Key :=
  (c.find? (fun e => e.1 == x)).map (·.2)

/-- Source: `Khf::derive_key` (private, mutating): append-side derivation
raises `in_flight_keys`; otherwise binary-search the covering root.  The
`unwrap` of a failed search is the `none`. -/
def Khf.deriveKey (s : Khf) (x : Nat) : Option (Key × Khf) :=
  let p := s.topology.leafPosition x
  if s.keys ≤ x then
    some (s.appendingRoot.derive s.topology p,
      { s with inFlightKeys := max s.inFlightKeys (x + 1) })
  else
    match binarySearchBy s.roots (rootCmp s.topology p) dummyNode with
    | .ok i => some ((s.roots.getD i dummyNode).derive s.topology p, s)
    | .error _ => none

/-- Source: `Khf::derive_key_immutable` (cache first, no mutation). -/
def Khf.deriveKeyImmutable (s : Khf) (x : Nat) : Option Key :=
  match lookupCache s.cachedKeys x with
  | some k => some k
  | none =>
    let p := s.topology.leafPosition x
    if s.keys ≤ x then some (s.appendingRoot.derive s.topology p)
    else
      match binarySearchBy s.roots (rootCmp s.topology p) dummyNode with
      | .ok i => some ((s.roots.getD i dummyNode).derive s.topology p)
      | .error _ => none

/-- Source: `KeyManagementScheme::derive` for `Khf`: consult the cache, else
derive and cache the result. -/
def Khf.derive (s : Khf) (x : Nat) : Option (Key × Khf) :=
  match lookupCache s.cachedKeys x with
  | some k => some (k, s)
  | none =>
    (s.deriveKey x).map (fun kk =>
      (kk.1, { kk.2 with cachedKeys := kk.2.cachedKeys ++ [(x, kk.1)] }))

/-- The value `derive` returns, discarding the state change. -/
def Khf.deriveVal (s : Khf) (x : Nat) : Option Key :=
  (s.derive x).map (·.1)

/-- BTreeSet insertion on the sorted-list model. -/
def insertSorted (x : Nat) : List Nat → List Nat
  | [] => [x]
  | y :: ys =>
    if x < y then x :: y :: ys
    else if x = y then y :: ys
    else y :: insertSorted x ys

/-- Source: `KeyManagementScheme::update` for `Khf`. -/
def Khf.update (s : Khf) (x : Nat) : Option (Key × Khf) :=
  ({ s with updatedKeys := insertSorted x s.updatedKeys }).derive x

/-- Source: `Khf::truncate`. -/
def Khf.truncate (s : Khf) (n : Nat) : Khf :=
  { s with inFlightKeys := n }

/-- The loop body of `Khf::updated_key_ranges`: `st` is the start of the open
run and `nxt` the id that would extend it (`prev + 1`, also `start + leaves`).
Equal ids cannot occur in a `BTreeSet` but the translation keeps the source's
behaviour on them (an equal id closes the run, as `leaf != prev + 1`). -/
def ukrAux : List Nat → Nat → Nat → List (Nat × Nat)
  | [], st, nxt => [(st, nxt)]
  | y :: ys, st, nxt =>
    if y = nxt then ukrAux ys st (nxt + 1)
    else (st, nxt) :: ukrAux ys y (y + 1)

/-- Source: `Khf::updated_key_ranges`: maximal consecutive runs, half-open. -/
def updatedKeyRanges (l : List Nat) : List (Nat × Nat) :=
  match l with
  | [] => []
  | x :: xs => ukrAux xs x (x + 1)

/-- The part of `Khf::replace_keys` after the `level == 0` shortcut and the
consolidated expansion: locate the first and last affected roots, fragment
them around `[a, b)`, splice in the donor coverage.  `none` models the
panics of the source (indexing an empty root list, or a panicking coverage
call). -/
def replaceKeysTail (t : Topology) (level a b : Nat) (root : Node)
    (roots0 : List Node) : Option (List Node) := do
  let updateStart := (roots0.findIdx? (fun r => a < t.stop r.pos)).getD (roots0.length - 1)
  let ur ← roots0.get? updateStart
  let leftFrag ←
    if t.start ur.pos ≠ a then ur.coverage t level (t.start ur.pos) a
    else some []
  let front := roots0.take updateStart
  let rest := roots0.drop updateStart
  let mid ← root.coverage t level a b
  let lastR ← rest.getLast?
  if b < t.stop lastR.pos then
    let j := ((rest.findIdx? (fun r => b ≤ t.stop r.pos)).getD rest.length) + 1
    let rb ← rest.get? (j - 1)
    let rightFrag ←
      if t.stop rb.pos ≠ b then rb.coverage t level b (t.stop rb.pos)
      else some []
    some (front ++ leftFrag ++ mid ++ rightFrag ++ rest.drop j)
  else
    some (front ++ leftFrag ++ mid)

/-- Source: `Khf::replace_keys`. -/
def Khf.replaceKeys (s : Khf) (level a b : Nat) (root : Node) : Option Khf :=
  if level = 0 then some { s with roots := [root] }
  else do
    let roots0 ←
      if s.isConsolidated then
        (s.roots.getD 0 dummyNode).coverage s.topology level 0 (max s.inFlightKeys b)
      else some s.roots
    let newRoots ← replaceKeysTail s.topology level a b root roots0
    some { s with roots := newRoots }

/-- Source: `enum Consolidation`. -/
inductive Consolidation where
  | full
  | leveled (level : Nat)
  | ranged (start stop : Nat)
  | rangedLeveled (level start stop : Nat)

/-- Source: `Khf::consolidate_leveled`. -/
def Khf.consolidateLeveled (s : Khf) (level : Nat) : Option (List Nat × Khf) :=
  let affected := List.range s.keys
  let n := Node.withRng s.rng
  (({ s with rng := n.2 }).replaceKeys level 0 s.keys n.1).map
    (fun (s' : Khf) => (affected, { s' with updatedKeys := [] }))

/-- Source: `Khf::consolidate_ranged_leveled` (`affected = start..end`; the
consolidated range is removed from the updated set). -/
def Khf.consolidateRangedLeveled (s : Khf) (level a b : Nat) : Option (List Nat × Khf) :=
  let affected := List.range' a (b - a)
  let n := Node.withRng s.rng
  (({ s with rng := n.2 }).replaceKeys level a b n.1).map
    (fun (s' : Khf) => (affected,
      { s' with updatedKeys := s'.updatedKeys.filter (fun k => decide (k < a) || decide (b ≤ k)) }))

/-- Source: `Khf::consolidate` (dispatch; `Full` is `Leveled 0`, `Ranged` is
`RangedLeveled` at the default root level `1`). -/
def Khf.consolidate (s : Khf) : Consolidation → Option (List Nat × Khf)
  | .full => s.consolidateLeveled 0
  | .leveled level => s.consolidateLeveled level
  | .ranged a b => s.consolidateRangedLeveled 1 a b
  | .rangedLeveled level a b => s.consolidateRangedLeveled level a b

/-- The epilogue shared by every `Khf::commit` branch: clear the cache, draw
a fresh appending root, move `keys` to `in_flight_keys`, clear the updates. -/
def commitFinish (res : List (Nat × Key)) (s : Khf) : List (Nat × Key) × Khf :=
  let a := Node.withRng s.rng
  (res,
    { s with cachedKeys := []
             appendingRoot := a.1
             keys := s.inFlightKeys
             updatedKeys := []
             rng := a.2 })

/-- The `(id, pre-commit key)` pairs every branch of `commit` collects. -/
def commitPairs (s : Khf) : Option (List (Nat × Key)) :=
  s.updatedKeys.mapM (fun x => (s.deriveKeyImmutable x).map (fun k => (x, k)))

/-- Source: `KeyManagementScheme::commit` for `Khf`: the three branches on
`in_flight_keys` versus `keys`, each collecting the pre-commit pairs before
replacing roots.  Run-replacement draws one fresh root per updated run. -/
def Khf.commit (s : Khf) : Option (List (Nat × Key) × Khf) :=
  if s.inFlightKeys = 0 then do
    let res ← commitPairs s
    let n := Node.withRng s.rng
    let s1 ← ({ s with rng := n.2 }).replaceKeys 0 0 0 n.1
    some (commitFinish res s1)
  else if s.keys ≤ s.inFlightKeys then
    if s.updatedKeys.length = s.inFlightKeys then do
      let res ← commitPairs s
      let n := Node.withRng s.rng
      let s1 ← ({ s with rng := n.2 }).replaceKeys 0 0 0 n.1
      some (commitFinish res s1)
    else do
      let res ← commitPairs s
      let s1 ← s.replaceKeys 1 s.keys s.inFlightKeys s.appendingRoot
      let s2 ← (updatedKeyRanges s.updatedKeys).foldlM
        (fun (st : Khf) (ab : Nat × Nat) => do
          let n := Node.withRng st.rng
          ({ st with rng := n.2 }).replaceKeys 1 ab.1 ab.2 n.1)
        s1
      some (commitFinish res s2)
  else
    let s0 : Khf :=
      { s with updatedKeys := s.updatedKeys.filter (fun k => decide (k < s.inFlightKeys)) }
    if s0.updatedKeys.length = s0.inFlightKeys then do
      let res ← commitPairs s0
      let n := Node.withRng s0.rng
      let s1 ← ({ s0 with rng := n.2 }).replaceKeys 0 0 0 n.1
      some (commitFinish res s1)
    else if s0.isConsolidated then do
      let res ← commitPairs s0
      let cov ← (s0.roots.getD 0 dummyNode).coverage s0.topology 1 0 s0.inFlightKeys
      some (commitFinish res { s0 with roots := cov })
    else do
      let res ← commitPairs s0
      let index ← s0.roots.findIdx? (fun r => s0.inFlightKeys < s0.topology.stop r.pos)
      let r ← s0.roots.get? index
      let st := s0.topology.start r.pos
      let cov ← r.coverage s0.topology 1 st s0.inFlightKeys
      some (commitFinish res { s0 with roots := s0.roots.take index ++ cov })

/-- The public operations, for quantifying over call sequences. -/
inductive Op where
  | derive (x : Nat)
  | update (x : Nat)
  | commit
  | consolidate (m : Consolidation)
  | truncate (n : Nat)

/-- Apply one public operation, keeping only the state. -/
def Khf.applyOp (s : Khf) : Op → Option Khf
  | .derive x => (s.derive x).map (·.2)
  | .update x => (s.update x).map (·.2)
  | .commit => s.commit.map (·.2)
  | .consolidate m => (s.consolidate m).map (·.2)
  | .truncate n => some (s.truncate n)

/-- Run a sequence of public operations. -/
def Khf.run (s : Khf) : List Op → Option Khf
  | [] => some s
  | op :: ops => (s.applyOp op).bind (fun s' => s'.run ops)

/-! Specification-side notions used to state and prove the claims. -/

/-- The fanout lists the spec quantifies over: non-empty, every entry at
least 2. -/
def ValidFanouts (fs : List Nat) : Prop :=
  fs ≠ [] ∧ ∀ f ∈ fs, 2 ≤ f

/-- Shape of the descendant counts past the sentinel: a chain ending in `1`
in which each entry is a fanout (at least 2) times the next. -/
def DescChain : List Nat → Prop
  | [] => False
  | [d] => d = 1
  | d :: d' :: ds => (∃ f, 2 ≤ f ∧ d = f * d') ∧ DescChain (d' :: ds)

/-- A topology is valid when its descendant vector is the sentinel `0`
followed by a descendant chain. -/
def Topology.Valid (t : Topology) : Prop :=
  ∃ ds, t.descendants = 0 :: ds ∧ DescChain ds

/-- The positions' leaf ranges are consecutive and cover exactly `[s, e)`:
each position starts where the previous one stopped, beginning at `s` and
ending at `e`.  This is the computable form of "pairwise disjoint, sorted by
start, union exactly `[s, e)`". -/
def tilesExactly (t : Topology) : Nat → Nat → List Pos → Bool
  | s, e, [] => s == e
  | s, e, p :: ps => (t.start p == s) && tilesExactly t (t.stop p) e ps

/-- Level `ℓ` can produce the next coverage block at `s`: its block size is
positive, divides (aligns with) `s`, and a whole block fits below `e`. -/
def qualB (t : Topology) (s e ℓ : Nat) : Bool :=
  decide (0 < t.desc ℓ) && decide (t.desc ℓ ∣ s) && decide (s + t.desc ℓ ≤ e)

/-- Linear search for the smallest qualifying level at or above `ℓ`. -/
def greedyLevelAux (t : Topology) (s e : Nat) : Nat → Nat → Nat
  | ℓ, 0 => ℓ
  | ℓ, fuel + 1 => if qualB t s e ℓ then ℓ else greedyLevelAux t s e (ℓ + 1) fuel

/-- The smallest level in `[lvl, height - 1]` that qualifies at `s` — the
level of the largest aligned block that fits, since block sizes shrink as
levels grow. -/
def greedyLevel (t : Topology) (lvl s e : Nat) : Nat :=
  greedyLevelAux t s e lvl (t.height - 1 - lvl)

/-- Reference coverage: repeatedly emit the largest aligned block (of level
at least `lvl`) that fits, until the range is exhausted. -/
def greedy (t : Topology) (lvl s e : Nat) : List Pos :=
  if h : s < e then
    if hd : 0 < t.desc (greedyLevel t lvl s e) then
      (greedyLevel t lvl s e, s / t.desc (greedyLevel t lvl s e)) ::
        greedy t lvl (s + t.desc (greedyLevel t lvl s e)) e
    else []
  else []
termination_by e - s
decreasing_by
  omega

/-- Derivation from the root list alone (the binary-search half of
`derive_key`). -/
def rootDeriveVal (t : Topology) (roots : List Node) (x : Nat) : Option Key :=
  match binarySearchBy roots (rootCmp t (t.leafPosition x)) dummyNode with
  | .ok i => some ((roots.getD i dummyNode).derive t (t.leafPosition x))
  | .error _ => none

/-- The value `derive` computes when the cache is silent: the appending root
for `x ≥ keys`, the covering root otherwise. -/
def Khf.uncachedVal (s : Khf) (x : Nat) : Option Key :=
  if s.keys ≤ x then some (s.appendingRoot.derive s.topology (s.topology.leafPosition x))
  else rootDeriveVal s.topology s.roots x

/-- Well-formed root positions: levels within `[1, height - 1]`. -/
def wfLevels (t : Topology) (l : List Pos) : Prop :=
  ∀ p ∈ l, 1 ≤ p.1 ∧ p.1 ≤ t.height - 1

/-- The root list is a non-empty exact tiling of `[0, M)` by well-levelled
positions. -/
def RootsTiled (t : Topology) (roots : List Node) (M : Nat) : Prop :=
  tilesExactly t 0 M (roots.map Node.pos) = true ∧
    wfLevels t (roots.map Node.pos) ∧ roots ≠ []

/-- State invariant maintained by every successful public operation: valid
topology, appending root at `(0, 0)`, sorted duplicate-free update set,
appending-side cache entries faithful, and a root list that is either the
single consolidated `(0, 0)` root or an exact tiling of some `[0, M)`. -/
def Khf.WF (s : Khf) : Prop :=
  s.topology.Valid ∧
    s.appendingRoot.pos = (0, 0) ∧
    s.updatedKeys.Chain' (· < ·) ∧
    (∀ c ∈ s.cachedKeys, s.keys ≤ c.1 →
      c.2 = s.appendingRoot.derive s.topology (s.topology.leafPosition c.1)) ∧
    ((∃ k, s.roots = [Node.mk (0, 0) k]) ∨ ∃ M, RootsTiled s.topology s.roots M)

/-- Every cache entry agrees with what the current roots/appending root
derive.  Holds whenever no `consolidate` ran since the last commit. -/
def Khf.CacheOK (s : Khf) : Prop :=
  ∀ c ∈ s.cachedKeys, s.uncachedVal c.1 = some c.2

/-- The tiling reaches at least the committed domain (or the forest is
consolidated).  Holds whenever no `consolidate` ran since the last commit. -/
def Khf.DomOK (s : Khf) : Prop :=
  (∃ k, s.roots = [Node.mk (0, 0) k]) ∨
    ∃ M, RootsTiled s.topology s.roots M ∧ s.keys ≤ M

/-- `WF` together with the two properties `consolidate` may break. -/
def Khf.Strong (s : Khf) : Prop :=
  s.WF ∧ s.CacheOK ∧ s.DomOK

/-- Is the operation a commit? -/
def Op.isCommitOp : Op → Bool
  | .commit => true
  | _ => false

/-- Is the operation a consolidation? -/
def Op.isConsolidateOp : Op → Bool
  | .consolidate _ => true
  | _ => false

/-- No `consolidate` occurs after the last `commit` of the sequence (the
final epoch is consolidation-free). -/
def cleanSuffix (ops : List Op) : Bool :=
  (ops.reverse.takeWhile (fun o => !o.isCommitOp)).all (fun o => !o.isConsolidateOp)

/-- The root-coverage property claimed after every public operation: the
forest is consolidated, or the root ranges tile exactly `[0, keys)`. -/
def Khf.rootsCoverageOK (s : Khf) : Bool :=
  s.isConsolidated || tilesExactly s.topology 0 s.keys (s.roots.map Node.pos)

/-- Ids of an update/commit result list. -/
def resultIds (res : List (Nat × Key)) : List Nat :=
  res.map Prod.fst

/-- Is the operation a `derive` or an `update`? -/
def Op.isDeriveUpdate : Op → Bool
  | .derive _ => true
  | .update _ => true
  | _ => false

/-- The in-flight fields are at their epoch-start values: empty cache, no
pending updates, `in_flight_keys = keys`.  Holds after `new` and after every
`commit`. -/
def Khf.EpochStart (s : Khf) : Prop :=
  s.cachedKeys = [] ∧ s.updatedKeys = [] ∧ s.inFlightKeys = s.keys

/-- The structural state invariant: valid topology, `(0, 0)` appending root,
strictly sorted update set, faithful cache, and roots that either form the
consolidated singleton or tile exactly `[0, keys)`. -/
def Khf.InvCore (s : Khf) : Prop :=
  s.topology.Valid ∧ s.appendingRoot.pos = (0, 0) ∧
    s.updatedKeys.Chain' (· < ·) ∧ s.CacheOK ∧
    ((∃ k, s.roots = [Node.mk (0, 0) k]) ∨ RootsTiled s.topology s.roots s.keys)

/-- The in-flight bookkeeping `truncate` can break: pending updates below the
in-flight bound, and the committed domain not past it. -/
def Khf.Bounded (s : Khf) : Prop :=
  (∀ y ∈ s.updatedKeys, y < s.inFlightKeys) ∧
    (∀ c ∈ s.cachedKeys, c.1 < s.inFlightKeys) ∧ s.keys ≤ s.inFlightKeys

/-- The full invariant maintained by `derive`, `update` and `commit`. -/
def Khf.Inv (s : Khf) : Prop :=
  s.InvCore ∧ s.Bounded

/-- Sequences of `derive`, `update` and `commit` only (no `truncate`, no
`consolidate`). -/
def cleanOps (ops : List Op) : Bool :=
  ops.all (fun op => op.isDeriveUpdate || op.isCommitOp)

/-! Concrete states for the evaluations below: each is the state a short
operation sequence reaches from `Khf.new [2, 2] 0` (topology `[0, 4, 2, 1]`,
height `4`), written out in full so the runs can be checked by computation. -/

/-- The hash chain `Node.derive` folds from a `(0, 0)` node down to leaf
`(3, c)` through `(1, a)` and `(2, b)` in the `[2, 2]` topology. -/
def chainK (k : Key) (a b c : Nat) : Key :=
  Key.hash (Key.hash (Key.hash k 1 a) 2 b) 3 c

/-- After `derive 0`. -/
def exDerive0 : Khf :=
  { topology := Topology.new [2, 2]
    appendingRoot := Node.mk (0, 0) (Key.seed 0)
    inFlightKeys := 1
    updatedKeys := []
    roots := [Node.mk (0, 0) (Key.seed 1)]
    keys := 0
    cachedKeys := [(0, chainK (Key.seed 0) 0 0 0)]
    rng := 2 }

/-- After `derive 0; commit`. -/
def exDerive0C : Khf :=
  { topology := Topology.new [2, 2]
    appendingRoot := Node.mk (0, 0) (Key.seed 2)
    inFlightKeys := 1
    updatedKeys := []
    roots := [Node.mk (3, 0) (chainK (Key.seed 0) 0 0 0)]
    keys := 1
    cachedKeys := []
    rng := 3 }

/-- After `derive 0; update 1`. -/
def exDerive0Upd1 : Khf :=
  { topology := Topology.new [2, 2]
    appendingRoot := Node.mk (0, 0) (Key.seed 0)
    inFlightKeys := 2
    updatedKeys := [1]
    roots := [Node.mk (0, 0) (Key.seed 1)]
    keys := 0
    cachedKeys := [(0, chainK (Key.seed 0) 0 0 0), (1, chainK (Key.seed 0) 0 0 1)]
    rng := 2 }

/-- After `derive 0; update 1; truncate 1`. -/
def exRevoke : Khf :=
  { topology := Topology.new [2, 2]
    appendingRoot := Node.mk (0, 0) (Key.seed 0)
    inFlightKeys := 1
    updatedKeys := [1]
    roots := [Node.mk (0, 0) (Key.seed 1)]
    keys := 0
    cachedKeys := [(0, chainK (Key.seed 0) 0 0 0), (1, chainK (Key.seed 0) 0 0 1)]
    rng := 2 }

/-- After `derive 0; update 1; truncate 1; commit`. -/
def exRevokeC : Khf :=
  { topology := Topology.new [2, 2]
    appendingRoot := Node.mk (0, 0) (Key.seed 3)
    inFlightKeys := 1
    updatedKeys := []
    roots := [Node.mk (0, 0) (Key.seed 2)]
    keys := 1
    cachedKeys := []
    rng := 4 }

/-- After `consolidate (Ranged 0 1)`. -/
def exConsol : Khf :=
  { topology := Topology.new [2, 2]
    appendingRoot := Node.mk (0, 0) (Key.seed 0)
    inFlightKeys := 0
    updatedKeys := []
    roots := [Node.mk (3, 0) (chainK (Key.seed 2) 0 0 0)]
    keys := 0
    cachedKeys := []
    rng := 3 }

/-- After `update 5`. -/
def exUpd5 : Khf :=
  { topology := Topology.new [2, 2]
    appendingRoot := Node.mk (0, 0) (Key.seed 0)
    inFlightKeys := 6
    updatedKeys := [5]
    roots := [Node.mk (0, 0) (Key.seed 1)]
    keys := 0
    cachedKeys := [(5, chainK (Key.seed 0) 1 2 5)]
    rng := 2 }

/-- After `update 5; truncate 1`. -/
def exFastTrunc : Khf :=
  { topology := Topology.new [2, 2]
    appendingRoot := Node.mk (0, 0) (Key.seed 0)
    inFlightKeys := 1
    updatedKeys := [5]
    roots := [Node.mk (0, 0) (Key.seed 1)]
    keys := 0
    cachedKeys := [(5, chainK (Key.seed 0) 1 2 5)]
    rng := 2 }

/-- After `update 5; truncate 1; commit`. -/
def exFastTruncC : Khf :=
  { topology := Topology.new [2, 2]
    appendingRoot := Node.mk (0, 0) (Key.seed 3)
    inFlightKeys := 1
    updatedKeys := []
    roots := [Node.mk (0, 0) (Key.seed 2)]
    keys := 1
    cachedKeys := []
    rng := 4 }

/-- After `update 0`. -/
def exUpd0 : Khf :=
  { topology := Topology.new [2, 2]
    appendingRoot := Node.mk (0, 0) (Key.seed 0)
    inFlightKeys := 1
    updatedKeys := [0]
    roots := [Node.mk (0, 0) (Key.seed 1)]
    keys := 0
    cachedKeys := [(0, chainK (Key.seed 0) 0 0 0)]
    rng := 2 }

/-- After `update 0; update 1`. -/
def exUpd01 : Khf :=
  { topology := Topology.new [2, 2]
    appendingRoot := Node.mk (0, 0) (Key.seed 0)
    inFlightKeys := 2
    updatedKeys := [0, 1]
    roots := [Node.mk (0, 0) (Key.seed 1)]
    keys := 0
    cachedKeys := [(0, chainK (Key.seed 0) 0 0 0), (1, chainK (Key.seed 0) 0 0 1)]
    rng := 2 }

/-- After `update 0; update 1; commit`. -/
def exTwoCommit : Khf :=
  { topology := Topology.new [2, 2]
    appendingRoot := Node.mk (0, 0) (Key.seed 3)
    inFlightKeys := 2
    updatedKeys := []
    roots := [Node.mk (0, 0) (Key.seed 2)]
    keys := 2
    cachedKeys := []
    rng := 4 }

/-- After `update 0; update 1; commit; truncate 1; commit`. -/
def exTwoCommitTC : Khf :=
  { topology := Topology.new [2, 2]
    appendingRoot := Node.mk (0, 0) (Key.seed 4)
    inFlightKeys := 1
    updatedKeys := []
    roots := [Node.mk (3, 0) (chainK (Key.seed 2) 0 0 0)]
    keys := 1
    cachedKeys := []
    rng := 5 }

/-- After `update 0; truncate 0`. -/
def exTrunc0 : Khf :=
  { topology := Topology.new [2, 2]
    appendingRoot := Node.mk (0, 0) (Key.seed 0)
    inFlightKeys := 0
    updatedKeys := [0]
    roots := [Node.mk (0, 0) (Key.seed 1)]
    keys := 0
    cachedKeys := [(0, chainK (Key.seed 0) 0 0 0)]
    rng := 2 }

/-- After `update 0; truncate 0; commit`. -/
def exTrunc0C : Khf :=
  { topology := Topology.new [2, 2]
    appendingRoot := Node.mk (0, 0) (Key.seed 3)
    inFlightKeys := 0
    updatedKeys := []
    roots := [Node.mk (0, 0) (Key.seed 2)]
    keys := 0
    cachedKeys := []
    rng := 4 }

/-- After `derive 5`. -/
def exDerive5 : Khf :=
  { topology := Topology.new [2, 2]
    appendingRoot := Node.mk (0, 0) (Key.seed 0)
    inFlightKeys := 6
    updatedKeys := []
    roots := [Node.mk (0, 0) (Key.seed 1)]
    keys := 0
    cachedKeys := [(5, chainK (Key.seed 0) 1 2 5)]
    rng := 2 }

/-- After `derive 5; truncate 0`. -/
def exCacheHit : Khf :=
  { topology := Topology.new [2, 2]
    appendingRoot := Node.mk (0, 0) (Key.seed 0)
    inFlightKeys := 0
    updatedKeys := []
    roots := [Node.mk (0, 0) (Key.seed 1)]
    keys := 0
    cachedKeys := [(5, chainK (Key.seed 0) 1 2 5)]
    rng := 2 }

/-- After `commit` on the fresh forest. -/
def exFreshC : Khf :=
  { topology := Topology.new [2, 2]
    appendingRoot := Node.mk (0, 0) (Key.seed 3)
    inFlightKeys := 0
    updatedKeys := []
    roots := [Node.mk (0, 0) (Key.seed 2)]
    keys := 0
    cachedKeys := []
    rng := 4 }

/-- After `update 0; update 1; commit; update 1`. -/
def exShrinkMid : Khf :=
  { topology := Topology.new [2, 2]
    appendingRoot := Node.mk (0, 0) (Key.seed 3)
    inFlightKeys := 2
    updatedKeys := [1]
    roots := [Node.mk (0, 0) (Key.seed 2)]
    keys := 2
    cachedKeys := [(1, chainK (Key.seed 2) 0 0 1)]
    rng := 4 }

/-- After `update 0; update 1; commit; update 1; truncate 1`. -/
def exShrink : Khf :=
  { topology := Topology.new [2, 2]
    appendingRoot := Node.mk (0, 0) (Key.seed 3)
    inFlightKeys := 1
    updatedKeys := [1]
    roots := [Node.mk (0, 0) (Key.seed 2)]
    keys := 2
    cachedKeys := [(1, chainK (Key.seed 2) 0 0 1)]
    rng := 4 }

/-- After `update 0; update 1; commit; update 1; truncate 1; commit`. -/
def exShrinkC : Khf :=
  { topology := Topology.new [2, 2]
    appendingRoot := Node.mk (0, 0) (Key.seed 4)
    inFlightKeys := 1
    updatedKeys := []
    roots := [Node.mk (3, 0) (chainK (Key.seed 2) 0 0 0)]
    keys := 1
    cachedKeys := []
    rng := 5 }

/-! Arithmetic of valid descendant chains. -/

theorem descChain_cons_cons {d d' : Nat} {tl : List Nat}
    (h : DescChain (d :: d' :: tl)) :
    (∃ f, 2 ≤ f ∧ d = f * d') ∧ DescChain (d' :: tl) :=
  h

theorem descChain_single {d : Nat} (h : DescChain [d]) : d = 1 :=
  h

theorem descChain_getD_pos {ds : List Nat} (h : DescChain ds) :
    ∀ i, i < ds.length → 0 < ds.getD i 0 := by
  induction ds with
  | nil => exact h.elim
  | cons d tl ih =>
    intro i hi
    match tl, h, ih with
    | [], h, _ =>
      have hd : d = 1 := descChain_single h
      match i, hi with
      | 0, _ => simp [hd]
      | i + 1, hi => simp at hi
    | d' :: tl', h, ih =>
      obtain ⟨⟨f, hf2, hfd⟩, hch⟩ := descChain_cons_cons h
      have hpos := ih hch
      match i with
      | 0 =>
        have h0 : 0 < d' := by simpa using hpos 0 (by simp)
        simp only [List.getD_cons_zero, hfd]
        positivity
      | i + 1 => simpa using hpos i (by simpa using hi)

theorem descChain_last {ds : List Nat} (h : DescChain ds) :
    ds.getD (ds.length - 1) 0 = 1 := by
  induction ds with
  | nil => exact h.elim
  | cons d tl ih =>
    match tl, h, ih with
    | [], h, _ => simpa using descChain_single h
    | d' :: tl', h, ih =>
      obtain ⟨_, hch⟩ := descChain_cons_cons h
      simpa using ih hch

theorem descChain_dvd {ds : List Nat} (h : DescChain ds) :
    ∀ i, i + 1 < ds.length → ds.getD (i + 1) 0 ∣ ds.getD i 0 := by
  induction ds with
  | nil => exact h.elim
  | cons d tl ih =>
    intro i hi
    match tl, h, ih with
    | [], h, _ => simp at hi
    | d' :: tl', h, ih =>
      obtain ⟨⟨f, hf2, hfd⟩, hch⟩ := descChain_cons_cons h
      match i with
      | 0 => simpa [hfd] using Dvd.intro f rfl
      | i + 1 => simpa using ih hch i (by simpa using hi)

theorem descChain_strict {ds : List Nat} (h : DescChain ds) :
    ∀ i, i + 1 < ds.length → ds.getD (i + 1) 0 < ds.getD i 0 := by
  induction ds with
  | nil => exact h.elim
  | cons d tl ih =>
    intro i hi
    match tl, h, ih with
    | [], h, _ => simp at hi
    | d' :: tl', h, ih =>
      obtain ⟨⟨f, hf2, hfd⟩, hch⟩ := descChain_cons_cons h
      match i with
      | 0 =>
        have hp : 0 < d' := by
          simpa using descChain_getD_pos hch 0 (by simp)
        simp only [List.getD_cons_succ, List.getD_cons_zero, hfd]
        nlinarith
      | i + 1 => simpa using ih hch i (by simpa using hi)

/-! Facts about a valid topology. -/

theorem descList_length (fs : List Nat) : ∀ n, (descList fs n).length = fs.length + 1 := by
  induction fs with
  | nil => intro n; rfl
  | cons f fs ih => intro n; simp [descList, ih]

theorem descChain_descList (fs : List Nat) (h : ∀ f ∈ fs, 2 ≤ f) :
    DescChain (descList fs fs.prod) := by
  induction fs with
  | nil => exact rfl
  | cons f fs ih =>
    have hf : 2 ≤ f := h f (by simp)
    have hdiv : (f :: fs).prod / f = fs.prod := by
      simp only [List.prod_cons]
      exact Nat.mul_div_cancel_left _ (by omega)
    have ih' := ih (fun g hg => h g (by simp [hg]))
    show DescChain (descList (f :: fs) (f :: fs).prod)
    simp only [descList, hdiv]
    match fs, ih' with
    | [], ih' =>
      exact ⟨⟨f, hf, by simp⟩, rfl⟩
    | g :: fs', ih' =>
      exact ⟨⟨f, hf, by simp⟩, ih'⟩

theorem valid_new {fs : List Nat} (h : ValidFanouts fs) : (Topology.new fs).Valid :=
  ⟨descList fs fs.prod, rfl, descChain_descList fs h.2⟩

theorem height_new (fs : List Nat) : (Topology.new fs).height = fs.length + 2 := by
  simp [Topology.new, Topology.height, descList_length]

theorem valid_height {t : Topology} (h : t.Valid) : 2 ≤ t.height := by
  obtain ⟨ds, hds, hch⟩ := h
  cases ds with
  | nil => exact hch.elim
  | cons d tl =>
    simp only [Topology.height, hds, List.length_cons]
    omega

theorem valid_desc_zero {t : Topology} (h : t.Valid) : t.desc 0 = 0 := by
  obtain ⟨ds, hds, _⟩ := h
  simp [Topology.desc, hds]

theorem desc_succ_getD {t : Topology} {ds : List Nat} (hds : t.descendants = 0 :: ds)
    (i : Nat) : t.desc (i + 1) = ds.getD i 0 := by
  simp [Topology.desc, hds]

theorem valid_desc_pos {t : Topology} (h : t.Valid) {ℓ : Nat} (h1 : 1 ≤ ℓ)
    (h2 : ℓ ≤ t.height - 1) : 0 < t.desc ℓ := by
  obtain ⟨ds, hds, hch⟩ := h
  obtain ⟨i, rfl⟩ : ∃ i, ℓ = i + 1 := ⟨ℓ - 1, by omega⟩
  rw [desc_succ_getD hds]
  have hlen : t.height = ds.length + 1 := by simp [Topology.height, hds]
  exact descChain_getD_pos hch i (by omega)

theorem valid_desc_last {t : Topology} (h : t.Valid) : t.desc (t.height - 1) = 1 := by
  obtain ⟨ds, hds, hch⟩ := h
  have hlen : t.height = ds.length + 1 := by simp [Topology.height, hds]
  have hne : ds ≠ [] := by cases ds; exact hch.elim; simp
  have h1 : t.height - 1 = (ds.length - 1) + 1 := by
    have : 1 ≤ ds.length := List.length_pos.mpr hne
    omega
  rw [h1, desc_succ_getD hds]
  exact descChain_last hch

theorem valid_desc_dvd_succ {t : Topology} (h : t.Valid) {ℓ : Nat} (h1 : 1 ≤ ℓ)
    (h2 : ℓ + 1 ≤ t.height - 1) : t.desc (ℓ + 1) ∣ t.desc ℓ := by
  obtain ⟨ds, hds, hch⟩ := h
  obtain ⟨i, rfl⟩ : ∃ i, ℓ = i + 1 := ⟨ℓ - 1, by omega⟩
  have hlen : t.height = ds.length + 1 := by simp [Topology.height, hds]
  rw [desc_succ_getD hds, desc_succ_getD hds]
  exact descChain_dvd hch i (by omega)

theorem valid_desc_strict_succ {t : Topology} (h : t.Valid) {ℓ : Nat} (h1 : 1 ≤ ℓ)
    (h2 : ℓ + 1 ≤ t.height - 1) : t.desc (ℓ + 1) < t.desc ℓ := by
  obtain ⟨ds, hds, hch⟩ := h
  obtain ⟨i, rfl⟩ : ∃ i, ℓ = i + 1 := ⟨ℓ - 1, by omega⟩
  have hlen : t.height = ds.length + 1 := by simp [Topology.height, hds]
  rw [desc_succ_getD hds, desc_succ_getD hds]
  exact descChain_strict hch i (by omega)

theorem valid_desc_dvd {t : Topology} (h : t.Valid) {ℓ ℓ' : Nat} (h1 : 1 ≤ ℓ)
    (hle : ℓ ≤ ℓ') (h2 : ℓ' ≤ t.height - 1) : t.desc ℓ' ∣ t.desc ℓ := by
  obtain ⟨k, rfl⟩ : ∃ k, ℓ' = ℓ + k := ⟨ℓ' - ℓ, by omega⟩
  clear hle
  induction k with
  | zero => exact dvd_rfl
  | succ k ih =>
    have hk : ℓ + k ≤ t.height - 1 := by omega
    have hstep : t.desc (ℓ + k + 1) ∣ t.desc (ℓ + k) :=
      valid_desc_dvd_succ h (by omega) (by omega)
    exact hstep.trans (ih hk)

theorem valid_desc_le {t : Topology} (h : t.Valid) {ℓ ℓ' : Nat} (h1 : 1 ≤ ℓ)
    (hle : ℓ ≤ ℓ') (h2 : ℓ' ≤ t.height - 1) : t.desc ℓ' ≤ t.desc ℓ :=
  Nat.le_of_dvd (valid_desc_pos h h1 (by omega)) (valid_desc_dvd h h1 hle h2)

theorem valid_desc_lt {t : Topology} (h : t.Valid) {ℓ ℓ' : Nat} (h1 : 1 ≤ ℓ)
    (hlt : ℓ < ℓ') (h2 : ℓ' ≤ t.height - 1) : t.desc ℓ' < t.desc ℓ := by
  have hs : t.desc (ℓ + 1) < t.desc ℓ := valid_desc_strict_succ h h1 (by omega)
  have hle : t.desc ℓ' ≤ t.desc (ℓ + 1) := valid_desc_le h (by omega) (by omega) h2
  omega

theorem valid_descQ {t : Topology} (h : t.Valid) {ℓ : Nat} (h2 : ℓ ≤ t.height - 1) :
    t.descQ ℓ = some (t.desc ℓ) := by
  have hh := valid_height h
  have : ℓ < t.descendants.length := by
    simp only [Topology.height] at hh h2 ⊢
    omega
  simp [Topology.descQ, Topology.desc, List.get?_eq_getElem?,
    List.getElem?_eq_getElem this, List.getD_eq_getElem _ _ this]

/-! Range arithmetic for positions. -/

theorem start_eq {t : Topology} {p : Pos} (h : p.1 ≠ 0) : t.start p = p.2 * t.desc p.1 := by
  simp [Topology.start, h]

theorem stop_eq {t : Topology} {p : Pos} (h : p.1 ≠ 0) :
    t.stop p = t.start p + t.desc p.1 := by
  simp [Topology.stop, h]

theorem start_le_stop (t : Topology) (p : Pos) : t.start p ≤ t.stop p := by
  by_cases h : p.1 = 0 <;> simp [Topology.start, Topology.stop, h]

theorem start_leaf {t : Topology} (hv : t.Valid) (x : Nat) :
    t.start (t.leafPosition x) = x := by
  have h2 := valid_height hv
  have h1 : t.height - 1 ≠ 0 := by omega
  simp [Topology.leafPosition, Topology.start, h1, valid_desc_last hv]

theorem stop_leaf {t : Topology} (hv : t.Valid) (x : Nat) :
    t.stop (t.leafPosition x) = x + 1 := by
  have h2 := valid_height hv
  have h1 : t.height - 1 ≠ 0 := by omega
  simp [Topology.leafPosition, Topology.stop, Topology.start, h1, valid_desc_last hv]

/-- Division stability inside an aligned block: adding `r < dp` to a
`dp`-aligned number does not change its quotient by any multiple `dl` of
`dp`. -/
theorem div_eq_of_aligned {dp dl a r : Nat} (hpa : dp ∣ a) (hpl : dp ∣ dl) (hp : 0 < dp)
    (hr : r < dp) : (a + r) / dl = a / dl := by
  rcases Nat.eq_zero_or_pos dl with h0 | hdl
  · simp [h0]
  · have hm : dp ∣ a % dl := (Nat.dvd_mod_iff hpl).mpr hpa
    have hmlt : a % dl < dl := Nat.mod_lt _ hdl
    have hmle : a % dl + dp ≤ dl := by
      rcases hm with ⟨u, hu⟩
      rcases hpl with ⟨v, hv⟩
      have huv : u < v := by nlinarith
      have : dp * u + dp ≤ dp * v := by nlinarith
      omega
    have hz : (a % dl + r) / dl = 0 := Nat.div_eq_of_lt (by omega)
    calc (a + r) / dl = (dl * (a / dl) + (a % dl + r)) / dl := by
          rw [← Nat.add_assoc, Nat.div_add_mod]
      _ = a / dl + (a % dl + r) / dl := by rw [Nat.mul_add_div hdl]
      _ = a / dl := by simp [hz]

/-- Offsets of any point of a block agree with the offsets of the block's
start, at every level at or above the block's level. -/
theorem offset_agree {t : Topology} (hv : t.Valid) {p : Pos} (hp1 : 1 ≤ p.1)
    (hp2 : p.1 ≤ t.height - 1) {x : Nat} (hx1 : t.start p ≤ x) (hx2 : x < t.stop p)
    {l : Nat} (hl1 : 1 ≤ l) (hl2 : l ≤ p.1) :
    t.offset x l = t.offset (t.start p) l := by
  have hne : p.1 ≠ 0 := by omega
  have hlne : l ≠ 0 := by omega
  have hd : 0 < t.desc p.1 := valid_desc_pos hv hp1 hp2
  have hdvd : t.desc p.1 ∣ t.desc l := valid_desc_dvd hv hl1 hl2 hp2
  have hal : t.desc p.1 ∣ t.start p := by
    rw [start_eq hne]; exact dvd_mul_left _ _
  obtain ⟨r, hrx⟩ : ∃ r, x = t.start p + r := ⟨x - t.start p, by omega⟩
  have hrlt : r < t.desc p.1 := by
    have hstop : t.stop p = t.start p + t.desc p.1 := stop_eq hne
    omega
  simp only [Topology.offset, hlne, if_false, hrx]
  exact div_eq_of_aligned hal hdvd hd hrlt

/-- The offset of any point of a block at the block's own level is the
block's index. -/
theorem offset_self {t : Topology} (hv : t.Valid) {p : Pos} (hp1 : 1 ≤ p.1)
    (hp2 : p.1 ≤ t.height - 1) {x : Nat} (hx1 : t.start p ≤ x) (hx2 : x < t.stop p) :
    t.offset x p.1 = p.2 := by
  have hne : p.1 ≠ 0 := by omega
  have hd : 0 < t.desc p.1 := valid_desc_pos hv hp1 hp2
  rw [offset_agree hv hp1 hp2 hx1 hx2 (by omega) le_rfl]
  simp only [Topology.offset, hne, if_false, start_eq hne]
  exact Nat.mul_div_cancel _ hd

/-- A block contained in another sits at the same or a deeper level. -/
theorem level_ge_of_subrange {t : Topology} (hv : t.Valid) {r p : Pos} (hr1 : 1 ≤ r.1)
    (hr2 : r.1 ≤ t.height - 1) (hp1 : 1 ≤ p.1) (hp2 : p.1 ≤ t.height - 1)
    (h1 : t.start r ≤ t.start p) (h2 : t.stop p ≤ t.stop r) : r.1 ≤ p.1 := by
  by_contra hlt
  push_neg at hlt
  have hdlt : t.desc r.1 < t.desc p.1 := valid_desc_lt hv hp1 hlt hr2
  have hsr : t.stop r = t.start r + t.desc r.1 := stop_eq (by omega)
  have hsp : t.stop p = t.start p + t.desc p.1 := stop_eq (by omega)
  omega

/-! The path iterator and its composition law. -/

theorem pathAux_eq_range' (t : Topology) (leaf : Nat) :
    ∀ fl tl, pathAux t leaf fl tl =
      (List.range' (fl + 1) (tl - fl)).map (fun l => (l, t.offset leaf l)) := by
  intro fl tl
  obtain ⟨n, hn⟩ : ∃ n, tl - fl = n := ⟨tl - fl, rfl⟩
  induction n generalizing fl with
  | zero =>
    rw [pathAux, if_neg (by omega), hn]
    simp
  | succ n ih =>
    rw [pathAux, if_pos (by omega), hn, List.range'_succ, List.map_cons]
    congr 1
    rw [ih (fl + 1) (by omega)]
    congr 2
    omega

theorem path_append {t : Topology} {np p q : Pos}
    (h1 : np.1 ≤ p.1) (h2 : p.1 ≤ q.1)
    (hA : ∀ l, np.1 + 1 ≤ l → l ≤ p.1 → t.offset (t.start q) l = t.offset (t.start p) l) :
    t.path np q = t.path np p ++ t.path p q := by
  simp only [Topology.path, pathAux_eq_range']
  have hsplit : List.range' (np.1 + 1) (p.1 - np.1) ++ List.range' (p.1 + 1) (q.1 - p.1) =
      List.range' (np.1 + 1) (q.1 - np.1) := by
    have := List.range'_append (np.1 + 1) (p.1 - np.1) (q.1 - p.1) 1
    simp only [one_mul] at this
    rw [show np.1 + 1 + (p.1 - np.1) = p.1 + 1 by omega] at this
    rw [this]
    congr 1
    omega
  rw [← hsplit, List.map_append]
  congr 1
  apply List.map_congr_left
  intro l hl
  have hl' := List.mem_range'_1.mp hl
  rw [hA l (by omega) (by omega)]

/-- Composing derivation through an intermediate block: deriving `q` from
the fragment node `(p, derive n p)` equals deriving `q` from `n` directly,
whenever `p` lies inside `n`'s subtree and `q` inside `p`'s. -/
theorem derive_comp {t : Topology} (hv : t.Valid) (n : Node) {p q : Pos}
    (hn : n.pos = ((0, 0) : Pos) ∨
      (1 ≤ n.pos.1 ∧ n.pos.1 ≤ t.height - 1 ∧ n.pos.1 ≤ p.1 ∧
        t.start n.pos ≤ t.start p ∧ t.stop p ≤ t.stop n.pos))
    (hp1 : 1 ≤ p.1) (hp2 : p.1 ≤ t.height - 1)
    (hq1 : p.1 ≤ q.1) (hq2 : q.1 ≤ t.height - 1)
    (hsq : t.start p ≤ t.start q) (heq : t.stop q ≤ t.stop p) :
    (Node.mk p (n.derive t p)).derive t q = n.derive t q := by
  by_cases hpq : p = q
  · subst hpq
    simp [Node.derive]
  · have hq0 : 1 ≤ q.1 := le_trans hp1 hq1
    have hlt : p.1 < q.1 := by
      rcases Nat.lt_or_ge p.1 q.1 with h | h
      · exact h
      · exfalso
        have heql : p.1 = q.1 := by omega
        have hdp : 0 < t.desc p.1 := valid_desc_pos hv hp1 hp2
        have hsp : t.stop p = t.start p + t.desc p.1 := stop_eq (by omega)
        have hsq' : t.stop q = t.start q + t.desc q.1 := stop_eq (by omega)
        have hstq : t.start q = t.start p := by
          rw [heql] at hsp
          omega
        have hsts : p.2 * t.desc p.1 = q.2 * t.desc q.1 := by
          rw [← start_eq (by omega), ← start_eq (by omega), hstq]
        rw [← heql] at hsts
        have : p.2 = q.2 := Nat.eq_of_mul_eq_mul_right hdp hsts
        exact hpq (Prod.ext heql this)
    have hqstart : t.start p ≤ t.start q ∧ t.start q < t.stop p := by
      constructor
      · exact hsq
      · have hdq : 0 < t.desc q.1 := valid_desc_pos hv hq0 hq2
        have hsq' : t.stop q = t.start q + t.desc q.1 := stop_eq (by omega)
        omega
    have hnq : n.pos ≠ q := by
      rcases hn with h0 | ⟨ha, _, hb, _, _⟩
      · intro hc
        rw [hc] at h0
        have : q.1 = 0 := by rw [h0]
        omega
      · intro hc
        rw [hc] at hb
        omega
    by_cases hnp : n.pos = p
    · have hkey : n.derive t p = n.key := by simp [Node.derive, hnp]
      have hL : (Node.mk p (n.derive t p)).derive t q =
          (t.path p q).foldl (fun k q' => Key.hash k q'.1 q'.2) n.key := by
        simp only [Node.derive]
        rw [if_neg (by simpa using hpq), if_pos hnp]
      have hR : n.derive t q =
          (t.path p q).foldl (fun k q' => Key.hash k q'.1 q'.2) n.key := by
        simp only [Node.derive]
        rw [if_neg hnq, hnp]
      rw [hL, hR]
    · have hsplit : t.path n.pos q = t.path n.pos p ++ t.path p q := by
        apply path_append
        · rcases hn with h0 | ⟨_, _, hb, _, _⟩
          · rw [h0]; omega
          · exact hb
        · omega
        · intro l hl1 hl2
          exact offset_agree hv hp1 hp2 hqstart.1 hqstart.2 (by omega) hl2
      have hL : (Node.mk p (n.derive t p)).derive t q =
          (t.path p q).foldl (fun k q' => Key.hash k q'.1 q'.2) (n.derive t p) := by
        simp only [Node.derive]
        rw [if_neg (by simpa using hpq)]
      have hkey : n.derive t p =
          (t.path n.pos p).foldl (fun k q' => Key.hash k q'.1 q'.2) n.key := by
        simp only [Node.derive]
        rw [if_neg hnp]
      have hR : n.derive t q =
          (t.path n.pos q).foldl (fun k q' => Key.hash k q'.1 q'.2) n.key := by
        simp only [Node.derive]
        rw [if_neg hnq]
      rw [hL, hR, hkey, hsplit, List.foldl_append]

/-! Tiling utilities. -/

theorem tiles_nil_iff {t : Topology} {s e : Nat} :
    tilesExactly t s e [] = true ↔ s = e := by
  simp [tilesExactly]

theorem tiles_cons_iff {t : Topology} {s e : Nat} {p : Pos} {ps : List Pos} :
    tilesExactly t s e (p :: ps) = true ↔
      t.start p = s ∧ tilesExactly t (t.stop p) e ps = true := by
  simp [tilesExactly]

theorem tiles_le {t : Topology} {l : List Pos} :
    ∀ {s e : Nat}, tilesExactly t s e l = true → s ≤ e := by
  induction l with
  | nil => intro s e h; exact le_of_eq (tiles_nil_iff.mp h)
  | cons p ps ih =>
    intro s e h
    obtain ⟨h1, h2⟩ := tiles_cons_iff.mp h
    have := start_le_stop t p
    have := ih h2
    omega

theorem tiles_append_intro {t : Topology} {l1 l2 : List Pos} :
    ∀ {s m e : Nat}, tilesExactly t s m l1 = true → tilesExactly t m e l2 = true →
      tilesExactly t s e (l1 ++ l2) = true := by
  induction l1 with
  | nil =>
    intro s m e h1 h2
    rw [tiles_nil_iff.mp h1]
    simpa using h2
  | cons p ps ih =>
    intro s m e h1 h2
    obtain ⟨ha, hb⟩ := tiles_cons_iff.mp h1
    exact tiles_cons_iff.mpr ⟨ha, ih hb h2⟩

theorem tiles_append_split {t : Topology} {l1 l2 : List Pos} :
    ∀ {s e : Nat}, tilesExactly t s e (l1 ++ l2) = true →
      ∃ m, tilesExactly t s m l1 = true ∧ tilesExactly t m e l2 = true := by
  induction l1 with
  | nil =>
    intro s e h
    exact ⟨s, tiles_nil_iff.mpr rfl, by simpa using h⟩
  | cons p ps ih =>
    intro s e h
    obtain ⟨ha, hb⟩ := tiles_cons_iff.mp (by simpa using h)
    obtain ⟨m, hm1, hm2⟩ := ih hb
    exact ⟨m, tiles_cons_iff.mpr ⟨ha, hm1⟩, hm2⟩

theorem tiles_mem_bounds {t : Topology} {l : List Pos} :
    ∀ {s e : Nat}, tilesExactly t s e l = true → ∀ p ∈ l,
      s ≤ t.start p ∧ t.stop p ≤ e := by
  induction l with
  | nil => intro s e _ p hp; simp at hp
  | cons q ps ih =>
    intro s e h p hp
    obtain ⟨ha, hb⟩ := tiles_cons_iff.mp h
    rcases List.mem_cons.mp hp with rfl | hp'
    · have := tiles_le hb
      have := start_le_stop t p
      omega
    · have := ih hb p hp'
      have := start_le_stop t q
      omega

/-! The greedy coverage and its properties. -/

theorem qualB_iff {t : Topology} {s e ℓ : Nat} :
    qualB t s e ℓ = true ↔ 0 < t.desc ℓ ∧ t.desc ℓ ∣ s ∧ s + t.desc ℓ ≤ e := by
  simp [qualB, and_assoc]

theorem greedyLevelAux_spec (t : Topology) (s e : Nat) :
    ∀ fuel ℓ, qualB t s e (ℓ + fuel) = true →
      ℓ ≤ greedyLevelAux t s e ℓ fuel ∧ greedyLevelAux t s e ℓ fuel ≤ ℓ + fuel ∧
        qualB t s e (greedyLevelAux t s e ℓ fuel) = true ∧
        ∀ j, ℓ ≤ j → j < greedyLevelAux t s e ℓ fuel → qualB t s e j = false := by
  intro fuel
  induction fuel with
  | zero =>
    intro ℓ h
    have h0 : greedyLevelAux t s e ℓ 0 = ℓ := rfl
    rw [h0]
    exact ⟨le_rfl, by omega, by simpa using h, fun j h1 h2 => by omega⟩
  | succ n ih =>
    intro ℓ h
    by_cases hq : qualB t s e ℓ = true
    · have h0 : greedyLevelAux t s e ℓ (n + 1) = ℓ := by
        simp [greedyLevelAux, hq]
      rw [h0]
      exact ⟨le_rfl, by omega, hq, fun j h1 h2 => by omega⟩
    · have h' : qualB t s e ((ℓ + 1) + n) = true := by
        have heq : ℓ + 1 + n = ℓ + (n + 1) := by omega
        rw [heq]; exact h
      obtain ⟨a1, a2, a3, a4⟩ := ih (ℓ + 1) h'
      have hrw : greedyLevelAux t s e ℓ (n + 1) = greedyLevelAux t s e (ℓ + 1) n := by
        simp only [greedyLevelAux, hq, if_false, Bool.false_eq_true]
      rw [hrw]
      refine ⟨by omega, by omega, a3, ?_⟩
      intro j h1 h2
      rcases Nat.eq_or_lt_of_le h1 with rfl | hlt
      · simpa using hq
      · exact a4 j (by omega) h2

theorem greedyLevel_spec {t : Topology} (hv : t.Valid) {lvl s e : Nat} (h1 : 1 ≤ lvl)
    (h2 : lvl ≤ t.height - 1) (hse : s < e) :
    lvl ≤ greedyLevel t lvl s e ∧ greedyLevel t lvl s e ≤ t.height - 1 ∧
      qualB t s e (greedyLevel t lvl s e) = true ∧
      ∀ j, lvl ≤ j → j < greedyLevel t lvl s e → qualB t s e j = false := by
  have hlast : qualB t s e (lvl + (t.height - 1 - lvl)) = true := by
    have hll : lvl + (t.height - 1 - lvl) = t.height - 1 := by omega
    rw [hll]
    simp only [qualB, valid_desc_last hv]
    simp
    omega
  obtain ⟨a1, a2, a3, a4⟩ := greedyLevelAux_spec t s e (t.height - 1 - lvl) lvl hlast
  have hgl : greedyLevel t lvl s e = greedyLevelAux t s e lvl (t.height - 1 - lvl) := rfl
  rw [hgl]
  exact ⟨a1, by omega, a3, a4⟩

theorem greedy_tiles_levels_aux {t : Topology} (hv : t.Valid) {lvl : Nat} (h1 : 1 ≤ lvl)
    (h2 : lvl ≤ t.height - 1) :
    ∀ n s e, s ≤ e → e - s ≤ n →
      tilesExactly t s e (greedy t lvl s e) = true ∧
        ∀ p ∈ greedy t lvl s e, lvl ≤ p.1 ∧ p.1 ≤ t.height - 1 := by
  intro n
  induction n with
  | zero =>
    intro s e hse hn
    have hlt : ¬ s < e := by omega
    rw [greedy, dif_neg hlt]
    exact ⟨tiles_nil_iff.mpr (by omega), by simp⟩
  | succ n ih =>
    intro s e hse hn
    by_cases hlt : s < e
    · obtain ⟨a1, a2, a3, a4⟩ := greedyLevel_spec hv h1 h2 hlt
      obtain ⟨hd, hdvd, hfit⟩ := qualB_iff.mp a3
      rw [greedy, dif_pos hlt, dif_pos hd]
      have hstart : t.start (greedyLevel t lvl s e, s / t.desc (greedyLevel t lvl s e)) = s := by
        rw [start_eq (by simp; omega)]
        exact Nat.div_mul_cancel hdvd
      have hstop : t.stop (greedyLevel t lvl s e, s / t.desc (greedyLevel t lvl s e)) =
          s + t.desc (greedyLevel t lvl s e) := by
        rw [stop_eq (by simp; omega), hstart]
      obtain ⟨b1, b2⟩ := ih (s + t.desc (greedyLevel t lvl s e)) e (by omega) (by omega)
      refine ⟨?_, ?_⟩
      · rw [tiles_cons_iff, hstop]
        exact ⟨hstart, b1⟩
      · intro p hp
        rcases List.mem_cons.mp hp with hpe | hp'
        · rw [hpe]
          exact ⟨a1, a2⟩
        · exact b2 p hp'
    · rw [greedy, dif_neg hlt]
      exact ⟨tiles_nil_iff.mpr (by omega), by simp⟩

theorem greedy_tiles_levels {t : Topology} (hv : t.Valid) {lvl : Nat} (h1 : 1 ≤ lvl)
    (h2 : lvl ≤ t.height - 1) :
    ∀ {s e : Nat}, s ≤ e →
      tilesExactly t s e (greedy t lvl s e) = true ∧
        ∀ p ∈ greedy t lvl s e, lvl ≤ p.1 ∧ p.1 ≤ t.height - 1 := by
  intro s e hse
  exact greedy_tiles_levels_aux hv h1 h2 (e - s) s e hse le_rfl

theorem greedy_tiles {t : Topology} (hv : t.Valid) {lvl s e : Nat} (h1 : 1 ≤ lvl)
    (h2 : lvl ≤ t.height - 1) (hse : s ≤ e) :
    tilesExactly t s e (greedy t lvl s e) = true :=
  (greedy_tiles_levels hv h1 h2 hse).1

theorem greedy_levels {t : Topology} (hv : t.Valid) {lvl s e : Nat} (h1 : 1 ≤ lvl)
    (h2 : lvl ≤ t.height - 1) (hse : s ≤ e) :
    ∀ p ∈ greedy t lvl s e, lvl ≤ p.1 ∧ p.1 ≤ t.height - 1 :=
  (greedy_tiles_levels hv h1 h2 hse).2

/-! The coverage state machine computes the greedy tiling. -/

theorem greedyLevel_eq_of_qual {t : Topology} (hv : t.Valid) {lvl s e ℓ : Nat}
    (h1 : 1 ≤ lvl) (h2 : lvl ≤ t.height - 1) (hse : s < e)
    (hℓ1 : lvl ≤ ℓ) (hq : qualB t s e ℓ = true)
    (hmin : ∀ j, lvl ≤ j → j < ℓ → qualB t s e j = false) :
    greedyLevel t lvl s e = ℓ := by
  obtain ⟨a1, a2, a3, a4⟩ := greedyLevel_spec hv h1 h2 hse
  rcases Nat.lt_trichotomy (greedyLevel t lvl s e) ℓ with h | h | h
  · have := hmin _ a1 h
    rw [this] at a3
    exact absurd a3 (by simp)
  · exact h
  · have := a4 ℓ hℓ1 h
    rw [hq] at this
    exact absurd this (by simp)

theorem greedy_cons_of_qual {t : Topology} (hv : t.Valid) {lvl s e ℓ : Nat}
    (h1 : 1 ≤ lvl) (h2 : lvl ≤ t.height - 1) (hse : s < e)
    (hℓ1 : lvl ≤ ℓ) (hq : qualB t s e ℓ = true)
    (hmin : ∀ j, lvl ≤ j → j < ℓ → qualB t s e j = false) :
    greedy t lvl s e = (ℓ, s / t.desc ℓ) :: greedy t lvl (s + t.desc ℓ) e := by
  have hgl := greedyLevel_eq_of_qual hv h1 h2 hse hℓ1 hq hmin
  obtain ⟨hd, _, _⟩ := qualB_iff.mp hq
  rw [greedy, dif_pos hse]
  rw [hgl]
  rw [dif_pos hd]

theorem greedy_nil_of_ge {t : Topology} {lvl s e : Nat} (h : ¬ s < e) :
    greedy t lvl s e = [] := by
  rw [greedy, dif_neg h]

theorem covPost_eq_aux {t : Topology} (hv : t.Valid) {lvl : Nat} (h1 : 1 ≤ lvl)
    (h2 : lvl ≤ t.height - 1) :
    ∀ n level s e, (t.height + 1 - level) + (e - s) ≤ n → s ≤ e → lvl + 1 ≤ level →
      (∀ ℓ, lvl ≤ ℓ → ℓ < level → ℓ ≤ t.height - 1 → ¬ (s + t.desc ℓ ≤ e)) →
      (∃ ℓa, 1 ≤ ℓa ∧ ℓa ≤ t.height - 1 ∧ t.desc ℓa ∣ s ∧
        (ℓa ≤ level ∨ ¬ (s + t.desc ℓa ≤ e))) →
      covPost t level s e = some (greedy t lvl s e) := by
  intro n
  induction n with
  | zero =>
    intro level s e hm hse hlv hnofit hal
    have hH : t.height ≤ level := by omega
    have hge : ¬ s < e := by omega
    rw [covPost, dif_pos hH, greedy_nil_of_ge hge]
  | succ n ih =>
    intro level s e hm hse hlv hnofit hal
    by_cases hH : t.height ≤ level
    · rw [covPost, dif_pos hH]
      have hge : ¬ s < e := by
        intro hlt
        have := hnofit (t.height - 1) h2 (by omega) le_rfl
        rw [valid_desc_last hv] at this
        omega
      rw [greedy_nil_of_ge hge]
    · rw [covPost, dif_neg hH]
      have hwf : level ≤ t.height - 1 := by omega
      have hd : 0 < t.desc level := valid_desc_pos hv (by omega) hwf
      by_cases hfit : s + t.desc level ≤ e
      · rw [dif_pos ⟨hd, hfit⟩]
        have hse' : s < e := by omega
        have hale : ∃ ℓa, 1 ≤ ℓa ∧ ℓa ≤ t.height - 1 ∧ t.desc ℓa ∣ s ∧ ℓa ≤ level := by
          obtain ⟨ℓa, b1, b2, b3, b4⟩ := hal
          rcases b4 with hle | hnf
          · exact ⟨ℓa, b1, b2, b3, hle⟩
          · rcases le_or_lt ℓa level with hle | hgt
            · exact ⟨ℓa, b1, b2, b3, hle⟩
            · exfalso
              have : t.desc ℓa ≤ t.desc level :=
                valid_desc_le hv (by omega) (by omega) b2
              omega
        obtain ⟨ℓa, b1, b2, b3, b4⟩ := hale
        have halign : t.desc level ∣ s :=
          dvd_trans (valid_desc_dvd hv b1 b4 hwf) b3
        have hq : qualB t s e level = true := qualB_iff.mpr ⟨hd, halign, hfit⟩
        have hmin : ∀ j, lvl ≤ j → j < level → qualB t s e j = false := by
          intro j hj1 hj2
          rcases Bool.eq_false_or_eq_true (qualB t s e j) with h | h
          · obtain ⟨_, _, hjf⟩ := qualB_iff.mp h
            exact absurd hjf (hnofit j hj1 hj2 (by omega))
          · exact h
        rw [greedy_cons_of_qual hv h1 h2 hse' (by omega) hq hmin]
        have hoff : t.offset s level = s / t.desc level := by
          simp [Topology.offset]
          omega
        have hrec : covPost t level (s + t.desc level) e =
            some (greedy t lvl (s + t.desc level) e) := by
          apply ih level (s + t.desc level) e (by omega) (by omega) hlv
          · intro ℓ c1 c2 c3
            have := hnofit ℓ c1 c2 c3
            omega
          · exact ⟨level, by omega, hwf, dvd_add halign dvd_rfl, Or.inl le_rfl⟩
        rw [hrec]
        simp [hoff]
      · rw [dif_neg (by tauto)]
        rw [if_neg (by omega)]
        apply ih (level + 1) s e (by omega) hse (by omega)
        · intro ℓ c1 c2 c3
          rcases Nat.lt_or_ge ℓ level with hc | hc
          · exact hnofit ℓ c1 hc c3
          · have : ℓ = level := by omega
            rw [this]
            exact hfit
        · obtain ⟨ℓa, b1, b2, b3, b4⟩ := hal
          exact ⟨ℓa, b1, b2, b3, by omega⟩

theorem covIntra_eq {t : Topology} (hv : t.Valid) {lvl : Nat} (h1 : 1 ≤ lvl)
    (h2 : lvl ≤ t.height - 1) :
    ∀ n s e, e - s ≤ n → s ≤ e →
      (∃ ℓa, 1 ≤ ℓa ∧ ℓa ≤ t.height - 1 ∧ t.desc ℓa ∣ s ∧
        (ℓa ≤ lvl ∨ ¬ (s + t.desc ℓa ≤ e))) →
      covIntra t lvl s e = some (greedy t lvl s e) := by
  intro n
  induction n with
  | zero =>
    intro s e hm hse hal
    have hse' : s = e := by omega
    have hd : 0 < t.desc lvl := valid_desc_pos hv h1 h2
    rw [covIntra, valid_descQ hv h2]
    simp only
    rw [dif_neg (by omega), if_neg (by omega)]
    apply covPost_eq_aux hv h1 h2 ((t.height + 1 - (lvl + 1)) + (e - s)) (lvl + 1) s e
      le_rfl hse (by omega)
    · intro ℓ c1 c2 c3
      have hdp := valid_desc_pos hv (by omega) c3
      omega
    · obtain ⟨ℓa, b1, b2, b3, b4⟩ := hal
      exact ⟨ℓa, b1, b2, b3, by omega⟩
  | succ n ih =>
    intro s e hm hse hal
    have hd : 0 < t.desc lvl := valid_desc_pos hv h1 h2
    rw [covIntra, valid_descQ hv h2]
    simp only
    by_cases hfit : s + t.desc lvl ≤ e
    · rw [dif_pos ⟨hd, hfit⟩]
      have hse' : s < e := by omega
      have halign : t.desc lvl ∣ s := by
        obtain ⟨ℓa, b1, b2, b3, b4⟩ := hal
        rcases b4 with hle | hnf
        · exact dvd_trans (valid_desc_dvd hv b1 hle h2) b3
        · rcases le_or_lt ℓa lvl with hle | hgt
          · exact dvd_trans (valid_desc_dvd hv b1 hle h2) b3
          · exfalso
            have : t.desc ℓa ≤ t.desc lvl := valid_desc_le hv h1 (by omega) b2
            omega
      have hq : qualB t s e lvl = true := qualB_iff.mpr ⟨hd, halign, hfit⟩
      have hmin : ∀ j, lvl ≤ j → j < lvl → qualB t s e j = false := by
        intro j hj1 hj2; omega
      rw [greedy_cons_of_qual hv h1 h2 hse' le_rfl hq hmin]
      have hoff : t.offset s lvl = s / t.desc lvl := by
        simp [Topology.offset]
        omega
      have hrec : covIntra t lvl (s + t.desc lvl) e =
          some (greedy t lvl (s + t.desc lvl) e) := by
        apply ih (s + t.desc lvl) e (by omega) (by omega)
        exact ⟨lvl, h1, h2, dvd_add halign dvd_rfl, Or.inl le_rfl⟩
      rw [hrec]
      simp [hoff]
    · rw [dif_neg (by tauto), if_neg (by omega)]
      apply covPost_eq_aux hv h1 h2 ((t.height + 1 - (lvl + 1)) + (e - s)) (lvl + 1) s e
        le_rfl hse (by omega)
      · intro ℓ c1 c2 c3
        have : ℓ = lvl := by omega
        rw [this]
        exact hfit
      · obtain ⟨ℓa, b1, b2, b3, b4⟩ := hal
        exact ⟨ℓa, b1, b2, b3, by omega⟩

theorem covPre_eq {t : Topology} (hv : t.Valid) {lvl : Nat} (h1 : 1 ≤ lvl)
    (h2 : lvl ≤ t.height - 1) :
    ∀ n level s e, level + (e - s) ≤ n → s ≤ e → lvl ≤ level → level ≤ t.height - 1 →
      (∃ ℓa, level ≤ ℓa ∧ ℓa ≤ t.height - 1 ∧ t.desc ℓa ∣ s ∧
        (ℓa = level ∨ ¬ (s + t.desc ℓa ≤ e))) →
      covPre t lvl level s e = some (greedy t lvl s e) := by
  intro n
  induction n with
  | zero =>
    intro level s e hm hse hlv hwf hal
    have h0 : level = 0 := by omega
    have : lvl = 0 := by omega
    omega
  | succ n ih =>
    intro level s e hm hse hlv hwf hal
    by_cases hInt : level < lvl + 1
    · have hlev : level = lvl := by omega
      rw [covPre, dif_pos hInt]
      apply covIntra_eq hv h1 h2 (e - s) s e le_rfl hse
      obtain ⟨ℓa, b1, b2, b3, b4⟩ := hal
      refine ⟨ℓa, by omega, b2, b3, ?_⟩
      rcases b4 with he | hnf
      · exact Or.inl (by omega)
      · exact Or.inr hnf
    · rw [covPre, dif_neg hInt]
      have hlv1 : lvl + 1 ≤ level := by omega
      have hd : 0 < t.desc level := valid_desc_pos hv (by omega) hwf
      have hd' : 0 < t.desc (level - 1) := valid_desc_pos hv (by omega) (by omega)
      by_cases hc : s % t.desc (level - 1) ≠ 0 ∧ s + t.desc level ≤ e
      · rw [dif_pos hc, dif_pos hd]
        obtain ⟨hunal, hfit⟩ := hc
        have hse' : s < e := by omega
        have halign : t.desc level ∣ s := by
          obtain ⟨ℓa, b1, b2, b3, b4⟩ := hal
          rcases b4 with he | hnf
          · rw [← he]; exact b3
          · rcases Nat.eq_or_lt_of_le b1 with he | hgt
            · rw [he]; exact b3
            · exfalso
              have : t.desc ℓa ≤ t.desc level := valid_desc_le hv (by omega) (by omega) b2
              omega
        have hq : qualB t s e level = true := qualB_iff.mpr ⟨hd, halign, hfit⟩
        have hmin : ∀ j, lvl ≤ j → j < level → qualB t s e j = false := by
          intro j hj1 hj2
          rcases Bool.eq_false_or_eq_true (qualB t s e j) with h | h
          swap
          · exact h
          · exfalso
            obtain ⟨_, hjd, _⟩ := qualB_iff.mp h
            have hdvd : t.desc (level - 1) ∣ t.desc j :=
              valid_desc_dvd hv (by omega) (by omega) (by omega)
            have : t.desc (level - 1) ∣ s := dvd_trans hdvd hjd
            rw [Nat.dvd_iff_mod_eq_zero] at this
            exact hunal this
        rw [greedy_cons_of_qual hv h1 h2 hse' (by omega) hq hmin]
        have hoff : t.offset s level = s / t.desc level := by
          simp [Topology.offset]
          omega
        have hrec : covPre t lvl level (s + t.desc level) e =
            some (greedy t lvl (s + t.desc level) e) := by
          apply ih level (s + t.desc level) e (by omega) (by omega) hlv hwf
          exact ⟨level, le_rfl, hwf, dvd_add halign dvd_rfl, Or.inl rfl⟩
        rw [hrec]
        simp [hoff]
      · rw [dif_neg hc]
        apply ih (level - 1) s e (by omega) hse (by omega) (by omega)
        push_neg at hc
        by_cases hmod : s % t.desc (level - 1) = 0
        · refine ⟨level - 1, le_rfl, by omega, ?_, Or.inl rfl⟩
          rw [Nat.dvd_iff_mod_eq_zero]
          exact hmod
        · have hnfit : ¬ (s + t.desc level ≤ e) := by
            have := hc hmod
            omega
          obtain ⟨ℓa, b1, b2, b3, b4⟩ := hal
          rcases b4 with he | hnf
          · exact ⟨ℓa, by omega, b2, b3, Or.inr (by rw [he]; exact hnfit)⟩
          · exact ⟨ℓa, by omega, b2, b3, Or.inr hnf⟩

/-- The leveled coverage iterator yields exactly the greedy tiling. -/
theorem leveledCoverage_eq_greedy {t : Topology} (hv : t.Valid) {lvl s e : Nat}
    (h1 : 1 ≤ lvl) (h2 : lvl ≤ t.height - 1) (hse : s ≤ e) :
    t.leveledCoverage lvl s e = some (greedy t lvl s e) := by
  rw [Topology.leveledCoverage, if_neg (by omega)]
  apply covPre_eq hv h1 h2 ((t.height - 1) + (e - s)) (t.height - 1) s e le_rfl hse h2 le_rfl
  refine ⟨t.height - 1, le_rfl, le_rfl, ?_, Or.inl rfl⟩
  rw [valid_desc_last hv]
  exact one_dvd s

/-- Node coverage yields one node per greedy position, keyed by derivation. -/
theorem node_coverage_eq_greedy {t : Topology} (hv : t.Valid) (n : Node) {lvl s e : Nat}
    (h1 : 1 ≤ lvl) (h2 : lvl ≤ t.height - 1) (hse : s ≤ e) :
    n.coverage t lvl s e =
      some ((greedy t lvl s e).map (fun p => Node.mk p (n.derive t p))) := by
  rw [Node.coverage, leveledCoverage_eq_greedy hv h1 h2 hse]
  rfl

/-! Minimality of the greedy tiling among well-levelled tilings. -/

theorem tiles_split_at {t : Topology} (hv : t.Valid) {lvl s e d : Nat}
    (h1 : 1 ≤ lvl) (h2 : lvl ≤ t.height - 1) (hd : 0 < d) (hds : d ∣ s)
    (hfit : s + d ≤ e)
    (hlev : ∃ glv, lvl ≤ glv ∧ glv ≤ t.height - 1 ∧ d = t.desc glv)
    (hmax : ∀ j, lvl ≤ j → j ≤ t.height - 1 → qualB t s e j = true → t.desc j ≤ d) :
    ∀ l' c, s ≤ c → c ≤ s + d → tilesExactly t c e l' = true →
      (∀ p ∈ l', lvl ≤ p.1 ∧ p.1 ≤ t.height - 1) →
      ∃ l1 l2, l' = l1 ++ l2 ∧ tilesExactly t c (s + d) l1 = true ∧
        tilesExactly t (s + d) e l2 = true := by
  intro l'
  induction l' with
  | nil =>
    intro c hc1 hc2 htl hwl
    have hce : c = e := tiles_nil_iff.mp htl
    have : c = s + d := by omega
    exact ⟨[], [], rfl, tiles_nil_iff.mpr this, tiles_nil_iff.mpr (by omega)⟩
  | cons p ps ih =>
    intro c hc1 hc2 htl hwl
    obtain ⟨hstart, htps⟩ := tiles_cons_iff.mp htl
    by_cases hcs : c = s + d
    · exact ⟨[], p :: ps, rfl, tiles_nil_iff.mpr hcs, by rw [← hcs]; exact htl⟩
    · have hclt : c < s + d := by omega
      obtain ⟨hp1, hp2⟩ := hwl p (by simp)
      obtain ⟨glv, hg1, hg2, hgd⟩ := hlev
      have hdB : 0 < t.desc p.1 := valid_desc_pos hv (by omega) hp2
      have hstopp : t.stop p = c + t.desc p.1 := by
        rw [stop_eq (by omega), hstart]
      have hdBc : t.desc p.1 ∣ c := by
        rw [← hstart, start_eq (by omega)]
        exact dvd_mul_left _ _
      have hdBd : t.desc p.1 ∣ d := by
        rcases le_or_lt (t.desc p.1) d with hle | hgt
        · rw [hgd] at hle ⊢
          have hpg : glv ≤ p.1 := by
            by_contra hcon
            push_neg at hcon
            have := valid_desc_lt hv (by omega) hcon hg2
            omega
          exact valid_desc_dvd hv (by omega) hpg hp2
        · exfalso
          have hddB : d ∣ t.desc p.1 := by
            rw [hgd]
            have hpg : p.1 ≤ glv := by
              by_contra hcon
              push_neg at hcon
              have := valid_desc_lt hv (by omega) hcon hp2
              omega
            exact valid_desc_dvd hv (by omega) hpg hg2
          have hdc : d ∣ c := hddB.trans hdBc
          have hceq : c = s := by
            obtain ⟨u, hu⟩ := hds
            obtain ⟨v, hv'⟩ := hdc
            have h1uv : u ≤ v := by nlinarith
            have h2uv : v < u + 1 := by nlinarith
            have huv : u = v := by omega
            rw [hv', ← huv, ← hu]
          have hstope : t.stop p ≤ e := tiles_le htps
          have hq : qualB t s e p.1 = true := by
            rw [qualB_iff]
            refine ⟨hdB, by rw [← hceq]; exact hdBc, ?_⟩
            rw [← hceq]
            omega
          have := hmax p.1 hp1 hp2 hq
          omega
      have hstop_le : t.stop p ≤ s + d := by
        have hdvd_sum : t.desc p.1 ∣ s + d := dvd_add (hdBd.trans hds) hdBd
        obtain ⟨u, hu⟩ := hdBc
        obtain ⟨v, hv'⟩ := hdvd_sum
        have hmul : t.desc p.1 * u < t.desc p.1 * v := by omega
        have huv : u < v := Nat.lt_of_mul_lt_mul_left hmul
        have hle : c + t.desc p.1 ≤ s + d := by
          calc c + t.desc p.1 = t.desc p.1 * (u + 1) := by rw [hu]; ring
            _ ≤ t.desc p.1 * v := Nat.mul_le_mul le_rfl huv
            _ = s + d := hv'.symm
        omega
      obtain ⟨l1, l2, hsplit, ht1, ht2⟩ := ih (t.stop p) (by omega) hstop_le htps
        (fun q hq => hwl q (by simp [hq]))
      exact ⟨p :: l1, l2, by rw [hsplit]; rfl, tiles_cons_iff.mpr ⟨hstart, ht1⟩, ht2⟩

/-- Greedy produces a tiling no longer than any other well-levelled tiling
of the same range. -/
theorem greedy_minimal_aux {t : Topology} (hv : t.Valid) {lvl : Nat} (h1 : 1 ≤ lvl)
    (h2 : lvl ≤ t.height - 1) :
    ∀ n s e, e - s ≤ n → s ≤ e → ∀ l', tilesExactly t s e l' = true →
      (∀ p ∈ l', lvl ≤ p.1 ∧ p.1 ≤ t.height - 1) →
      (greedy t lvl s e).length ≤ l'.length := by
  intro n
  induction n with
  | zero =>
    intro s e hm hse l' htl hwl
    have : ¬ s < e := by omega
    rw [greedy_nil_of_ge this]
    simp
  | succ n ih =>
    intro s e hm hse l' htl hwl
    by_cases hlt : s < e
    · obtain ⟨a1, a2, a3, a4⟩ := greedyLevel_spec hv h1 h2 hlt
      obtain ⟨hd, hdvd, hfit⟩ := qualB_iff.mp a3
      have hmax : ∀ j, lvl ≤ j → j ≤ t.height - 1 → qualB t s e j = true →
          t.desc j ≤ t.desc (greedyLevel t lvl s e) := by
        intro j hj1 hj2 hjq
        rcases le_or_lt (greedyLevel t lvl s e) j with hle | hgt
        · exact valid_desc_le hv (by omega) hle hj2
        · have := a4 j hj1 hgt
          rw [hjq] at this
          exact absurd this (by simp)
      obtain ⟨l1, l2, hsplit, ht1, ht2⟩ := tiles_split_at hv h1 h2 hd hdvd hfit
        ⟨greedyLevel t lvl s e, a1, a2, rfl⟩ hmax l' s le_rfl (by omega) htl hwl
      have hl1ne : l1 ≠ [] := by
        intro hcon
        rw [hcon] at ht1
        have := tiles_nil_iff.mp ht1
        omega
      have hl2wl : ∀ p ∈ l2, lvl ≤ p.1 ∧ p.1 ≤ t.height - 1 := by
        intro q hq
        exact hwl q (by rw [hsplit]; simp [hq])
      have hrec := ih (s + t.desc (greedyLevel t lvl s e)) e (by omega) (by omega) l2 ht2 hl2wl
      rw [greedy, dif_pos hlt, dif_pos hd, hsplit]
      simp only [List.length_cons, List.length_append]
      have : 1 ≤ l1.length := by
        cases l1
        · exact absurd rfl hl1ne
        · simp
      omega
    · rw [greedy_nil_of_ge hlt]
      simp

/-! Binary search correctness. -/

theorem bsAux_ok {α : Type} (f : α → Ordering) (l : List α) (d : α) {k : Nat}
    (hlt : ∀ i, i < k → f (l.getD i d) = .lt)
    (heq : f (l.getD k d) = .eq)
    (hgt : ∀ i, k < i → i < l.length → f (l.getD i d) = .gt) :
    ∀ n left right, right - left ≤ n → left ≤ k → k < right → right ≤ l.length →
      bsAux f l d left right = .ok k := by
  intro n
  induction n with
  | zero => intro left right hm h1 h2 h3; omega
  | succ n ih =>
    intro left right hm h1 h2 h3
    have hlr : left < right := by omega
    rw [bsAux, dif_pos hlr]
    have hmid1 : left ≤ left + (right - left) / 2 := by omega
    have hmid2 : left + (right - left) / 2 < right := by omega
    rcases Nat.lt_trichotomy (left + (right - left) / 2) k with hc | hc | hc
    · rw [hlt _ hc]
      exact ih (left + (right - left) / 2 + 1) right (by omega) (by omega) h2 h3
    · rw [hc, heq]
    · rw [hgt _ hc (by omega)]
      exact ih left (left + (right - left) / 2) (by omega) h1 (by omega) (by omega)

theorem binarySearchBy_ok {α : Type} (l : List α) (f : α → Ordering) (d : α) {k : Nat}
    (hk : k < l.length)
    (hlt : ∀ i, i < k → f (l.getD i d) = .lt)
    (heq : f (l.getD k d) = .eq)
    (hgt : ∀ i, k < i → i < l.length → f (l.getD i d) = .gt) :
    binarySearchBy l f d = .ok k :=
  bsAux_ok f l d hlt heq hgt l.length 0 l.length le_rfl (by omega) hk le_rfl

/-! Locating the covering block of a tiled list. -/

theorem getD_mem {α : Type} {l : List α} {i : Nat} (h : i < l.length) (d : α) :
    l.getD i d ∈ l := by
  rw [List.getD_eq_getElem _ _ h]
  exact List.getElem_mem h

theorem tiles_covering_index {t : Topology} {l : List Pos} :
    ∀ {s e : Nat}, tilesExactly t s e l = true → ∀ x, s ≤ x → x < e →
      ∃ k, k < l.length ∧ t.start (l.getD k (0, 0)) ≤ x ∧ x < t.stop (l.getD k (0, 0)) ∧
        (∀ i, i < k → t.stop (l.getD i (0, 0)) ≤ x) ∧
        (∀ i, k < i → i < l.length → x < t.start (l.getD i (0, 0))) := by
  induction l with
  | nil =>
    intro s e htl x hx1 hx2
    have := tiles_nil_iff.mp htl
    omega
  | cons p ps ih =>
    intro s e htl x hx1 hx2
    obtain ⟨hstart, htps⟩ := tiles_cons_iff.mp htl
    by_cases hx : x < t.stop p
    · refine ⟨0, by simp, by simpa [hstart] using hx1, by simpa using hx, ?_, ?_⟩
      · intro i hi; omega
      · intro i hi1 hi2
        have hmem : ps.getD (i - 1) (0, 0) ∈ ps := by
          apply getD_mem
          simp at hi2
          omega
        have := tiles_mem_bounds htps _ hmem
        have hgd : (p :: ps).getD i (0, 0) = ps.getD (i - 1) (0, 0) := by
          obtain ⟨j, rfl⟩ : ∃ j, i = j + 1 := ⟨i - 1, by omega⟩
          simp
        rw [hgd]
        omega
    · obtain ⟨k, a1, a2, a3, a4, a5⟩ := ih htps x (by omega) hx2
      refine ⟨k + 1, by simpa using a1, by simpa using a2, by simpa using a3, ?_, ?_⟩
      · intro i hi
        match i with
        | 0 => simpa using by omega
        | i + 1 =>
          have := a4 i (by omega)
          simpa using this
      · intro i hi1 hi2
        match i with
        | 0 => omega
        | i + 1 =>
          have := a5 i (by omega) (by simpa using hi2)
          simpa using this

theorem tiles_covering_index_unique {t : Topology} {l : List Pos} :
    ∀ {s e : Nat}, tilesExactly t s e l = true → ∀ x i j, i < l.length → j < l.length →
      t.start (l.getD i (0, 0)) ≤ x → x < t.stop (l.getD i (0, 0)) →
      t.start (l.getD j (0, 0)) ≤ x → x < t.stop (l.getD j (0, 0)) → i = j := by
  induction l with
  | nil => intro s e _ x i j hi; simp at hi
  | cons p ps ih =>
    intro s e htl x i j hi hj hi1 hi2 hj1 hj2
    obtain ⟨hstart, htps⟩ := tiles_cons_iff.mp htl
    have key : ∀ m, m < (p :: ps).length → 0 < m →
        t.start ((p :: ps).getD m (0, 0)) ≤ x → x < t.stop p → False := by
      intro m hm hm0 hms hxp
      obtain ⟨m', rfl⟩ : ∃ m', m = m' + 1 := ⟨m - 1, by omega⟩
      have hmem : ps.getD m' (0, 0) ∈ ps := by
        apply getD_mem
        simpa using hm
      have := tiles_mem_bounds htps _ hmem
      simp only [List.getD_cons_succ] at hms
      omega
    match i, j with
    | 0, 0 => rfl
    | 0, j + 1 =>
      exact (key (j + 1) hj (by omega) hj1 (by simpa using hi2)).elim
    | i + 1, 0 =>
      exact (key (i + 1) hi (by omega) hi1 (by simpa using hj2)).elim
    | i + 1, j + 1 =>
      have := ih htps x i j (by simpa using hi) (by simpa using hj)
        (by simpa using hi1) (by simpa using hi2) (by simpa using hj1) (by simpa using hj2)
      omega

theorem map_pos_getD (roots : List Node) (i : Nat) :
    (roots.map Node.pos).getD i (0, 0) = (roots.getD i dummyNode).pos := by
  induction roots generalizing i with
  | nil => simp [dummyNode, Node.new]
  | cons r rs ih =>
    match i with
    | 0 => simp
    | i + 1 => simpa using ih i

/-! The comparator of `derive_key` on a tiled root list. -/

theorem rootCmp_eq_iff {t : Topology} (hv : t.Valid) {x : Nat} {r : Node}
    (hr1 : 1 ≤ r.pos.1) (hr2 : r.pos.1 ≤ t.height - 1) :
    (rootCmp t (t.leafPosition x) r = .eq ↔
      t.start r.pos ≤ x ∧ x < t.stop r.pos) ∧
    (rootCmp t (t.leafPosition x) r = .lt ↔
      ¬ (t.start r.pos ≤ x ∧ x < t.stop r.pos) ∧ t.stop r.pos ≤ x) ∧
    (rootCmp t (t.leafPosition x) r = .gt ↔
      ¬ (t.start r.pos ≤ x ∧ x < t.stop r.pos) ∧ ¬ t.stop r.pos ≤ x) := by
  have hH := valid_height hv
  have hlp : t.leafPosition x ≠ ((0, 0) : Pos) := by
    simp only [Topology.leafPosition]
    intro hcon
    have : t.height - 1 = 0 := congrArg Prod.fst hcon
    omega
  have hrp : r.pos ≠ ((0, 0) : Pos) := by
    intro hcon
    have : r.pos.1 = 0 := by rw [hcon]
    omega
  have hanc : t.isAncestor r.pos (t.leafPosition x) = true ↔
      t.start r.pos ≤ x ∧ x < t.stop r.pos := by
    simp only [Topology.isAncestor, Bool.and_eq_true, Bool.or_eq_true, decide_eq_true_eq]
    rw [start_leaf hv, stop_leaf hv]
    constructor
    · rintro ⟨_, h | h⟩
      · exact absurd h hrp
      · omega
    · intro ⟨h1, h2⟩
      exact ⟨hlp, Or.inr ⟨h1, by omega⟩⟩
  constructor
  · rw [rootCmp]
    constructor
    · intro h
      by_cases hc : t.isAncestor r.pos (t.leafPosition x)
      · exact hanc.mp hc
      · rw [if_neg hc] at h
        by_cases hc2 : t.stop r.pos ≤ t.start (t.leafPosition x)
        · rw [if_pos hc2] at h
          exact absurd h (by simp)
        · rw [if_neg hc2] at h
          exact absurd h (by simp)
    · intro h
      rw [if_pos (hanc.mpr h)]
  constructor
  · rw [rootCmp]
    constructor
    · intro h
      by_cases hc : t.isAncestor r.pos (t.leafPosition x)
      · rw [if_pos hc] at h
        exact absurd h (by simp)
      · rw [if_neg hc] at h
        by_cases hc2 : t.stop r.pos ≤ t.start (t.leafPosition x)
        · rw [start_leaf hv] at hc2
          exact ⟨fun hcc => hc (hanc.mpr hcc), hc2⟩
        · rw [if_neg hc2] at h
          exact absurd h (by simp)
    · intro ⟨h1, h2⟩
      rw [if_neg (fun hc => h1 (hanc.mp hc)), if_pos (by rw [start_leaf hv]; exact h2)]
  · rw [rootCmp]
    constructor
    · intro h
      by_cases hc : t.isAncestor r.pos (t.leafPosition x)
      · rw [if_pos hc] at h
        exact absurd h (by simp)
      · rw [if_neg hc] at h
        by_cases hc2 : t.stop r.pos ≤ t.start (t.leafPosition x)
        · rw [if_pos hc2] at h
          exact absurd h (by simp)
        · rw [start_leaf hv] at hc2
          exact ⟨fun hcc => hc (hanc.mpr hcc), hc2⟩
    · intro ⟨h1, h2⟩
      rw [if_neg (fun hc => h1 (hanc.mp hc)),
        if_neg (by rw [start_leaf hv]; exact h2)]

/-- On a tiled root list, `rootDeriveVal` derives from the unique covering
root. -/
theorem rootDeriveVal_idx {t : Topology} (hv : t.Valid) {roots : List Node} {M x : Nat}
    (ht : RootsTiled t roots M) (hx : x < M) {i : Nat} (hi : i < roots.length)
    (hc1 : t.start (roots.getD i dummyNode).pos ≤ x)
    (hc2 : x < t.stop (roots.getD i dummyNode).pos) :
    rootDeriveVal t roots x =
      some ((roots.getD i dummyNode).derive t (t.leafPosition x)) := by
  obtain ⟨htl, hwl, hne⟩ := ht
  obtain ⟨k, a1, a2, a3, a4, a5⟩ := tiles_covering_index htl x (by omega) hx
  rw [map_pos_getD] at a2 a3
  have hlen : (roots.map Node.pos).length = roots.length := by simp
  have hik : i = k := by
    apply tiles_covering_index_unique htl x i k (by omega) (by omega)
    · rw [map_pos_getD]; exact hc1
    · rw [map_pos_getD]; exact hc2
    · rw [map_pos_getD]; exact a2
    · rw [map_pos_getD]; exact a3
  subst hik
  have hwf : ∀ j, j < roots.length → 1 ≤ (roots.getD j dummyNode).pos.1 ∧
      (roots.getD j dummyNode).pos.1 ≤ t.height - 1 := by
    intro j hj
    have hmem : (roots.getD j dummyNode).pos ∈ roots.map Node.pos := by
      rw [← map_pos_getD]
      apply getD_mem
      simp
      omega
    exact hwl _ hmem
  have hcmp : binarySearchBy roots (rootCmp t (t.leafPosition x)) dummyNode = .ok i := by
    apply binarySearchBy_ok roots _ dummyNode (by omega)
    · intro j hj
      obtain ⟨w1, w2⟩ := hwf j (by omega)
      have := a4 j hj
      rw [map_pos_getD] at this
      exact ((rootCmp_eq_iff hv w1 w2).2.1).mpr ⟨by omega, this⟩
    · obtain ⟨w1, w2⟩ := hwf i (by omega)
      exact ((rootCmp_eq_iff hv w1 w2).1).mpr ⟨hc1, hc2⟩
    · intro j hj1 hj2
      obtain ⟨w1, w2⟩ := hwf j (by omega)
      have := a5 j hj1 (by omega)
      rw [map_pos_getD] at this
      have hss := start_le_stop t (roots.getD j dummyNode).pos
      exact ((rootCmp_eq_iff hv w1 w2).2.2).mpr ⟨by omega, by omega⟩
  rw [rootDeriveVal, hcmp]

/-- Membership form: any root whose range contains `x` is the one the
binary search finds. -/
theorem rootDeriveVal_mem {t : Topology} (hv : t.Valid) {roots : List Node} {M x : Nat}
    (ht : RootsTiled t roots M) (hx : x < M) {r : Node} (hr : r ∈ roots)
    (hc1 : t.start r.pos ≤ x) (hc2 : x < t.stop r.pos) :
    rootDeriveVal t roots x = some (r.derive t (t.leafPosition x)) := by
  obtain ⟨i, hi, hgd⟩ := List.getElem_of_mem hr
  have hgd' : roots.getD i dummyNode = r := by
    rw [List.getD_eq_getElem _ _ hi, hgd]
  rw [← hgd']
  exact rootDeriveVal_idx hv ht hx hi (by rw [hgd']; exact hc1) (by rw [hgd']; exact hc2)

/-- On the consolidated root list, the search finds the single root. -/
theorem rootDeriveVal_consolidated {t : Topology} (hv : t.Valid) (k : Key) (x : Nat) :
    rootDeriveVal t [Node.mk (0, 0) k] x =
      some ((Node.mk (0, 0) k).derive t (t.leafPosition x)) := by
  have hH := valid_height hv
  have hanc : t.isAncestor (0, 0) (t.leafPosition x) = true := by
    simp only [Topology.isAncestor, Bool.and_eq_true, Bool.or_eq_true, decide_eq_true_eq]
    refine ⟨?_, Or.inl trivial⟩
    simp only [Topology.leafPosition]
    intro hcon
    have : t.height - 1 = 0 := congrArg Prod.fst hcon
    omega
  have hbs : binarySearchBy [Node.mk (0, 0) k] (rootCmp t (t.leafPosition x)) dummyNode =
      .ok 0 := by
    apply binarySearchBy_ok _ _ _ (by simp)
    · intro i hi; omega
    · simp only [List.getD_cons_zero, rootCmp]
      rw [if_pos hanc]
    · intro i hi1 hi2
      simp at hi2
      omega
  rw [rootDeriveVal, hbs]
  rfl

/-! Helpers for the replace-keys decomposition. -/

theorem get?_eq_getD {α : Type} {l : List α} {i : Nat} (h : i < l.length) (d : α) :
    l.get? i = some (l.getD i d) := by
  rw [List.get?_eq_getElem?, List.getElem?_eq_getElem h, List.getD_eq_getElem _ _ h]

theorem getLast?_eq_getD {α : Type} {l : List α} (h : l ≠ []) (d : α) :
    l.getLast? = some (l.getD (l.length - 1) d) := by
  rw [List.getLast?_eq_getLast _ h, List.getLast_eq_getElem,
    List.getD_eq_getElem _ _ (by cases l; simp at h; simp)]

theorem tiles_getLast_stop {t : Topology} {l : List Pos} :
    ∀ {s e : Nat}, tilesExactly t s e l = true → l ≠ [] →
      t.stop (l.getD (l.length - 1) (0, 0)) = e := by
  induction l with
  | nil => intro s e _ h; exact absurd rfl h
  | cons p ps ih =>
    intro s e htl _
    obtain ⟨h1, h2⟩ := tiles_cons_iff.mp htl
    cases ps with
    | nil => simpa using tiles_nil_iff.mp h2
    | cons q qs =>
      have := ih h2 (by simp)
      simpa using this

theorem findIdx_stop_gt {t : Topology} {l : List Node} :
    ∀ {s e : Nat}, tilesExactly t s e (l.map Node.pos) = true → ∀ a, s ≤ a → a < e →
      ∃ i, l.findIdx? (fun r => decide (a < t.stop r.pos)) = some i ∧ i < l.length ∧
        t.start (l.getD i dummyNode).pos ≤ a ∧ a < t.stop (l.getD i dummyNode).pos := by
  induction l with
  | nil =>
    intro s e htl a h1 h2
    have := tiles_nil_iff.mp (by simpa using htl)
    omega
  | cons r rs ih =>
    intro s e htl a h1 h2
    obtain ⟨hs, hrest⟩ := tiles_cons_iff.mp (by simpa using htl)
    by_cases hc : a < t.stop r.pos
    · refine ⟨0, ?_, by simp, by simpa [hs] using h1, by simpa using hc⟩
      rw [List.findIdx?_cons]
      simp [hc]
    · obtain ⟨i, b1, b2, b3, b4⟩ := ih hrest a (by omega) h2
      refine ⟨i + 1, ?_, by simpa using b2, by simpa using b3, by simpa using b4⟩
      rw [List.findIdx?_cons, if_neg (by simpa using hc), List.findIdx?_succ, b1]
      rfl

theorem findIdx_stop_gt_none {t : Topology} {l : List Node} :
    ∀ {s e : Nat}, tilesExactly t s e (l.map Node.pos) = true → ∀ a, e ≤ a →
      l.findIdx? (fun r => decide (a < t.stop r.pos)) = none := by
  induction l with
  | nil => intro s e _ a _; rfl
  | cons r rs ih =>
    intro s e htl a ha
    obtain ⟨hs, hrest⟩ := tiles_cons_iff.mp (by simpa using htl)
    have hle := tiles_le hrest
    have hna : ¬ a < t.stop r.pos := by omega
    rw [List.findIdx?_cons, if_neg (by simpa using hna), List.findIdx?_succ, ih hrest a ha]
    rfl

theorem findIdx_stop_ge {t : Topology} {l : List Node} :
    ∀ {s e : Nat}, tilesExactly t s e (l.map Node.pos) = true → ∀ b, s ≤ b → b ≤ e →
      l ≠ [] →
      ∃ j, l.findIdx? (fun r => decide (b ≤ t.stop r.pos)) = some j ∧ j < l.length ∧
        t.start (l.getD j dummyNode).pos ≤ b ∧ b ≤ t.stop (l.getD j dummyNode).pos ∧
        (∀ i, i < j → t.stop (l.getD i dummyNode).pos < b) := by
  induction l with
  | nil => intro s e htl b h1 h2 h3; exact absurd rfl h3
  | cons r rs ih =>
    intro s e htl b h1 h2 _
    obtain ⟨hs, hrest⟩ := tiles_cons_iff.mp (by simpa using htl)
    by_cases hc : b ≤ t.stop r.pos
    · refine ⟨0, ?_, by simp, by simpa [hs] using h1, by simpa using hc, by omega⟩
      rw [List.findIdx?_cons]
      simp [hc]
    · have hrs : rs ≠ [] := by
        intro hcon
        rw [hcon] at hrest
        have := tiles_nil_iff.mp (by simpa using hrest)
        omega
      obtain ⟨j, b1, b2, b3, b4, b5⟩ := ih hrest b (by omega) h2 hrs
      refine ⟨j + 1, ?_, by simpa using b2, by simpa using b3, by simpa using b4, ?_⟩
      · rw [List.findIdx?_cons, if_neg (by simpa using hc), List.findIdx?_succ, b1]
        rfl
      · intro i hi
        match i with
        | 0 => simpa using by omega
        | i + 1 =>
          have := b5 i (by omega)
          simpa using this

theorem tiles_take_drop {t : Topology} {l : List Pos} {s e : Nat}
    (htl : tilesExactly t s e l = true) (i : Nat) (hi : i < l.length) :
    tilesExactly t s (t.start (l.getD i (0, 0))) (l.take i) = true ∧
      tilesExactly t (t.start (l.getD i (0, 0))) e (l.drop i) = true := by
  have hsplit : l = l.take i ++ l.drop i := (List.take_append_drop i l).symm
  rw [hsplit] at htl
  obtain ⟨m, hm1, hm2⟩ := tiles_append_split htl
  have hlen0 : 0 < (l.drop i).length := by
    rw [List.length_drop]
    omega
  have hhead : (l.drop i).getD 0 (0, 0) = l.getD i (0, 0) := by
    rw [List.getD_eq_getElem _ _ hlen0, List.getD_eq_getElem _ _ hi]
    simp
  have hms : m = t.start (l.getD i (0, 0)) := by
    cases hd : l.drop i with
    | nil =>
      rw [hd] at hlen0
      simp at hlen0
    | cons q qs =>
      rw [hd] at hm2
      obtain ⟨hq, _⟩ := tiles_cons_iff.mp hm2
      rw [hd] at hhead
      simp only [List.getD_cons_zero] at hhead
      rw [← hhead, hq]
  rw [← hms]
  exact ⟨hm1, hm2⟩

/-- Value of a coverage fragment at a leaf it covers: deriving through the
fragment equals deriving from the fragment's source node. -/
theorem frag_val {t : Topology} (hv : t.Valid) {ur : Node} {lvl fs fe : Nat}
    (h1 : 1 ≤ lvl) (h2 : lvl ≤ t.height - 1)
    (hno : ur.pos = ((0, 0) : Pos) ∨
      (1 ≤ ur.pos.1 ∧ ur.pos.1 ≤ t.height - 1 ∧ t.start ur.pos ≤ fs ∧ fe ≤ t.stop ur.pos))
    {n' : Node}
    (hn' : n' ∈ (greedy t lvl fs fe).map (fun p => Node.mk p (ur.derive t p)))
    {x : Nat} (hx1 : t.start n'.pos ≤ x) (hx2 : x < t.stop n'.pos) (hfse : fs ≤ fe) :
    n'.derive t (t.leafPosition x) = ur.derive t (t.leafPosition x) := by
  obtain ⟨p, hp, hpn⟩ := List.mem_map.mp hn'
  obtain ⟨hpl1, hpl2⟩ := greedy_levels hv h1 h2 hfse p hp
  have htg := greedy_tiles hv h1 h2 hfse
  have hbounds := tiles_mem_bounds htg p hp
  have hH := valid_height hv
  have hnp : n'.pos = p := by rw [← hpn]
  have hx1' : t.start p ≤ x := by rwa [hnp] at hx1
  have hx2' : x < t.stop p := by rwa [hnp] at hx2
  rw [← hpn]
  apply derive_comp hv ur _ (by omega) hpl2
    (by simp only [Topology.leafPosition]; omega)
    le_rfl
    (by rw [start_leaf hv]; exact hx1')
    (by rw [stop_leaf hv]; omega)
  rcases hno with h0 | ⟨w1, w2, w3, w4⟩
  · exact Or.inl h0
  · right
    refine ⟨w1, w2, ?_, by omega, by omega⟩
    exact level_ge_of_subrange hv w1 w2 (by omega) hpl2 (by omega) (by omega)

theorem tiles_adjacent {t : Topology} {l : List Pos} {s e : Nat}
    (htl : tilesExactly t s e l = true) {i : Nat} (hi : i + 1 < l.length) :
    t.start (l.getD (i + 1) (0, 0)) = t.stop (l.getD i (0, 0)) := by
  obtain ⟨_, hdrop⟩ := tiles_take_drop htl i (by omega)
  have h1 : l.drop i = l.getD i (0, 0) :: l.drop (i + 1) := by
    rw [List.drop_eq_getElem_cons (by omega), List.getD_eq_getElem _ _ (by omega)]
  rw [h1] at hdrop
  obtain ⟨_, htail⟩ := tiles_cons_iff.mp hdrop
  have h2 : l.drop (i + 1) = l.getD (i + 1) (0, 0) :: l.drop (i + 2) := by
    rw [List.drop_eq_getElem_cons hi, List.getD_eq_getElem _ _ hi]
  rw [h2] at htail
  exact (tiles_cons_iff.mp htail).1

/-- Transport of the derived value through a segment of shared nodes: if a
sub-tiling covering `x` consists of nodes present in both root lists, both
lists derive the same value for `x`. -/
theorem val_eq_of_seg {t : Topology} (hv : t.Valid) {roots0 newRoots : List Node}
    {M1 M2 x : Nat} (h0 : RootsTiled t roots0 M1) (h1 : RootsTiled t newRoots M2)
    (hx1 : x < M1) (hx2 : x < M2) {seg : List Node} {ss se : Nat}
    (hseg : tilesExactly t ss se (seg.map Node.pos) = true)
    (hxs : ss ≤ x) (hxe : x < se)
    (hsub0 : ∀ r ∈ seg, r ∈ roots0) (hsub1 : ∀ r ∈ seg, r ∈ newRoots) :
    rootDeriveVal t newRoots x = rootDeriveVal t roots0 x := by
  obtain ⟨k, a1, a2, a3, _, _⟩ := tiles_covering_index hseg x hxs hxe
  rw [map_pos_getD] at a2 a3
  have hklen : k < seg.length := by simpa using a1
  have hmem : seg.getD k dummyNode ∈ seg := getD_mem hklen dummyNode
  rw [rootDeriveVal_mem hv h1 hx2 (hsub1 _ hmem) a2 a3,
    rootDeriveVal_mem hv h0 hx1 (hsub0 _ hmem) a2 a3]

/-- Transport of the derived value through a fragment segment: if the
coverage fragments of `src` over `[fs, fe)` are all present in the list,
the list derives exactly `src`'s value on `[fs, fe)`. -/
theorem val_frag_seg {t : Topology} (hv : t.Valid) {newRoots : List Node}
    {M2 x lvl fs fe : Nat} {src : Node}
    (h1 : RootsTiled t newRoots M2) (hx2 : x < M2)
    (hl1 : 1 ≤ lvl) (hl2 : lvl ≤ t.height - 1) (hfse : fs ≤ fe)
    (hxs : fs ≤ x) (hxe : x < fe)
    (hno : src.pos = ((0, 0) : Pos) ∨
      (1 ≤ src.pos.1 ∧ src.pos.1 ≤ t.height - 1 ∧ t.start src.pos ≤ fs ∧
        fe ≤ t.stop src.pos))
    (hsub : ∀ r ∈ (greedy t lvl fs fe).map (fun p => Node.mk p (src.derive t p)),
      r ∈ newRoots) :
    rootDeriveVal t newRoots x = some (src.derive t (t.leafPosition x)) := by
  have htg := greedy_tiles hv hl1 hl2 hfse
  obtain ⟨k, a1, a2, a3, _, _⟩ := tiles_covering_index htg x hxs hxe
  have hn' : Node.mk ((greedy t lvl fs fe).getD k (0, 0))
      (src.derive t ((greedy t lvl fs fe).getD k (0, 0))) ∈
      (greedy t lvl fs fe).map (fun p => Node.mk p (src.derive t p)) := by
    apply List.mem_map.mpr
    exact ⟨_, getD_mem a1 (0, 0), rfl⟩
  have hval := rootDeriveVal_mem hv h1 hx2 (hsub _ hn') a2 a3
  rw [hval, frag_val hv hl1 hl2 hno hn' a2 a3 hfse]

/-! Running `replaceKeysTail` given the values of its intermediate steps. -/

theorem replaceKeysTail_run_true {t : Topology} {level a b : Nat} {root : Node}
    {roots0 : List Node} {i : Nat} {ur : Node} {lf mid : List Node} {lastR : Node}
    (hfind : (roots0.findIdx? (fun r => decide (a < t.stop r.pos))).getD
      (roots0.length - 1) = i)
    (hget : roots0.get? i = some ur)
    (hlf : (if t.start ur.pos ≠ a then ur.coverage t level (t.start ur.pos) a
      else some []) = some lf)
    (hmid : root.coverage t level a b = some mid)
    (hlast : (roots0.drop i).getLast? = some lastR)
    (hbr : b < t.stop lastR.pos)
    {j : Nat} {rb : Node} {rf : List Node}
    (hj : ((roots0.drop i).findIdx? (fun r => decide (b ≤ t.stop r.pos))).getD
      (roots0.drop i).length + 1 = j)
    (hrb : (roots0.drop i).get? (j - 1) = some rb)
    (hrf : (if t.stop rb.pos ≠ b then rb.coverage t level b (t.stop rb.pos)
      else some []) = some rf) :
    replaceKeysTail t level a b root roots0 =
      some (roots0.take i ++ lf ++ mid ++ rf ++ (roots0.drop i).drop j) := by
  rw [replaceKeysTail]
  simp only [hfind, hget, Option.bind_some, hlf, hmid, hlast, hj, hrb, hrf,
    Option.bind_eq_bind, Option.some_bind, if_pos hbr]
  by_cases hc1 : t.start ur.pos ≠ a
  · rw [if_pos hc1] at hlf
    rw [if_pos hc1]
    simp only [hlf, Option.some_bind]
    by_cases hc2 : t.stop rb.pos ≠ b
    · rw [if_pos hc2] at hrf
      rw [if_pos hc2]
      simp only [hrf, Option.some_bind]
    · rw [if_neg hc2] at hrf
      simp only [Option.some.injEq] at hrf
      rw [if_neg hc2, ← hrf]
  · rw [if_neg hc1] at hlf
    simp only [Option.some.injEq] at hlf
    rw [if_neg hc1]
    by_cases hc2 : t.stop rb.pos ≠ b
    · rw [if_pos hc2] at hrf
      rw [if_pos hc2]
      simp only [hrf, Option.some_bind, ← hlf]
    · rw [if_neg hc2] at hrf
      simp only [Option.some.injEq] at hrf
      rw [if_neg hc2, ← hrf, ← hlf]

theorem replaceKeysTail_run_false {t : Topology} {level a b : Nat} {root : Node}
    {roots0 : List Node} {i : Nat} {ur : Node} {lf mid : List Node} {lastR : Node}
    (hfind : (roots0.findIdx? (fun r => decide (a < t.stop r.pos))).getD
      (roots0.length - 1) = i)
    (hget : roots0.get? i = some ur)
    (hlf : (if t.start ur.pos ≠ a then ur.coverage t level (t.start ur.pos) a
      else some []) = some lf)
    (hmid : root.coverage t level a b = some mid)
    (hlast : (roots0.drop i).getLast? = some lastR)
    (hbr : ¬ b < t.stop lastR.pos) :
    replaceKeysTail t level a b root roots0 =
      some (roots0.take i ++ lf ++ mid) := by
  rw [replaceKeysTail]
  simp only [hfind, hget, Option.bind_some, hlf, hmid, hlast,
    Option.bind_eq_bind, Option.some_bind, if_neg hbr]
  by_cases hc1 : t.start ur.pos ≠ a
  · rw [if_pos hc1] at hlf
    rw [if_pos hc1]
    simp only [hlf, Option.some_bind]
  · rw [if_neg hc1] at hlf
    simp only [Option.some.injEq] at hlf
    rw [if_neg hc1, ← hlf]

theorem map_pos_mk (g : List Pos) (f : Pos → Key) :
    (g.map (fun p => Node.mk p (f p))).map Node.pos = g := by
  induction g with
  | nil => rfl
  | cons p ps ih => simp only [List.map_cons, ih]

theorem wfLevels_append {t : Topology} {l1 l2 : List Pos}
    (h1 : wfLevels t l1) (h2 : wfLevels t l2) : wfLevels t (l1 ++ l2) := by
  intro p hp
  rcases List.mem_append.mp hp with h | h
  · exact h1 p h
  · exact h2 p h

theorem wfLevels_greedy {t : Topology} (hv : t.Valid) {lvl s e : Nat}
    (h1 : 1 ≤ lvl) (h2 : lvl ≤ t.height - 1) (hse : s ≤ e) :
    wfLevels t (greedy t lvl s e) := by
  intro p hp
  have := greedy_levels hv h1 h2 hse p hp
  omega

theorem wfLevels_sublist {t : Topology} {sub full : List Node}
    (hinc : ∀ r ∈ sub, r ∈ full) (h : wfLevels t (full.map Node.pos)) :
    wfLevels t (sub.map Node.pos) := by
  intro p hp
  obtain ⟨r, hr, rfl⟩ := List.mem_map.mp hp
  exact h _ (List.mem_map.mpr ⟨r, hinc r hr, rfl⟩)

theorem rootsTiled_M_pos {t : Topology} (hv : t.Valid) {roots : List Node} {M : Nat}
    (ht : RootsTiled t roots M) : 0 < M := by
  obtain ⟨htl, hwl, hne⟩ := ht
  cases roots with
  | nil => exact absurd rfl hne
  | cons r rs =>
    obtain ⟨hs, hrest⟩ := tiles_cons_iff.mp (by simpa using htl)
    obtain ⟨w1, w2⟩ := hwl r.pos (by simp)
    have hd : 0 < t.desc r.pos.1 := valid_desc_pos hv w1 w2
    have hstop : t.stop r.pos = t.start r.pos + t.desc r.pos.1 := stop_eq (by omega)
    have := tiles_le hrest
    omega

/-- Value agreement left of the replaced range `[a, b)`: `x` either falls in
the untouched prefix segment or in the left fragment of the straddling root
`ur`, and both lists derive the old value. -/
theorem val_left_region {t : Topology} (hv : t.Valid) {roots0 newRoots : List Node}
    {M M2 a level : Nat} {ur : Node}
    (ht : RootsTiled t roots0 M) (hNew : RootsTiled t newRoots M2)
    (h1 : 1 ≤ level) (h2 : level ≤ t.height - 1)
    (hurm : ur ∈ roots0)
    (hua : t.start ur.pos ≤ a) (hastop : a ≤ t.stop ur.pos)
    {seg : List Node}
    (hseg : tilesExactly t 0 (t.start ur.pos) (seg.map Node.pos) = true)
    (hsub0 : ∀ r ∈ seg, r ∈ roots0) (hsub1 : ∀ r ∈ seg, r ∈ newRoots)
    (hlfsub : ∀ r ∈ (greedy t level (t.start ur.pos) a).map
      (fun p => Node.mk p (ur.derive t p)), r ∈ newRoots)
    {x : Nat} (hx : x < a) (hxM : x < M) (hxM2 : x < M2) :
    rootDeriveVal t newRoots x = rootDeriveVal t roots0 x := by
  by_cases hcx : x < t.start ur.pos
  · exact val_eq_of_seg hv ht hNew hxM hxM2 hseg (Nat.zero_le x) hcx hsub0 hsub1
  · push_neg at hcx
    have hwl0 := ht.2.1
    obtain ⟨w1, w2⟩ := hwl0 ur.pos (List.mem_map.mpr ⟨ur, hurm, rfl⟩)
    have hnew := val_frag_seg hv hNew hxM2 h1 h2 hua hcx hx
      (Or.inr ⟨w1, w2, le_rfl, hastop⟩) hlfsub
    have hold := rootDeriveVal_mem hv ht hxM hurm hcx (by omega)
    rw [hnew, hold]

/-- Value agreement right of the replaced range `[a, b)`: `x` either falls in
the right fragment of the straddling root `rb` or in the untouched suffix
segment, and both lists derive the old value. -/
theorem val_right_region {t : Topology} (hv : t.Valid) {roots0 newRoots : List Node}
    {M M2 b level : Nat} {rb : Node}
    (ht : RootsTiled t roots0 M) (hNew : RootsTiled t newRoots M2)
    (h1 : 1 ≤ level) (h2 : level ≤ t.height - 1)
    (hrbm : rb ∈ roots0)
    (hrs : t.start rb.pos ≤ b) (hrstop : b ≤ t.stop rb.pos)
    {seg : List Node}
    (hseg : tilesExactly t (t.stop rb.pos) M (seg.map Node.pos) = true)
    (hsub0 : ∀ r ∈ seg, r ∈ roots0) (hsub1 : ∀ r ∈ seg, r ∈ newRoots)
    (hrfsub : ∀ r ∈ (greedy t level b (t.stop rb.pos)).map
      (fun p => Node.mk p (rb.derive t p)), r ∈ newRoots)
    {x : Nat} (hbx : b ≤ x) (hxM : x < M) (hxM2 : x < M2) :
    rootDeriveVal t newRoots x = rootDeriveVal t roots0 x := by
  by_cases hcx : x < t.stop rb.pos
  · have hwl0 := ht.2.1
    obtain ⟨w1, w2⟩ := hwl0 rb.pos (List.mem_map.mpr ⟨rb, hrbm, rfl⟩)
    have hnew := val_frag_seg hv hNew hxM2 h1 h2 hrstop hbx hcx
      (Or.inr ⟨w1, w2, hrs, le_rfl⟩) hrfsub
    have hold := rootDeriveVal_mem hv ht hxM hrbm (by omega) hcx
    rw [hnew, hold]
  · push_neg at hcx
    exact val_eq_of_seg hv ht hNew hxM hxM2 hseg hcx hxM hsub0 hsub1

/-- Main specification of the shared tail of `replace_keys`: on a tiled root
list it succeeds, produces a tiling of `[0, max M b)`, and (when `a ≤ M`)
preserves values outside `[a, b)` while rewriting `[a, b)` to derive from the
donor root. -/
theorem replaceKeysTail_spec {t : Topology} (hv : t.Valid) {level a b M : Nat}
    (h1 : 1 ≤ level) (h2 : level ≤ t.height - 1) (hab : a ≤ b)
    {roots0 : List Node} (ht : RootsTiled t roots0 M)
    {root : Node} (hrp : root.pos = ((0, 0) : Pos)) :
    ∃ newRoots, replaceKeysTail t level a b root roots0 = some newRoots ∧
      RootsTiled t newRoots (max M b) ∧
      (a ≤ M →
        (∀ x, x < a → rootDeriveVal t newRoots x = rootDeriveVal t roots0 x) ∧
        (∀ x, b ≤ x → x < M → rootDeriveVal t newRoots x = rootDeriveVal t roots0 x) ∧
        (∀ x, a ≤ x → x < b →
          rootDeriveVal t newRoots x = some (root.derive t (t.leafPosition x)))) := by
  have hM0 : 0 < M := rootsTiled_M_pos hv ht
  obtain ⟨htl0, hwl0, hne0⟩ := ht
  have ht' : RootsTiled t roots0 M := ⟨htl0, hwl0, hne0⟩
  have hlen0 : 0 < roots0.length := List.length_pos.mpr hne0
  have hmideq : root.coverage t level a b =
      some ((greedy t level a b).map (fun p => Node.mk p (root.derive t p))) :=
    node_coverage_eq_greedy hv root h1 h2 hab
  have hmidt : tilesExactly t a b
      (((greedy t level a b).map (fun p => Node.mk p (root.derive t p))).map
        Node.pos) = true := by
    rw [map_pos_mk]
    exact greedy_tiles hv h1 h2 hab
  have hmidw : wfLevels t
      (((greedy t level a b).map (fun p => Node.mk p (root.derive t p))).map
        Node.pos) := by
    rw [map_pos_mk]
    exact wfLevels_greedy hv h1 h2 hab
  by_cases haM : a < M
  · -- the replaced range starts inside the current tiling
    obtain ⟨i, hfind0, hi, hu1, hu2⟩ := findIdx_stop_gt htl0 a (Nat.zero_le a) haM
    obtain ⟨ur, hur⟩ : ∃ u, roots0.getD i dummyNode = u := ⟨_, rfl⟩
    rw [hur] at hu1 hu2
    have hurm : ur ∈ roots0 := by
      rw [← hur]
      exact getD_mem hi dummyNode
    have hfind : (roots0.findIdx? (fun r => decide (a < t.stop r.pos))).getD
        (roots0.length - 1) = i := by
      rw [hfind0]
      rfl
    have hget : roots0.get? i = some ur := by
      rw [← hur]
      exact get?_eq_getD hi dummyNode
    have hi' : i < (roots0.map Node.pos).length := by simpa using hi
    obtain ⟨htake, hdrop⟩ := tiles_take_drop htl0 i hi'
    rw [map_pos_getD, hur] at htake hdrop
    have htake' : tilesExactly t 0 (t.start ur.pos)
        ((roots0.take i).map Node.pos) = true := by
      rw [List.map_take]
      exact htake
    have hdrop' : tilesExactly t (t.start ur.pos) M
        ((roots0.drop i).map Node.pos) = true := by
      rw [List.map_drop]
      exact hdrop
    have hrestlen : 0 < (roots0.drop i).length := by
      rw [List.length_drop]
      omega
    have hrestne : roots0.drop i ≠ [] := List.length_pos.mp hrestlen
    obtain ⟨lastR, hlastR⟩ : ∃ lr,
        (roots0.drop i).getD ((roots0.drop i).length - 1) dummyNode = lr := ⟨_, rfl⟩
    have hlast : (roots0.drop i).getLast? = some lastR := by
      rw [← hlastR]
      exact getLast?_eq_getD hrestne dummyNode
    have hlaststop : t.stop lastR.pos = M := by
      have h := tiles_getLast_stop hdrop' (by simpa using hrestne)
      rw [List.length_map, map_pos_getD, hlastR] at h
      exact h
    have hua : t.start ur.pos ≤ a := hu1
    obtain ⟨lf, hlfeq, hlft, hlfw, hlfsup⟩ : ∃ lf,
        (if t.start ur.pos ≠ a then ur.coverage t level (t.start ur.pos) a
          else some []) = some lf ∧
        tilesExactly t (t.start ur.pos) a (lf.map Node.pos) = true ∧
        wfLevels t (lf.map Node.pos) ∧
        ∀ r ∈ (greedy t level (t.start ur.pos) a).map
          (fun p => Node.mk p (ur.derive t p)), r ∈ lf := by
      by_cases hc : t.start ur.pos ≠ a
      · refine ⟨(greedy t level (t.start ur.pos) a).map
          (fun p => Node.mk p (ur.derive t p)), ?_, ?_, ?_, fun r hr => hr⟩
        · rw [if_pos hc]
          exact node_coverage_eq_greedy hv ur h1 h2 hua
        · rw [map_pos_mk]
          exact greedy_tiles hv h1 h2 hua
        · rw [map_pos_mk]
          exact wfLevels_greedy hv h1 h2 hua
      · push_neg at hc
        refine ⟨[], by rw [if_neg (by omega)], tiles_nil_iff.mpr hc, ?_, ?_⟩
        · intro p hp
          simp at hp
        · intro r hr
          rw [greedy_nil_of_ge (by omega)] at hr
          simp at hr
    by_cases hb : b < M
    · -- the replaced range also ends inside the tiling: right fragment and suffix
      obtain ⟨j0, hj0find, hj0len, hrb1, hrb2, _⟩ :=
        findIdx_stop_ge hdrop' b (le_trans hua hab) (le_of_lt hb) hrestne
      obtain ⟨rb, hrbeq⟩ : ∃ r, (roots0.drop i).getD j0 dummyNode = r := ⟨_, rfl⟩
      rw [hrbeq] at hrb1 hrb2
      have hrbm : rb ∈ roots0 := by
        rw [← hrbeq]
        exact List.mem_of_mem_drop (getD_mem hj0len dummyNode)
      have hj : ((roots0.drop i).findIdx? (fun r => decide (b ≤ t.stop r.pos))).getD
          (roots0.drop i).length + 1 = j0 + 1 := by
        rw [hj0find]
        rfl
      have hrbget : (roots0.drop i).get? (j0 + 1 - 1) = some rb := by
        rw [← hrbeq]
        exact get?_eq_getD hj0len dummyNode
      obtain ⟨rf, hrfeq, hrft, hrfw, hrfsup⟩ : ∃ rf,
          (if t.stop rb.pos ≠ b then rb.coverage t level b (t.stop rb.pos)
            else some []) = some rf ∧
          tilesExactly t b (t.stop rb.pos) (rf.map Node.pos) = true ∧
          wfLevels t (rf.map Node.pos) ∧
          ∀ r ∈ (greedy t level b (t.stop rb.pos)).map
            (fun p => Node.mk p (rb.derive t p)), r ∈ rf := by
        by_cases hc : t.stop rb.pos ≠ b
        · refine ⟨(greedy t level b (t.stop rb.pos)).map
            (fun p => Node.mk p (rb.derive t p)), ?_, ?_, ?_, fun r hr => hr⟩
          · rw [if_pos hc]
            exact node_coverage_eq_greedy hv rb h1 h2 hrb2
          · rw [map_pos_mk]
            exact greedy_tiles hv h1 h2 hrb2
          · rw [map_pos_mk]
            exact wfLevels_greedy hv h1 h2 hrb2
        · push_neg at hc
          refine ⟨[], by rw [if_neg (by omega)], tiles_nil_iff.mpr hc.symm, ?_, ?_⟩
          · intro p hp
            simp at hp
          · intro r hr
            rw [greedy_nil_of_ge (by omega)] at hr
            simp at hr
      have hdj : tilesExactly t (t.stop rb.pos) M
          (((roots0.drop i).drop (j0 + 1)).map Node.pos) = true := by
        by_cases hj1 : j0 + 1 < (roots0.drop i).length
        · have hj1' : j0 + 1 < ((roots0.drop i).map Node.pos).length := by simpa using hj1
          obtain ⟨_, hd2⟩ := tiles_take_drop hdrop' (j0 + 1) hj1'
          have hadj := tiles_adjacent hdrop' hj1'
          rw [hadj, map_pos_getD, hrbeq] at hd2
          rw [List.map_drop]
          exact hd2
        · have hzero : ((roots0.drop i).drop (j0 + 1)).length = 0 := by
            rw [List.length_drop]
            omega
          rw [List.length_eq_zero.mp hzero]
          apply tiles_nil_iff.mpr
          have hj0last : j0 = (roots0.drop i).length - 1 := by omega
          have : rb = lastR := by
            rw [← hrbeq, hj0last, hlastR]
          rw [this, hlaststop]
      have hrun := replaceKeysTail_run_true hfind hget hlfeq hmideq hlast
        (by rw [hlaststop]; exact hb) hj hrbget hrfeq
      refine ⟨_, hrun, ?_, ?_⟩
      · -- structural part: a tiling of [0, M) = [0, max M b)
        rw [Nat.max_eq_left (le_of_lt hb)]
        refine ⟨?_, ?_, ?_⟩
        · simp only [List.map_append]
          exact tiles_append_intro (tiles_append_intro (tiles_append_intro
            (tiles_append_intro htake' hlft) hmidt) hrft) hdj
        · simp only [List.map_append]
          refine wfLevels_append (wfLevels_append (wfLevels_append
            (wfLevels_append ?_ hlfw) hmidw) hrfw) ?_
          · exact wfLevels_sublist (fun r hr => List.mem_of_mem_take hr) hwl0
          · exact wfLevels_sublist
              (fun r hr => List.mem_of_mem_drop (List.mem_of_mem_drop hr)) hwl0
        · intro hcon
          have htlnew : tilesExactly t 0 M
              ((roots0.take i ++ lf ++
                (greedy t level a b).map (fun p => Node.mk p (root.derive t p)) ++
                rf ++ (roots0.drop i).drop (j0 + 1)).map Node.pos) = true := by
            simp only [List.map_append]
            exact tiles_append_intro (tiles_append_intro (tiles_append_intro
              (tiles_append_intro htake' hlft) hmidt) hrft) hdj
          rw [hcon] at htlnew
          have := tiles_nil_iff.mp (by simpa using htlnew)
          omega
      · -- value part
        intro _
        have hNew : RootsTiled t
            (roots0.take i ++ lf ++
              (greedy t level a b).map (fun p => Node.mk p (root.derive t p)) ++
              rf ++ (roots0.drop i).drop (j0 + 1)) M := by
          refine ⟨?_, ?_, ?_⟩
          · simp only [List.map_append]
            exact tiles_append_intro (tiles_append_intro (tiles_append_intro
              (tiles_append_intro htake' hlft) hmidt) hrft) hdj
          · simp only [List.map_append]
            refine wfLevels_append (wfLevels_append (wfLevels_append
              (wfLevels_append ?_ hlfw) hmidw) hrfw) ?_
            · exact wfLevels_sublist (fun r hr => List.mem_of_mem_take hr) hwl0
            · exact wfLevels_sublist
                (fun r hr => List.mem_of_mem_drop (List.mem_of_mem_drop hr)) hwl0
          · intro hcon
            have htlnew : tilesExactly t 0 M
                ((roots0.take i ++ lf ++
                  (greedy t level a b).map (fun p => Node.mk p (root.derive t p)) ++
                  rf ++ (roots0.drop i).drop (j0 + 1)).map Node.pos) = true := by
              simp only [List.map_append]
              exact tiles_append_intro (tiles_append_intro (tiles_append_intro
                (tiles_append_intro htake' hlft) hmidt) hrft) hdj
            rw [hcon] at htlnew
            have := tiles_nil_iff.mp (by simpa using htlnew)
            omega
        have hmemTake : ∀ r ∈ roots0.take i,
            r ∈ roots0.take i ++ lf ++
              (greedy t level a b).map (fun p => Node.mk p (root.derive t p)) ++
              rf ++ (roots0.drop i).drop (j0 + 1) :=
          fun r hr => List.mem_append.mpr (Or.inl (List.mem_append.mpr (Or.inl
            (List.mem_append.mpr (Or.inl (List.mem_append.mpr (Or.inl hr)))))))
        have hmemLf : ∀ r ∈ lf,
            r ∈ roots0.take i ++ lf ++
              (greedy t level a b).map (fun p => Node.mk p (root.derive t p)) ++
              rf ++ (roots0.drop i).drop (j0 + 1) :=
          fun r hr => List.mem_append.mpr (Or.inl (List.mem_append.mpr (Or.inl
            (List.mem_append.mpr (Or.inl (List.mem_append.mpr (Or.inr hr)))))))
        have hmemMid : ∀ r ∈ (greedy t level a b).map
            (fun p => Node.mk p (root.derive t p)),
            r ∈ roots0.take i ++ lf ++
              (greedy t level a b).map (fun p => Node.mk p (root.derive t p)) ++
              rf ++ (roots0.drop i).drop (j0 + 1) :=
          fun r hr => List.mem_append.mpr (Or.inl (List.mem_append.mpr (Or.inl
            (List.mem_append.mpr (Or.inr hr)))))
        have hmemRf : ∀ r ∈ rf,
            r ∈ roots0.take i ++ lf ++
              (greedy t level a b).map (fun p => Node.mk p (root.derive t p)) ++
              rf ++ (roots0.drop i).drop (j0 + 1) :=
          fun r hr => List.mem_append.mpr (Or.inl (List.mem_append.mpr (Or.inr hr)))
        have hmemDrop : ∀ r ∈ (roots0.drop i).drop (j0 + 1),
            r ∈ roots0.take i ++ lf ++
              (greedy t level a b).map (fun p => Node.mk p (root.derive t p)) ++
              rf ++ (roots0.drop i).drop (j0 + 1) :=
          fun r hr => List.mem_append.mpr (Or.inr hr)
        refine ⟨?_, ?_, ?_⟩
        · intro x hx
          exact val_left_region hv ht' hNew h1 h2 hurm hua (le_of_lt hu2)
            htake' (fun r hr => List.mem_of_mem_take hr) hmemTake
            (fun r hr => hmemLf r (hlfsup r hr)) hx (by omega) (by omega)
        · intro x hbx hxM
          exact val_right_region hv ht' hNew h1 h2 hrbm hrb1 hrb2 hdj
            (fun r hr => List.mem_of_mem_drop (List.mem_of_mem_drop hr)) hmemDrop
            (fun r hr => hmemRf r (hrfsup r hr)) hbx hxM hxM
        · intro x hax hxb
          exact val_frag_seg hv hNew (by omega) h1 h2 hab hax hxb
            (Or.inl hrp) hmemMid
    · -- the replaced range ends at or past the tiling: drop the tail entirely
      have hrun := replaceKeysTail_run_false hfind hget hlfeq hmideq hlast
        (by rw [hlaststop]; omega)
      have hbM : M ≤ b := by omega
      have htlnew : tilesExactly t 0 b
          ((roots0.take i ++ lf ++
            (greedy t level a b).map (fun p => Node.mk p (root.derive t p))).map
            Node.pos) = true := by
        simp only [List.map_append]
        exact tiles_append_intro (tiles_append_intro htake' hlft) hmidt
      have hwlnew : wfLevels t
          ((roots0.take i ++ lf ++
            (greedy t level a b).map (fun p => Node.mk p (root.derive t p))).map
            Node.pos) := by
        simp only [List.map_append]
        refine wfLevels_append (wfLevels_append ?_ hlfw) hmidw
        exact wfLevels_sublist (fun r hr => List.mem_of_mem_take hr) hwl0
      have hnenew : roots0.take i ++ lf ++
          (greedy t level a b).map (fun p => Node.mk p (root.derive t p)) ≠ [] := by
        intro hcon
        rw [hcon] at htlnew
        have := tiles_nil_iff.mp (by simpa using htlnew)
        omega
      refine ⟨_, hrun, ?_, ?_⟩
      · rw [Nat.max_eq_right hbM]
        exact ⟨htlnew, hwlnew, hnenew⟩
      · intro _
        have hNew : RootsTiled t
            (roots0.take i ++ lf ++
              (greedy t level a b).map (fun p => Node.mk p (root.derive t p))) b :=
          ⟨htlnew, hwlnew, hnenew⟩
        have hmemTake : ∀ r ∈ roots0.take i,
            r ∈ roots0.take i ++ lf ++
              (greedy t level a b).map (fun p => Node.mk p (root.derive t p)) :=
          fun r hr => List.mem_append.mpr (Or.inl (List.mem_append.mpr (Or.inl hr)))
        have hmemLf : ∀ r ∈ lf,
            r ∈ roots0.take i ++ lf ++
              (greedy t level a b).map (fun p => Node.mk p (root.derive t p)) :=
          fun r hr => List.mem_append.mpr (Or.inl (List.mem_append.mpr (Or.inr hr)))
        have hmemMid : ∀ r ∈ (greedy t level a b).map
            (fun p => Node.mk p (root.derive t p)),
            r ∈ roots0.take i ++ lf ++
              (greedy t level a b).map (fun p => Node.mk p (root.derive t p)) :=
          fun r hr => List.mem_append.mpr (Or.inr hr)
        refine ⟨?_, ?_, ?_⟩
        · intro x hx
          exact val_left_region hv ht' hNew h1 h2 hurm hua (le_of_lt hu2)
            htake' (fun r hr => List.mem_of_mem_take hr) hmemTake
            (fun r hr => hmemLf r (hlfsup r hr)) hx (by omega) (by omega)
        · intro x hbx hxM
          omega
        · intro x hax hxb
          exact val_frag_seg hv hNew (by omega) h1 h2 hab hax hxb
            (Or.inl hrp) hmemMid
  · -- the replaced range starts at or past the tiling: the search fails and
    -- the last root is fragmented up to `a`
    push_neg at haM
    have hfind0 := findIdx_stop_gt_none htl0 a haM
    have hfind : (roots0.findIdx? (fun r => decide (a < t.stop r.pos))).getD
        (roots0.length - 1) = roots0.length - 1 := by
      rw [hfind0]
      rfl
    have hilen : roots0.length - 1 < roots0.length := by omega
    obtain ⟨ur, hur⟩ : ∃ u, roots0.getD (roots0.length - 1) dummyNode = u := ⟨_, rfl⟩
    have hurm : ur ∈ roots0 := by
      rw [← hur]
      exact getD_mem hilen dummyNode
    have hget : roots0.get? (roots0.length - 1) = some ur := by
      rw [← hur]
      exact get?_eq_getD hilen dummyNode
    have hstopur : t.stop ur.pos = M := by
      have h := tiles_getLast_stop htl0 (by simpa using hne0)
      rw [List.length_map, map_pos_getD, hur] at h
      exact h
    obtain ⟨w1u, w2u⟩ := hwl0 ur.pos (List.mem_map.mpr ⟨ur, hurm, rfl⟩)
    have hdu : 0 < t.desc ur.pos.1 := valid_desc_pos hv w1u w2u
    have hsps : t.stop ur.pos = t.start ur.pos + t.desc ur.pos.1 := stop_eq (by omega)
    have hstartur : t.start ur.pos < M := by omega
    have hua : t.start ur.pos ≤ a := by omega
    obtain ⟨htake, hdrop⟩ := tiles_take_drop htl0 (roots0.length - 1) (by simpa using hilen)
    rw [map_pos_getD, hur] at htake hdrop
    have htake' : tilesExactly t 0 (t.start ur.pos)
        ((roots0.take (roots0.length - 1)).map Node.pos) = true := by
      rw [List.map_take]
      exact htake
    have hdrop' : tilesExactly t (t.start ur.pos) M
        ((roots0.drop (roots0.length - 1)).map Node.pos) = true := by
      rw [List.map_drop]
      exact hdrop
    have hrestlen : 0 < (roots0.drop (roots0.length - 1)).length := by
      rw [List.length_drop]
      omega
    have hrestne : roots0.drop (roots0.length - 1) ≠ [] := List.length_pos.mp hrestlen
    obtain ⟨lastR, hlastR⟩ : ∃ lr,
        (roots0.drop (roots0.length - 1)).getD
          ((roots0.drop (roots0.length - 1)).length - 1) dummyNode = lr := ⟨_, rfl⟩
    have hlast : (roots0.drop (roots0.length - 1)).getLast? = some lastR := by
      rw [← hlastR]
      exact getLast?_eq_getD hrestne dummyNode
    have hlaststop : t.stop lastR.pos = M := by
      have h := tiles_getLast_stop hdrop' (by simpa using hrestne)
      rw [List.length_map, map_pos_getD, hlastR] at h
      exact h
    have hc : t.start ur.pos ≠ a := by omega
    have hlfeq : (if t.start ur.pos ≠ a then ur.coverage t level (t.start ur.pos) a
        else some []) =
        some ((greedy t level (t.start ur.pos) a).map
          (fun p => Node.mk p (ur.derive t p))) := by
      rw [if_pos hc]
      exact node_coverage_eq_greedy hv ur h1 h2 hua
    have hlft : tilesExactly t (t.start ur.pos) a
        (((greedy t level (t.start ur.pos) a).map
          (fun p => Node.mk p (ur.derive t p))).map Node.pos) = true := by
      rw [map_pos_mk]
      exact greedy_tiles hv h1 h2 hua
    have hlfw : wfLevels t
        (((greedy t level (t.start ur.pos) a).map
          (fun p => Node.mk p (ur.derive t p))).map Node.pos) := by
      rw [map_pos_mk]
      exact wfLevels_greedy hv h1 h2 hua
    have hrun := replaceKeysTail_run_false hfind hget hlfeq hmideq hlast
      (by rw [hlaststop]; omega)
    have hbM : M ≤ b := by omega
    have htlnew : tilesExactly t 0 b
        ((roots0.take (roots0.length - 1) ++
          (greedy t level (t.start ur.pos) a).map
            (fun p => Node.mk p (ur.derive t p)) ++
          (greedy t level a b).map (fun p => Node.mk p (root.derive t p))).map
          Node.pos) = true := by
      simp only [List.map_append]
      exact tiles_append_intro (tiles_append_intro htake' hlft) hmidt
    have hwlnew : wfLevels t
        ((roots0.take (roots0.length - 1) ++
          (greedy t level (t.start ur.pos) a).map
            (fun p => Node.mk p (ur.derive t p)) ++
          (greedy t level a b).map (fun p => Node.mk p (root.derive t p))).map
          Node.pos) := by
      simp only [List.map_append]
      refine wfLevels_append (wfLevels_append ?_ hlfw) hmidw
      exact wfLevels_sublist (fun r hr => List.mem_of_mem_take hr) hwl0
    have hnenew : roots0.take (roots0.length - 1) ++
        (greedy t level (t.start ur.pos) a).map
          (fun p => Node.mk p (ur.derive t p)) ++
        (greedy t level a b).map (fun p => Node.mk p (root.derive t p)) ≠ [] := by
      intro hcon
      rw [hcon] at htlnew
      have := tiles_nil_iff.mp (by simpa using htlnew)
      omega
    refine ⟨_, hrun, ?_, ?_⟩
    · rw [Nat.max_eq_right hbM]
      exact ⟨htlnew, hwlnew, hnenew⟩
    · intro haM'
      have hNew : RootsTiled t
          (roots0.take (roots0.length - 1) ++
            (greedy t level (t.start ur.pos) a).map
              (fun p => Node.mk p (ur.derive t p)) ++
            (greedy t level a b).map (fun p => Node.mk p (root.derive t p))) b :=
        ⟨htlnew, hwlnew, hnenew⟩
      have hmemTake : ∀ r ∈ roots0.take (roots0.length - 1),
          r ∈ roots0.take (roots0.length - 1) ++
            (greedy t level (t.start ur.pos) a).map
              (fun p => Node.mk p (ur.derive t p)) ++
            (greedy t level a b).map (fun p => Node.mk p (root.derive t p)) :=
        fun r hr => List.mem_append.mpr (Or.inl (List.mem_append.mpr (Or.inl hr)))
      have hmemLf : ∀ r ∈ (greedy t level (t.start ur.pos) a).map
          (fun p => Node.mk p (ur.derive t p)),
          r ∈ roots0.take (roots0.length - 1) ++
            (greedy t level (t.start ur.pos) a).map
              (fun p => Node.mk p (ur.derive t p)) ++
            (greedy t level a b).map (fun p => Node.mk p (root.derive t p)) :=
        fun r hr => List.mem_append.mpr (Or.inl (List.mem_append.mpr (Or.inr hr)))
      have hmemMid : ∀ r ∈ (greedy t level a b).map
          (fun p => Node.mk p (root.derive t p)),
          r ∈ roots0.take (roots0.length - 1) ++
            (greedy t level (t.start ur.pos) a).map
              (fun p => Node.mk p (ur.derive t p)) ++
            (greedy t level a b).map (fun p => Node.mk p (root.derive t p)) :=
        fun r hr => List.mem_append.mpr (Or.inr hr)
      refine ⟨?_, ?_, ?_⟩
      · intro x hx
        exact val_left_region hv ht' hNew h1 h2 hurm hua (by omega)
          htake' (fun r hr => List.mem_of_mem_take hr) hmemTake hmemLf
          hx (by omega) (by omega)
      · intro x hbx hxM
        omega
      · intro x hax hxb
        exact val_frag_seg hv hNew (by omega) h1 h2 hab hax hxb
          (Or.inl hrp) hmemMid

/-! The value `derive` returns, and its agreement with the cache-free view. -/

theorem deriveVal_eq_dki (s : Khf) (x : Nat) :
    s.deriveVal x = s.deriveKeyImmutable x := by
  rcases h : lookupCache s.cachedKeys x with _ | k
  · rcases hbs : binarySearchBy s.roots
        (rootCmp s.topology (s.topology.leafPosition x)) dummyNode with i | i <;>
      by_cases hx : s.keys ≤ x <;>
      simp [Khf.deriveVal, Khf.derive, Khf.deriveKeyImmutable, Khf.deriveKey, h, hbs, hx]
  · simp [Khf.deriveVal, Khf.derive, Khf.deriveKeyImmutable, h]

theorem dki_eq_uncached {s : Khf} {x : Nat}
    (h : lookupCache s.cachedKeys x = none) :
    s.deriveKeyImmutable x = s.uncachedVal x := by
  rcases hbs : binarySearchBy s.roots
      (rootCmp s.topology (s.topology.leafPosition x)) dummyNode with i | i <;>
    by_cases hx : s.keys ≤ x <;>
    simp [Khf.deriveKeyImmutable, Khf.uncachedVal, rootDeriveVal, h, hbs, hx]

theorem lookupCache_some_mem {c : List (Nat × Key)} {x : Nat} {k : Key}
    (h : lookupCache c x = some k) : (x, k) ∈ c := by
  simp only [lookupCache] at h
  rcases hf : c.find? (fun e => e.1 == x) with _ | e
  · rw [hf] at h
    simp at h
  · rw [hf] at h
    simp at h
    have h1 := List.find?_some hf
    have h2 := List.mem_of_find?_eq_some hf
    simp only [beq_iff_eq] at h1
    have he : e = (x, k) := by
      obtain ⟨e1, e2⟩ := e
      simp only at h1 h
      rw [h1, h]
    rw [← he]
    exact h2

theorem deriveVal_eq_uncached {s : Khf} (hC : s.CacheOK) (x : Nat) :
    s.deriveVal x = s.uncachedVal x := by
  rw [deriveVal_eq_dki]
  rcases h : lookupCache s.cachedKeys x with _ | k
  · exact dki_eq_uncached h
  · have hm := lookupCache_some_mem h
    have hu := hC _ hm
    simp [Khf.deriveKeyImmutable, h, hu]

theorem rootsOpt_val_some {t : Topology} (hv : t.Valid) {roots : List Node}
    {keys x : Nat}
    (hr : (∃ k, roots = [Node.mk (0, 0) k]) ∨ RootsTiled t roots keys)
    (hx : x < keys) : ∃ v, rootDeriveVal t roots x = some v := by
  rcases hr with ⟨k, rfl⟩ | ht
  · exact ⟨_, rootDeriveVal_consolidated hv k x⟩
  · obtain ⟨i, a1, a2, a3, _, _⟩ := tiles_covering_index ht.1 x (Nat.zero_le x) hx
    rw [map_pos_getD] at a2 a3
    exact ⟨_, rootDeriveVal_idx hv ht hx (by simpa using a1) a2 a3⟩

theorem uncached_some {s : Khf} (hv : s.topology.Valid)
    (hr : (∃ k, s.roots = [Node.mk (0, 0) k]) ∨ RootsTiled s.topology s.roots s.keys)
    (x : Nat) : ∃ v, s.uncachedVal x = some v := by
  rw [Khf.uncachedVal]
  by_cases hx : s.keys ≤ x
  · rw [if_pos hx]
    exact ⟨_, rfl⟩
  · rw [if_neg hx]
    exact rootsOpt_val_some hv hr (by omega)

theorem dki_some {s : Khf} (hv : s.topology.Valid)
    (hr : (∃ k, s.roots = [Node.mk (0, 0) k]) ∨ RootsTiled s.topology s.roots s.keys)
    (x : Nat) : ∃ v, s.deriveKeyImmutable x = some v := by
  rcases h : lookupCache s.cachedKeys x with _ | k
  · rw [dki_eq_uncached h]
    exact uncached_some hv hr x
  · rw [Khf.deriveKeyImmutable, h]
    exact ⟨k, rfl⟩

/-- One `derive` call, fully case-analysed: cache hit, appending-side miss, or
committed-side miss with the search outcome. -/
theorem derive_step (s : Khf) (x : Nat) :
    (∃ k, lookupCache s.cachedKeys x = some k ∧ s.derive x = some (k, s)) ∨
    (lookupCache s.cachedKeys x = none ∧ s.keys ≤ x ∧
      s.derive x = some (s.appendingRoot.derive s.topology (s.topology.leafPosition x),
        { s with inFlightKeys := max s.inFlightKeys (x + 1),
                 cachedKeys := s.cachedKeys ++
                   [(x, s.appendingRoot.derive s.topology (s.topology.leafPosition x))] })) ∨
    (lookupCache s.cachedKeys x = none ∧ ¬ s.keys ≤ x ∧
      ((∃ v, rootDeriveVal s.topology s.roots x = some v ∧
        s.derive x = some (v, { s with cachedKeys := s.cachedKeys ++ [(x, v)] })) ∨
       (rootDeriveVal s.topology s.roots x = none ∧ s.derive x = none))) := by
  rcases h : lookupCache s.cachedKeys x with _ | k
  · by_cases hx : s.keys ≤ x
    · refine Or.inr (Or.inl ⟨rfl, hx, ?_⟩)
      simp [Khf.derive, h, Khf.deriveKey, hx]
    · refine Or.inr (Or.inr ⟨rfl, hx, ?_⟩)
      rcases hbs : binarySearchBy s.roots
          (rootCmp s.topology (s.topology.leafPosition x)) dummyNode with i | i
      · refine Or.inr ⟨?_, ?_⟩
        · rw [rootDeriveVal, hbs]
        · simp [Khf.derive, h, Khf.deriveKey, hx, hbs]
      · refine Or.inl ⟨(s.roots.getD i dummyNode).derive s.topology
          (s.topology.leafPosition x), ?_, ?_⟩
        · rw [rootDeriveVal, hbs]
        · simp [Khf.derive, h, Khf.deriveKey, hx, hbs]
  · refine Or.inl ⟨k, rfl, ?_⟩
    simp [Khf.derive, h]

/-! Sorted-set bookkeeping: insertion, filtering, completeness. -/

theorem insertSorted_mem (x : Nat) :
    ∀ (l : List Nat) (y : Nat), y ∈ insertSorted x l ↔ y = x ∨ y ∈ l := by
  intro l
  induction l with
  | nil =>
    intro y
    simp [insertSorted]
  | cons z zs ih =>
    intro y
    simp only [insertSorted]
    split_ifs with h1 h2
    · simp only [List.mem_cons]
    · subst h2
      simp only [List.mem_cons]
      tauto
    · simp only [List.mem_cons, ih]
      tauto

theorem insertSorted_pairwise (x : Nat) :
    ∀ {l : List Nat}, l.Pairwise (· < ·) → (insertSorted x l).Pairwise (· < ·) := by
  intro l
  induction l with
  | nil =>
    intro _
    simp [insertSorted]
  | cons z zs ih =>
    intro hp
    rw [List.pairwise_cons] at hp
    obtain ⟨hz, hzs⟩ := hp
    simp only [insertSorted]
    split_ifs with h1 h2
    · refine List.pairwise_cons.mpr ⟨?_, List.pairwise_cons.mpr ⟨hz, hzs⟩⟩
      intro y hy
      rcases List.mem_cons.mp hy with rfl | hy'
      · exact h1
      · exact lt_trans h1 (hz y hy')
    · exact List.pairwise_cons.mpr ⟨hz, hzs⟩
    · refine List.pairwise_cons.mpr ⟨?_, ih hzs⟩
      intro y hy
      rcases (insertSorted_mem x zs y).mp hy with rfl | hy'
      · omega
      · exact hz y hy'

theorem insertSorted_chain (x : Nat) {l : List Nat} (h : l.Chain' (· < ·)) :
    (insertSorted x l).Chain' (· < ·) :=
  List.chain'_iff_pairwise.mpr (insertSorted_pairwise x (List.chain'_iff_pairwise.mp h))

theorem filter_chain {p : Nat → Bool} {l : List Nat} (h : l.Chain' (· < ·)) :
    (l.filter p).Chain' (· < ·) :=
  List.chain'_iff_pairwise.mpr ((List.chain'_iff_pairwise.mp h).filter p)

/-- A strictly sorted list of `n` values below `n` holds every value below
`n`, and conversely. -/
theorem sorted_bounded_length_iff {l : List Nat} {n : Nat}
    (hch : l.Chain' (· < ·)) (hbd : ∀ y ∈ l, y < n) :
    l.length = n ↔ ∀ i, i < n → i ∈ l := by
  have hpw : l.Pairwise (· < ·) := List.chain'_iff_pairwise.mp hch
  have hnd : l.Nodup := hpw.imp (fun h => Nat.ne_of_lt h)
  have hsub : l.toFinset ⊆ Finset.range n := by
    intro y hy
    rw [List.mem_toFinset] at hy
    rw [Finset.mem_range]
    exact hbd y hy
  have hcard : l.toFinset.card = l.length := List.toFinset_card_of_nodup hnd
  constructor
  · intro hlen i hi
    have heq : l.toFinset = Finset.range n := by
      apply Finset.eq_of_subset_of_card_le hsub
      rw [hcard, hlen, Finset.card_range]
    have : i ∈ l.toFinset := by
      rw [heq]
      exact Finset.mem_range.mpr hi
    exact List.mem_toFinset.mp this
  · intro hall
    have hsub2 : Finset.range n ⊆ l.toFinset := by
      intro i hi
      exact List.mem_toFinset.mpr (hall i (Finset.mem_range.mp hi))
    have heq : l.toFinset = Finset.range n := Finset.Subset.antisymm hsub hsub2
    rw [← hcard, heq, Finset.card_range]

/-! `Khf.replaceKeys` on the two root-list shapes. -/

theorem rootsTiled_not_consolidated {s : Khf} {M : Nat}
    (ht : RootsTiled s.topology s.roots M) : s.isConsolidated = false := by
  obtain ⟨_, hwl, _⟩ := ht
  rw [Khf.isConsolidated]
  rcases hr : s.roots with _ | ⟨r, rs⟩
  · rfl
  · rcases rs with _ | ⟨r2, rs2⟩
    · have := hwl r.pos (by rw [hr]; simp)
      simp only [decide_eq_false_iff_not]
      intro hcon
      have : r.pos.1 = 0 := by rw [hcon]
      omega
    · rfl

theorem replaceKeys_spec_frag {s : Khf} (hv : s.topology.Valid) {level a b M : Nat}
    (h1 : 1 ≤ level) (h2 : level ≤ s.topology.height - 1) (hab : a ≤ b)
    (ht : RootsTiled s.topology s.roots M)
    {root : Node} (hrp : root.pos = ((0, 0) : Pos)) :
    ∃ newRoots, s.replaceKeys level a b root = some { s with roots := newRoots } ∧
      RootsTiled s.topology newRoots (max M b) ∧
      (a ≤ M →
        (∀ x, x < a →
          rootDeriveVal s.topology newRoots x = rootDeriveVal s.topology s.roots x) ∧
        (∀ x, b ≤ x → x < M →
          rootDeriveVal s.topology newRoots x = rootDeriveVal s.topology s.roots x) ∧
        (∀ x, a ≤ x → x < b →
          rootDeriveVal s.topology newRoots x =
            some (root.derive s.topology (s.topology.leafPosition x)))) := by
  obtain ⟨newRoots, hrun, hstruct, hval⟩ :=
    replaceKeysTail_spec hv h1 h2 hab ht hrp
  refine ⟨newRoots, ?_, hstruct, hval⟩
  rw [Khf.replaceKeys, if_neg (by omega)]
  simp only [rootsTiled_not_consolidated ht, Bool.false_eq_true, if_false,
    Option.some_bind, Option.bind_eq_bind, hrun]

theorem replaceKeys_spec_cons {s : Khf} (hv : s.topology.Valid) {level a b : Nat}
    (h1 : 1 ≤ level) (h2 : level ≤ s.topology.height - 1) (hab : a ≤ b)
    {k : Key} (hroots : s.roots = [Node.mk (0, 0) k])
    (hK : 0 < max s.inFlightKeys b)
    {root : Node} (hrp : root.pos = ((0, 0) : Pos)) :
    ∃ newRoots, s.replaceKeys level a b root = some { s with roots := newRoots } ∧
      RootsTiled s.topology newRoots (max s.inFlightKeys b) ∧
      (∀ x, x < a →
        rootDeriveVal s.topology newRoots x =
          some ((Node.mk ((0, 0) : Pos) k).derive s.topology
            (s.topology.leafPosition x))) ∧
      (∀ x, b ≤ x → x < max s.inFlightKeys b →
        rootDeriveVal s.topology newRoots x =
          some ((Node.mk ((0, 0) : Pos) k).derive s.topology
            (s.topology.leafPosition x))) ∧
      (∀ x, a ≤ x → x < b →
        rootDeriveVal s.topology newRoots x =
          some (root.derive s.topology (s.topology.leafPosition x))) := by
  have hcons : s.isConsolidated = true := by
    rw [Khf.isConsolidated, hroots]
    simp
  have hgd : s.roots.getD 0 dummyNode = Node.mk (0, 0) k := by
    rw [hroots]
    rfl
  have hcov : (s.roots.getD 0 dummyNode).coverage s.topology level 0
      (max s.inFlightKeys b) =
      some ((greedy s.topology level 0 (max s.inFlightKeys b)).map
        (fun p => Node.mk p ((Node.mk ((0, 0) : Pos) k).derive s.topology p))) := by
    rw [hgd]
    exact node_coverage_eq_greedy hv _ h1 h2 (Nat.zero_le _)
  have ht0 : RootsTiled s.topology
      ((greedy s.topology level 0 (max s.inFlightKeys b)).map
        (fun p => Node.mk p ((Node.mk ((0, 0) : Pos) k).derive s.topology p)))
      (max s.inFlightKeys b) := by
    refine ⟨?_, ?_, ?_⟩
    · rw [map_pos_mk]
      exact greedy_tiles hv h1 h2 (Nat.zero_le _)
    · rw [map_pos_mk]
      exact wfLevels_greedy hv h1 h2 (Nat.zero_le _)
    · intro hcon
      have : tilesExactly s.topology 0 (max s.inFlightKeys b)
          (greedy s.topology level 0 (max s.inFlightKeys b)) = true :=
        greedy_tiles hv h1 h2 (Nat.zero_le _)
      rw [show greedy s.topology level 0 (max s.inFlightKeys b) = [] from by
        simpa using congrArg (List.map Node.pos) hcon] at this
      have := tiles_nil_iff.mp this
      omega
  have hbK : b ≤ max s.inFlightKeys b := Nat.le_max_right _ _
  obtain ⟨newRoots, hrun, hstruct, hval⟩ :=
    replaceKeysTail_spec hv h1 h2 hab ht0 hrp
  rw [Nat.max_eq_left hbK] at hstruct
  obtain ⟨hv1, hv2, hv3⟩ := hval (le_trans hab hbK)
  refine ⟨newRoots, ?_, hstruct, ?_, ?_, ?_⟩
  · rw [Khf.replaceKeys, if_neg (by omega)]
    simp only [hcons, if_true, hcov, Option.bind_eq_bind, Option.some_bind, hrun]
  · intro x hx
    rw [hv1 x hx]
    exact val_frag_seg hv ht0 (by omega) h1 h2 (Nat.zero_le _) (Nat.zero_le _)
      (by omega) (Or.inl rfl) (fun r hr => hr)
  · intro x hbx hxK
    rw [hv2 x hbx hxK]
    exact val_frag_seg hv ht0 (by omega) h1 h2 (Nat.zero_le _) (Nat.zero_le _)
      (by omega) (Or.inl rfl) (fun r hr => hr)
  · intro x hax hxb
    exact hv3 x hax hxb

/-! The maximal-run decomposition of the updated set. -/

theorem ukrAux_bounds :
    ∀ (ys : List Nat) (st nxt F : Nat), st < nxt → nxt ≤ F → (∀ y ∈ ys, y < F) →
      ∀ r ∈ ukrAux ys st nxt, r.1 < r.2 ∧ r.2 ≤ F := by
  intro ys
  induction ys with
  | nil =>
    intro st nxt F h1 h2 _ r hr
    simp only [ukrAux, List.mem_singleton] at hr
    subst hr
    exact ⟨h1, h2⟩
  | cons y ys ih =>
    intro st nxt F h1 h2 hbd r hr
    simp only [ukrAux] at hr
    split_ifs at hr with hy
    · exact ih st (nxt + 1) F (by omega)
        (by have := hbd y (by simp); omega)
        (fun z hz => hbd z (by simp [hz])) r hr
    · rcases List.mem_cons.mp hr with rfl | hr'
      · exact ⟨h1, h2⟩
      · exact ih y (y + 1) F (by omega)
          (by have := hbd y (by simp); omega)
          (fun z hz => hbd z (by simp [hz])) r hr'

theorem updatedKeyRanges_bounds {l : List Nat} {F : Nat} (hbd : ∀ y ∈ l, y < F) :
    ∀ r ∈ updatedKeyRanges l, r.1 < r.2 ∧ r.2 ≤ F := by
  cases l with
  | nil =>
    intro r hr
    simp [updatedKeyRanges] at hr
  | cons x xs =>
    intro r hr
    exact ukrAux_bounds xs x (x + 1) F (by omega) (hbd x (by simp))
      (fun z hz => hbd z (by simp [hz])) r hr

theorem ukrAux_cover :
    ∀ (ys : List Nat) (st nxt : Nat), st < nxt → (∀ y ∈ ys, nxt ≤ y) →
      ys.Pairwise (· < ·) → ∀ z,
      (∃ r ∈ ukrAux ys st nxt, r.1 ≤ z ∧ z < r.2) ↔ ((st ≤ z ∧ z < nxt) ∨ z ∈ ys) := by
  intro ys
  induction ys with
  | nil =>
    intro st nxt _ _ _ z
    simp [ukrAux]
  | cons y ys ih =>
    intro st nxt h1 hge hpw z
    obtain ⟨hgty, hpw'⟩ := List.pairwise_cons.mp hpw
    have hynxt : nxt ≤ y := hge y (by simp)
    simp only [ukrAux]
    split_ifs with hy
    · rw [ih st (nxt + 1) (by omega) (fun w hw => by have := hgty w hw; omega) hpw' z]
      simp only [List.mem_cons]
      constructor
      · rintro (h | h)
        · rcases Nat.lt_or_ge z nxt with h' | h'
          · exact Or.inl ⟨h.1, h'⟩
          · exact Or.inr (Or.inl (by omega))
        · exact Or.inr (Or.inr h)
      · rintro (h | h | h)
        · exact Or.inl ⟨h.1, by omega⟩
        · exact Or.inl ⟨by omega, by omega⟩
        · exact Or.inr h
    · have hcov := ih y (y + 1) (by omega)
        (fun w hw => by have := hgty w hw; omega) hpw' z
      constructor
      · rintro ⟨r, hr, hz1, hz2⟩
        rcases List.mem_cons.mp hr with rfl | hr'
        · exact Or.inl ⟨hz1, hz2⟩
        · rcases hcov.mp ⟨r, hr', hz1, hz2⟩ with h | h
          · refine Or.inr ?_
            simp only [List.mem_cons]
            exact Or.inl (by omega)
          · refine Or.inr ?_
            simp only [List.mem_cons]
            exact Or.inr h
      · rintro (h | h)
        · exact ⟨(st, nxt), by simp, h.1, h.2⟩
        · rcases List.mem_cons.mp h with rfl | h'
          · obtain ⟨r, hr, hz⟩ := hcov.mpr (Or.inl ⟨le_rfl, by omega⟩)
            exact ⟨r, List.mem_cons_of_mem _ hr, hz⟩
          · obtain ⟨r, hr, hz⟩ := hcov.mpr (Or.inr h')
            exact ⟨r, List.mem_cons_of_mem _ hr, hz⟩

theorem updatedKeyRanges_cover {l : List Nat} (hch : l.Chain' (· < ·)) (z : Nat) :
    (∃ r ∈ updatedKeyRanges l, r.1 ≤ z ∧ z < r.2) ↔ z ∈ l := by
  cases l with
  | nil => simp [updatedKeyRanges]
  | cons x xs =>
    have hpw := List.chain'_iff_pairwise.mp hch
    obtain ⟨hgt, hpw'⟩ := List.pairwise_cons.mp hpw
    rw [show updatedKeyRanges (x :: xs) = ukrAux xs x (x + 1) from rfl,
      ukrAux_cover xs x (x + 1) (by omega) (fun w hw => hgt w hw) hpw' z]
    simp only [List.mem_cons]
    constructor
    · rintro (h | h)
      · exact Or.inl (by omega)
      · exact Or.inr h
    · rintro (rfl | h)
      · exact Or.inl ⟨le_rfl, by omega⟩
      · exact Or.inr h

/-! The run-replacement fold of the grow-side `commit`. -/

theorem fold_replace {t : Topology} (hv : t.Valid) (hH : 1 ≤ t.height - 1) :
    ∀ (ranges : List (Nat × Nat)) (st : Khf) (M : Nat), st.topology = t →
      RootsTiled t st.roots M →
      (∀ r ∈ ranges, r.1 < r.2 ∧ r.2 ≤ M) →
      ∃ st', ranges.foldlM
          (fun (st : Khf) (ab : Nat × Nat) => do
            let n := Node.withRng st.rng
            ({ st with rng := n.2 }).replaceKeys 1 ab.1 ab.2 n.1) st = some st' ∧
        st'.topology = t ∧ RootsTiled t st'.roots M ∧
        st'.appendingRoot = st.appendingRoot ∧ st'.inFlightKeys = st.inFlightKeys ∧
        st'.updatedKeys = st.updatedKeys ∧ st'.keys = st.keys ∧
        st'.cachedKeys = st.cachedKeys ∧
        (∀ x, x < M → (∀ r ∈ ranges, ¬ (r.1 ≤ x ∧ x < r.2)) →
          rootDeriveVal t st'.roots x = rootDeriveVal t st.roots x) := by
  intro ranges
  induction ranges with
  | nil =>
    intro st M _ ht _
    exact ⟨st, rfl, by assumption, ht, rfl, rfl, rfl, rfl, rfl, fun x _ _ => rfl⟩
  | cons ab rs ih =>
    intro st M htop ht hbd
    obtain ⟨hab1, hab2⟩ := hbd ab (by simp)
    have hv' : ({ st with rng := (Node.withRng st.rng).2 } : Khf).topology.Valid := by
      simpa [htop] using hv
    have ht' : RootsTiled ({ st with rng := (Node.withRng st.rng).2 } : Khf).topology
        ({ st with rng := (Node.withRng st.rng).2 } : Khf).roots M := by
      simpa [htop] using ht
    obtain ⟨newRoots, hrk, hstruct, hval⟩ := replaceKeys_spec_frag hv'
      (le_rfl) (by simpa [htop] using hH) (le_of_lt hab1) ht'
      (show ((Node.withRng st.rng).1).pos = ((0, 0) : Pos) from rfl)
    rw [Nat.max_eq_left hab2] at hstruct
    obtain ⟨hv1, hv2, _⟩ := hval (by omega)
    have htop2 : ({ st with rng := (Node.withRng st.rng).2, roots := newRoots } :
        Khf).topology = t := htop
    have hstruct2 : RootsTiled t
        ({ st with rng := (Node.withRng st.rng).2, roots := newRoots } : Khf).roots M := by
      simpa [htop] using hstruct
    obtain ⟨st', hfold, c1, c2, c3, c4, c5, c6, c7, c8⟩ :=
      ih { st with rng := (Node.withRng st.rng).2, roots := newRoots } M htop2 hstruct2
        (fun r hr => hbd r (by simp [hr]))
    refine ⟨st', ?_, c1, c2, c3, c4, c5, c6, c7, ?_⟩
    · rw [List.foldlM_cons]
      have hrk' : ({ st with rng := (Node.withRng st.rng).2 } : Khf).replaceKeys 1
          ab.1 ab.2 (Node.withRng st.rng).1 =
          some { st with rng := (Node.withRng st.rng).2, roots := newRoots } := hrk
      rw [hrk']
      exact hfold
    · intro x hx hout
      have hnab := hout ab (by simp)
      rw [c8 x hx (fun r hr => hout r (by simp [hr]))]
      show rootDeriveVal t newRoots x = rootDeriveVal t st.roots x
      rcases Nat.lt_or_ge x ab.1 with hlt | hge
      · have := hv1 x hlt
        simpa [htop] using this
      · have hxb : ab.2 ≤ x := by omega
        have := hv2 x hxb hx
        simpa [htop] using this

/-! Symbolic execution of `commit`, branch by branch. -/

theorem mapM_pairs {f : Nat → Option Key} {l : List Nat}
    (h : ∀ y ∈ l, ∃ v, f y = some v) :
    ∃ res, l.mapM (fun x => (f x).map (fun k => (x, k))) = some res ∧
      res.map Prod.fst = l ∧ ∀ p ∈ res, f p.1 = some p.2 := by
  induction l with
  | nil => exact ⟨[], rfl, rfl, by simp⟩
  | cons y ys ih =>
    obtain ⟨v, hv⟩ := h y (by simp)
    obtain ⟨res, hres, hids, hmem⟩ := ih (fun z hz => h z (by simp [hz]))
    refine ⟨(y, v) :: res, ?_, ?_, ?_⟩
    · rw [List.mapM_cons, hv, hres]
      rfl
    · simp [hids]
    · intro p hp
      rcases List.mem_cons.mp hp with rfl | hp'
      · exact hv
      · exact hmem p hp'

theorem commitPairs_spec {s : Khf}
    (h : ∀ y ∈ s.updatedKeys, ∃ v, s.deriveKeyImmutable y = some v) :
    ∃ res, commitPairs s = some res ∧ resultIds res = s.updatedKeys ∧
      ∀ p ∈ res, s.deriveKeyImmutable p.1 = some p.2 := by
  obtain ⟨res, hres, hids, hmem⟩ := mapM_pairs h
  exact ⟨res, hres, hids, hmem⟩

theorem replaceKeys_zero (s : Khf) (root : Node) :
    s.replaceKeys 0 0 0 root = some { s with roots := [root] } := by
  unfold Khf.replaceKeys
  rw [if_pos rfl]

theorem commit_run_zero {s : Khf} (h0 : s.inFlightKeys = 0) {res : List (Nat × Key)}
    (hres : commitPairs s = some res) :
    s.commit = some (commitFinish res
      { s with rng := (Node.withRng s.rng).2, roots := [(Node.withRng s.rng).1] }) := by
  unfold Khf.commit
  rw [if_pos h0, hres]
  simp only [Option.bind_eq_bind, Option.some_bind, replaceKeys_zero]

theorem commit_run_fast {s : Khf} (h0 : ¬ s.inFlightKeys = 0)
    (hge : s.keys ≤ s.inFlightKeys)
    (hlen : s.updatedKeys.length = s.inFlightKeys) {res : List (Nat × Key)}
    (hres : commitPairs s = some res) :
    s.commit = some (commitFinish res
      { s with rng := (Node.withRng s.rng).2, roots := [(Node.withRng s.rng).1] }) := by
  unfold Khf.commit
  rw [if_neg h0, if_pos hge, if_pos hlen, hres]
  simp only [Option.bind_eq_bind, Option.some_bind, replaceKeys_zero]

theorem commit_run_grow {s : Khf} (h0 : ¬ s.inFlightKeys = 0)
    (hge : s.keys ≤ s.inFlightKeys)
    (hlen : ¬ s.updatedKeys.length = s.inFlightKeys) {res : List (Nat × Key)}
    {s1 s2 : Khf}
    (hres : commitPairs s = some res)
    (hrk : s.replaceKeys 1 s.keys s.inFlightKeys s.appendingRoot = some s1)
    (hfold : (updatedKeyRanges s.updatedKeys).foldlM
      (fun (st : Khf) (ab : Nat × Nat) => do
        let n := Node.withRng st.rng
        ({ st with rng := n.2 }).replaceKeys 1 ab.1 ab.2 n.1) s1 = some s2) :
    s.commit = some (commitFinish res s2) := by
  unfold Khf.commit
  rw [if_neg h0, if_pos hge, if_neg hlen, hres]
  simp only [Option.bind_eq_bind, Option.some_bind]
  rw [hrk]
  simp only [Option.some_bind]
  rw [hfold]
  simp only [Option.some_bind]

theorem commit_run_shrink_full {s : Khf} (h0 : ¬ s.inFlightKeys = 0)
    (hlt : ¬ s.keys ≤ s.inFlightKeys)
    (hlen : (s.updatedKeys.filter (fun k => decide (k < s.inFlightKeys))).length =
      s.inFlightKeys)
    {res : List (Nat × Key)}
    (hres : commitPairs { s with updatedKeys := s.updatedKeys.filter (fun k => decide (k < s.inFlightKeys)) } = some res) :
    s.commit = some (commitFinish res
      { s with updatedKeys := s.updatedKeys.filter (fun k => decide (k < s.inFlightKeys)), rng := (Node.withRng s.rng).2, roots := [(Node.withRng s.rng).1] }) := by
  unfold Khf.commit
  rw [if_neg h0, if_neg hlt]
  simp only [hlen, if_true, hres, Option.bind_eq_bind, Option.some_bind,
    replaceKeys_zero]

theorem isConsolidated_congr (s : Khf) (u : List Nat) :
    ({ s with updatedKeys := u } : Khf).isConsolidated = s.isConsolidated := rfl

theorem commit_run_shrink_cons {s : Khf} (h0 : ¬ s.inFlightKeys = 0)
    (hlt : ¬ s.keys ≤ s.inFlightKeys)
    (hlen : ¬ (s.updatedKeys.filter (fun k => decide (k < s.inFlightKeys))).length =
      s.inFlightKeys)
    (hcons : s.isConsolidated = true)
    {res : List (Nat × Key)}
    (hres : commitPairs { s with updatedKeys := s.updatedKeys.filter (fun k => decide (k < s.inFlightKeys)) } = some res)
    {cov : List Node}
    (hcov : (s.roots.getD 0 dummyNode).coverage s.topology 1 0 s.inFlightKeys =
      some cov) :
    s.commit = some (commitFinish res
      { s with updatedKeys := s.updatedKeys.filter (fun k => decide (k < s.inFlightKeys)), roots := cov }) := by
  unfold Khf.commit
  rw [if_neg h0, if_neg hlt]
  simp only [hlen, if_false, hres, isConsolidated_congr, hcons, if_true, hcov,
    Option.bind_eq_bind, Option.some_bind]

theorem commit_run_shrink_frag {s : Khf} (h0 : ¬ s.inFlightKeys = 0)
    (hlt : ¬ s.keys ≤ s.inFlightKeys)
    (hlen : ¬ (s.updatedKeys.filter (fun k => decide (k < s.inFlightKeys))).length =
      s.inFlightKeys)
    (hcons : s.isConsolidated = false)
    {res : List (Nat × Key)}
    (hres : commitPairs { s with updatedKeys := s.updatedKeys.filter (fun k => decide (k < s.inFlightKeys)) } = some res)
    {i : Nat}
    (hfind : s.roots.findIdx?
      (fun r => decide (s.inFlightKeys < s.topology.stop r.pos)) = some i)
    {r : Node} (hget : s.roots.get? i = some r)
    {cov : List Node}
    (hcov : r.coverage s.topology 1 (s.topology.start r.pos) s.inFlightKeys =
      some cov) :
    s.commit = some (commitFinish res
      { s with updatedKeys := s.updatedKeys.filter (fun k => decide (k < s.inFlightKeys)), roots := s.roots.take i ++ cov }) := by
  unfold Khf.commit
  rw [if_neg h0, if_neg hlt]
  simp only [hlen, if_false, hres, isConsolidated_congr, hcons, Bool.false_eq_true,
    hfind, hget, hcov, Option.bind_eq_bind, Option.some_bind]

/-- The shared epilogue, as projections. -/
theorem commitFinish_spec (res : List (Nat × Key)) (s1 : Khf) :
    commitFinish res s1 = (res, (commitFinish res s1).2) ∧
    (commitFinish res s1).2.topology = s1.topology ∧
    (commitFinish res s1).2.keys = s1.inFlightKeys ∧
    (commitFinish res s1).2.inFlightKeys = s1.inFlightKeys ∧
    (commitFinish res s1).2.cachedKeys = [] ∧
    (commitFinish res s1).2.updatedKeys = [] ∧
    (commitFinish res s1).2.appendingRoot = Node.new (Key.seed s1.rng) ∧
    (commitFinish res s1).2.roots = s1.roots :=
  ⟨rfl, rfl, rfl, rfl, rfl, rfl, rfl, rfl⟩

/-- `commit` under the full invariant (the grow-or-stay side): it succeeds,
re-establishes the invariant with `keys = in_flight_keys`, returns exactly the
pending ids paired with their pre-commit values, and preserves the derived
value of every in-domain id it does not revoke. -/
theorem commit_spec {s : Khf} (hC : s.InvCore) (hB : s.Bounded) :
    ∃ res s2, s.commit = some (res, s2) ∧
      s2.topology = s.topology ∧ s2.keys = s.inFlightKeys ∧
      s2.inFlightKeys = s.inFlightKeys ∧ s2.cachedKeys = [] ∧ s2.updatedKeys = [] ∧
      s2.InvCore ∧ s2.Bounded ∧
      resultIds res = s.updatedKeys ∧
      (∀ p ∈ res, s.deriveVal p.1 = some p.2) ∧
      (∀ x, x < s.inFlightKeys → x ∉ s.updatedKeys →
        rootDeriveVal s.topology s2.roots x = s.uncachedVal x) := by
  obtain ⟨hv, hap, hch, hcac, hroots⟩ := hC
  obtain ⟨hbd, hcb, hkif⟩ := hB
  have hH : 1 ≤ s.topology.height - 1 := by
    have := valid_height hv
    omega
  obtain ⟨res, hres, hids, hpair⟩ := commitPairs_spec (fun y _ => dki_some hv hroots y)
  have hpairv : ∀ p ∈ res, s.deriveVal p.1 = some p.2 := by
    intro p hp
    rw [deriveVal_eq_dki]
    exact hpair p hp
  by_cases h0 : s.inFlightKeys = 0
  · obtain ⟨hsplit, p1, p2, p3, p4, p5, p6, p7⟩ := commitFinish_spec res
      { s with rng := (Node.withRng s.rng).2, roots := [(Node.withRng s.rng).1] }
    refine ⟨res, _, by rw [commit_run_zero h0 hres, hsplit], p1, p2, p3, p4, p5,
      ?_, ?_, hids, hpairv, ?_⟩
    · refine ⟨by rw [p1]; exact hv, by rw [p6]; rfl, by rw [p5]; exact List.chain'_nil,
        ?_, ?_⟩
      · intro c hc
        rw [p4] at hc
        simp at hc
      · rw [p7]
        exact Or.inl ⟨Key.seed s.rng, rfl⟩
    · refine ⟨?_, ?_, ?_⟩
      · intro y hy
        rw [p5] at hy
        simp at hy
      · intro c hc
        rw [p4] at hc
        simp at hc
      · exact le_of_eq (p2.trans p3.symm)
    · intro x hx _
      omega
  · by_cases hfull : s.updatedKeys.length = s.inFlightKeys
    · obtain ⟨hsplit, p1, p2, p3, p4, p5, p6, p7⟩ := commitFinish_spec res
        { s with rng := (Node.withRng s.rng).2, roots := [(Node.withRng s.rng).1] }
      refine ⟨res, _, by rw [commit_run_fast h0 hkif hfull hres, hsplit], p1, p2, p3,
        p4, p5, ?_, ?_, hids, hpairv, ?_⟩
      · refine ⟨by rw [p1]; exact hv, by rw [p6]; rfl, by rw [p5]; exact List.chain'_nil,
          ?_, ?_⟩
        · intro c hc
          rw [p4] at hc
          simp at hc
        · rw [p7]
          exact Or.inl ⟨Key.seed s.rng, rfl⟩
      · refine ⟨?_, ?_, ?_⟩
        · intro y hy
          rw [p5] at hy
          simp at hy
        · intro c hc
          rw [p4] at hc
          simp at hc
        · exact le_of_eq (p2.trans p3.symm)
      · intro x hx hxu
        exact absurd ((sorted_bounded_length_iff hch hbd).mp hfull x hx) hxu
    · -- grow-slow: fragment in the appended range, then the updated runs
      have hfirst : ∃ R1, s.replaceKeys 1 s.keys s.inFlightKeys s.appendingRoot =
          some { s with roots := R1 } ∧ RootsTiled s.topology R1 s.inFlightKeys ∧
          (∀ x, x < s.inFlightKeys →
            rootDeriveVal s.topology R1 x = s.uncachedVal x) := by
        rcases hroots with ⟨k, hk⟩ | ht
        · have hK : 0 < max s.inFlightKeys s.inFlightKeys := by
            rw [Nat.max_self]
            omega
          obtain ⟨R1, heq, hstruct, hv1, hv2, hv3⟩ :=
            replaceKeys_spec_cons hv le_rfl hH hkif hk hK hap
          rw [Nat.max_self] at hstruct
          refine ⟨R1, heq, hstruct, ?_⟩
          intro x hx
          rw [Khf.uncachedVal]
          by_cases hxk : s.keys ≤ x
          · rw [if_pos hxk]
            exact hv3 x hxk hx
          · rw [if_neg hxk, hv1 x (by omega), hk, rootDeriveVal_consolidated hv]
        · obtain ⟨R1, heq, hstruct, hval⟩ :=
            replaceKeys_spec_frag hv le_rfl hH hkif ht hap
          rw [Nat.max_eq_right hkif] at hstruct
          obtain ⟨hval1, _, hval3⟩ := hval le_rfl
          refine ⟨R1, heq, hstruct, ?_⟩
          intro x hx
          rw [Khf.uncachedVal]
          by_cases hxk : s.keys ≤ x
          · rw [if_pos hxk]
            exact hval3 x hxk hx
          · rw [if_neg hxk]
            exact hval1 x (by omega)
      obtain ⟨R1, heq, hR1, hR1val⟩ := hfirst
      obtain ⟨st', hfold, c1, c2, c3, c4, c5, c6, c7, c8⟩ := fold_replace hv hH
        (updatedKeyRanges s.updatedKeys) { s with roots := R1 } s.inFlightKeys rfl
        hR1 (fun r hr => updatedKeyRanges_bounds hbd r hr)
      obtain ⟨hsplit, p1, p2, p3, p4, p5, p6, p7⟩ := commitFinish_spec res st'
      refine ⟨res, _, by rw [commit_run_grow h0 hkif hfull hres heq hfold, hsplit],
        by rw [p1, c1], by rw [p2, c4], by rw [p3, c4], p4, p5, ?_, ?_, hids,
        hpairv, ?_⟩
      · refine ⟨?_, by rw [p6]; rfl, by rw [p5]; exact List.chain'_nil, ?_, ?_⟩
        · rw [p1, c1]
          exact hv
        · intro c hc
          rw [p4] at hc
          simp at hc
        · refine Or.inr ?_
          rw [p7, p1, c1, p2, c4]
          exact c2
      · refine ⟨?_, ?_, ?_⟩
        · intro y hy
          rw [p5] at hy
          simp at hy
        · intro c hc
          rw [p4] at hc
          simp at hc
        · exact le_of_eq (p2.trans p3.symm)
      · intro x hx hxu
        have hout : ∀ r ∈ updatedKeyRanges s.updatedKeys, ¬ (r.1 ≤ x ∧ x < r.2) := by
          intro r hr hcon
          exact hxu ((updatedKeyRanges_cover hch x).mp ⟨r, hr, hcon.1, hcon.2⟩)
        rw [p7, c8 x hx hout]
        exact hR1val x hx

theorem consolidated_shape {s : Khf} (h : s.isConsolidated = true) :
    ∃ k, s.roots = [Node.mk (0, 0) k] := by
  unfold Khf.isConsolidated at h
  rcases hr : s.roots with _ | ⟨r, rs⟩
  · rw [hr] at h
    simp at h
  · rcases rs with _ | ⟨r2, rs2⟩
    · rw [hr] at h
      simp only [decide_eq_true_eq] at h
      refine ⟨r.key, ?_⟩
      obtain ⟨rp, rk⟩ := r
      simp only at h
      rw [h]
    · rw [hr] at h
      simp at h

theorem consolidated_of_singleton {s : Khf} {k : Key}
    (h : s.roots = [Node.mk (0, 0) k]) : s.isConsolidated = true := by
  unfold Khf.isConsolidated
  rw [h]
  simp

/-- `commit` after a genuine truncation (`0 < in_flight_keys < keys`): the
pending updates are filtered to the surviving domain, the returned list holds
exactly those, the tiling is cut to `[0, in_flight_keys)`, and every surviving
un-revoked value is preserved. -/
theorem commit_spec_shrink {s : Khf} (hC : s.InvCore)
    (h0 : 0 < s.inFlightKeys) (hlt : s.inFlightKeys < s.keys) :
    ∃ res s2, s.commit = some (res, s2) ∧
      s2.topology = s.topology ∧ s2.keys = s.inFlightKeys ∧
      s2.inFlightKeys = s.inFlightKeys ∧ s2.cachedKeys = [] ∧ s2.updatedKeys = [] ∧
      s2.InvCore ∧ s2.Bounded ∧
      resultIds res = s.updatedKeys.filter (fun k => decide (k < s.inFlightKeys)) ∧
      (∀ p ∈ res, s.deriveVal p.1 = some p.2) ∧
      (∀ x, x < s.inFlightKeys → x ∉ s.updatedKeys →
        rootDeriveVal s.topology s2.roots x = s.uncachedVal x) := by
  obtain ⟨hv, hap, hch, hcac, hroots⟩ := hC
  have hH : 1 ≤ s.topology.height - 1 := by
    have := valid_height hv
    omega
  have h0' : ¬ s.inFlightKeys = 0 := by omega
  have hlt' : ¬ s.keys ≤ s.inFlightKeys := by omega
  obtain ⟨res, hres, hids, hpair⟩ := commitPairs_spec
    (s := { s with updatedKeys := s.updatedKeys.filter (fun k => decide (k < s.inFlightKeys)) })
    (fun y _ => dki_some hv hroots y)
  have hpairv : ∀ p ∈ res, s.deriveVal p.1 = some p.2 := by
    intro p hp
    rw [deriveVal_eq_dki]
    exact hpair p hp
  have hchF : (s.updatedKeys.filter (fun k => decide (k < s.inFlightKeys))).Chain'
      (· < ·) := filter_chain hch
  have hbdF : ∀ y ∈ s.updatedKeys.filter (fun k => decide (k < s.inFlightKeys)),
      y < s.inFlightKeys := by
    intro y hy
    have := (List.mem_filter.mp hy).2
    simpa using this
  have huncq : ∀ x, x < s.inFlightKeys →
      s.uncachedVal x = rootDeriveVal s.topology s.roots x := by
    intro x hx
    rw [Khf.uncachedVal, if_neg (by omega)]
  by_cases hfull : (s.updatedKeys.filter (fun k => decide (k < s.inFlightKeys))).length =
      s.inFlightKeys
  · obtain ⟨hsplit, p1, p2, p3, p4, p5, p6, p7⟩ := commitFinish_spec res
      { s with updatedKeys := s.updatedKeys.filter (fun k => decide (k < s.inFlightKeys)), rng := (Node.withRng s.rng).2, roots := [(Node.withRng s.rng).1] }
    refine ⟨res, _, by rw [commit_run_shrink_full h0' hlt' hfull hres, hsplit], p1, p2,
      p3, p4, p5, ?_, ?_, hids, hpairv, ?_⟩
    · refine ⟨by rw [p1]; exact hv, by rw [p6]; rfl, by rw [p5]; exact List.chain'_nil,
        ?_, ?_⟩
      · intro c hc
        rw [p4] at hc
        simp at hc
      · rw [p7]
        exact Or.inl ⟨Key.seed _, rfl⟩
    · refine ⟨?_, ?_, ?_⟩
      · intro y hy
        rw [p5] at hy
        simp at hy
      · intro c hc
        rw [p4] at hc
        simp at hc
      · exact le_of_eq (p2.trans p3.symm)
    · intro x hx hxu
      have hxF := (sorted_bounded_length_iff hchF hbdF).mp hfull x hx
      exact absurd (List.mem_filter.mp hxF).1 hxu
  · by_cases hcons : s.isConsolidated = true
    · obtain ⟨k, hk⟩ := consolidated_shape hcons
      have hgd : s.roots.getD 0 dummyNode = Node.mk (0, 0) k := by
        rw [hk]
        rfl
      have hcov : (s.roots.getD 0 dummyNode).coverage s.topology 1 0 s.inFlightKeys =
          some ((greedy s.topology 1 0 s.inFlightKeys).map
            (fun p => Node.mk p ((Node.mk ((0, 0) : Pos) k).derive s.topology p))) := by
        rw [hgd]
        exact node_coverage_eq_greedy hv _ le_rfl hH (Nat.zero_le _)
      have ht0 : RootsTiled s.topology
          ((greedy s.topology 1 0 s.inFlightKeys).map
            (fun p => Node.mk p ((Node.mk ((0, 0) : Pos) k).derive s.topology p)))
          s.inFlightKeys := by
        refine ⟨?_, ?_, ?_⟩
        · rw [map_pos_mk]
          exact greedy_tiles hv le_rfl hH (Nat.zero_le _)
        · rw [map_pos_mk]
          exact wfLevels_greedy hv le_rfl hH (Nat.zero_le _)
        · intro hcon
          have hgt : tilesExactly s.topology 0 s.inFlightKeys
              (greedy s.topology 1 0 s.inFlightKeys) = true :=
            greedy_tiles hv le_rfl hH (Nat.zero_le _)
          rw [show greedy s.topology 1 0 s.inFlightKeys = [] from by
            simpa using congrArg (List.map Node.pos) hcon] at hgt
          have := tiles_nil_iff.mp hgt
          omega
      obtain ⟨hsplit, p1, p2, p3, p4, p5, p6, p7⟩ := commitFinish_spec res
        { s with updatedKeys := s.updatedKeys.filter (fun k => decide (k < s.inFlightKeys)), roots := (greedy s.topology 1 0 s.inFlightKeys).map (fun p => Node.mk p ((Node.mk ((0, 0) : Pos) k).derive s.topology p)) }
      refine ⟨res, _,
        by rw [commit_run_shrink_cons h0' hlt' hfull hcons hres hcov, hsplit], p1, p2,
        p3, p4, p5, ?_, ?_, hids, hpairv, ?_⟩
      · refine ⟨by rw [p1]; exact hv, by rw [p6]; rfl, by rw [p5]; exact List.chain'_nil,
          ?_, ?_⟩
        · intro c hc
          rw [p4] at hc
          simp at hc
        · refine Or.inr ?_
          rw [p7, p1, p2]
          exact ht0
      · refine ⟨?_, ?_, ?_⟩
        · intro y hy
          rw [p5] at hy
          simp at hy
        · intro c hc
          rw [p4] at hc
          simp at hc
        · exact le_of_eq (p2.trans p3.symm)
      · intro x hx _
        rw [p7, huncq x hx, hk, rootDeriveVal_consolidated hv]
        exact val_frag_seg hv ht0 hx le_rfl hH (Nat.zero_le _) (Nat.zero_le _) hx
          (Or.inl rfl) (fun r hr => hr)
    · have hcons' : s.isConsolidated = false := by
        rw [Bool.not_eq_true] at hcons
        exact hcons
      rcases hroots with ⟨k, hk⟩ | ht
      · exact absurd (consolidated_of_singleton hk) (by rw [hcons']; simp)
      · obtain ⟨i, hfind0, hi, hu1, hu2⟩ :=
          findIdx_stop_gt ht.1 s.inFlightKeys (Nat.zero_le _) hlt
        have hget : s.roots.get? i = some (s.roots.getD i dummyNode) :=
          get?_eq_getD hi dummyNode
        have hcov : (s.roots.getD i dummyNode).coverage s.topology 1
            (s.topology.start (s.roots.getD i dummyNode).pos) s.inFlightKeys =
            some ((greedy s.topology 1
              (s.topology.start (s.roots.getD i dummyNode).pos) s.inFlightKeys).map
              (fun p => Node.mk p ((s.roots.getD i dummyNode).derive s.topology p))) :=
          node_coverage_eq_greedy hv _ le_rfl hH hu1
        have hi' : i < (s.roots.map Node.pos).length := by simpa using hi
        obtain ⟨htake, _⟩ := tiles_take_drop ht.1 i hi'
        rw [map_pos_getD] at htake
        have htake' : tilesExactly s.topology 0
            (s.topology.start (s.roots.getD i dummyNode).pos)
            ((s.roots.take i).map Node.pos) = true := by
          rw [List.map_take]
          exact htake
        have hNew : RootsTiled s.topology
            (s.roots.take i ++ (greedy s.topology 1
              (s.topology.start (s.roots.getD i dummyNode).pos) s.inFlightKeys).map
              (fun p => Node.mk p ((s.roots.getD i dummyNode).derive s.topology p)))
            s.inFlightKeys := by
          refine ⟨?_, ?_, ?_⟩
          · simp only [List.map_append]
            refine tiles_append_intro htake' ?_
            rw [map_pos_mk]
            exact greedy_tiles hv le_rfl hH hu1
          · simp only [List.map_append]
            refine wfLevels_append ?_ ?_
            · exact wfLevels_sublist (fun r hr => List.mem_of_mem_take hr) ht.2.1
            · rw [map_pos_mk]
              exact wfLevels_greedy hv le_rfl hH hu1
          · intro hcon
            have htl : tilesExactly s.topology 0 s.inFlightKeys
                ((s.roots.take i ++ (greedy s.topology 1
                  (s.topology.start (s.roots.getD i dummyNode).pos) s.inFlightKeys).map
                  (fun p => Node.mk p ((s.roots.getD i dummyNode).derive s.topology p))).map
                  Node.pos) = true := by
              simp only [List.map_append]
              refine tiles_append_intro htake' ?_
              rw [map_pos_mk]
              exact greedy_tiles hv le_rfl hH hu1
            rw [hcon] at htl
            have := tiles_nil_iff.mp (by simpa using htl)
            omega
        obtain ⟨hsplit, p1, p2, p3, p4, p5, p6, p7⟩ := commitFinish_spec res
          { s with updatedKeys := s.updatedKeys.filter (fun k => decide (k < s.inFlightKeys)), roots := s.roots.take i ++ (greedy s.topology 1 (s.topology.start (s.roots.getD i dummyNode).pos) s.inFlightKeys).map (fun p => Node.mk p ((s.roots.getD i dummyNode).derive s.topology p)) }
        refine ⟨res, _,
          by rw [commit_run_shrink_frag h0' hlt' hfull hcons' hres hfind0 hget hcov,
            hsplit], p1, p2, p3, p4, p5, ?_, ?_, hids, hpairv, ?_⟩
        · refine ⟨by rw [p1]; exact hv, by rw [p6]; rfl,
            by rw [p5]; exact List.chain'_nil, ?_, ?_⟩
          · intro c hc
            rw [p4] at hc
            simp at hc
          · refine Or.inr ?_
            rw [p7, p1, p2]
            exact hNew
        · refine ⟨?_, ?_, ?_⟩
          · intro y hy
            rw [p5] at hy
            simp at hy
          · intro c hc
            rw [p4] at hc
            simp at hc
          · exact le_of_eq (p2.trans p3.symm)
        · intro x hx _
          rw [p7, huncq x hx]
          have hrm : s.roots.getD i dummyNode ∈ s.roots := getD_mem hi dummyNode
          by_cases hcx : x < s.topology.start (s.roots.getD i dummyNode).pos
          · exact val_eq_of_seg hv ht hNew (by omega) hx htake' (Nat.zero_le x) hcx
              (fun r hr => List.mem_of_mem_take hr)
              (fun r hr => List.mem_append.mpr (Or.inl hr))
          · push_neg at hcx
            obtain ⟨w1, w2⟩ := ht.2.1 (s.roots.getD i dummyNode).pos
              (List.mem_map.mpr ⟨_, hrm, rfl⟩)
            have hnew := val_frag_seg hv hNew hx le_rfl hH hu1 hcx hx
              (Or.inr ⟨w1, w2, le_rfl, by omega⟩)
              (fun r hr => List.mem_append.mpr (Or.inr hr))
            have hold := rootDeriveVal_mem hv ht (by omega) hrm hcx (by omega)
            rw [hnew, hold]

/-! Invariant preservation along clean operation sequences. -/

theorem new_inv {fs : List Nat} (h : ValidFanouts fs) (ctr : Nat) :
    (Khf.new fs ctr).InvCore ∧ (Khf.new fs ctr).Bounded := by
  refine ⟨⟨valid_new h, rfl, List.chain'_nil, ?_, Or.inl ⟨Key.seed (ctr + 1), rfl⟩⟩,
    ?_, ?_, le_rfl⟩
  · intro c hc
    simp [Khf.new] at hc
  · intro y hy
    simp [Khf.new] at hy
  · intro c hc
    simp [Khf.new] at hc

theorem derive_inv {s : Khf} (hC : s.InvCore) (hB : s.Bounded) (x : Nat) :
    ∃ k s2, s.derive x = some (k, s2) ∧ s2.InvCore ∧ s2.Bounded ∧
      s2.topology = s.topology ∧ s2.roots = s.roots ∧ s2.keys = s.keys ∧
      s2.appendingRoot = s.appendingRoot ∧ s2.updatedKeys = s.updatedKeys ∧
      s.inFlightKeys ≤ s2.inFlightKeys := by
  obtain ⟨hv, hap, hch, hcac, hroots⟩ := hC
  obtain ⟨hbd, hcb, hkif⟩ := hB
  rcases derive_step s x with ⟨k, hhit, heq⟩ | ⟨hmiss, hxk, heq⟩ |
    ⟨hmiss, hxk, ⟨v, hval, heq⟩ | ⟨hnone, _⟩⟩
  · exact ⟨k, s, heq, ⟨hv, hap, hch, hcac, hroots⟩, ⟨hbd, hcb, hkif⟩, rfl, rfl, rfl,
      rfl, rfl, le_rfl⟩
  · refine ⟨_, _, heq, ⟨hv, hap, hch, ?_, hroots⟩, ⟨?_, ?_, ?_⟩, rfl, rfl, rfl, rfl,
      rfl, Nat.le_max_left _ _⟩
    · intro c hc
      rcases List.mem_append.mp hc with hc' | hc'
      · exact hcac c hc'
      · have : c = (x, s.appendingRoot.derive s.topology (s.topology.leafPosition x)) :=
          by simpa using hc'
        subst this
        show s.uncachedVal x = _
        rw [Khf.uncachedVal, if_pos hxk]
    · intro y hy
      have := hbd y hy
      show y < max s.inFlightKeys (x + 1)
      omega
    · intro c hc
      show c.1 < max s.inFlightKeys (x + 1)
      rcases List.mem_append.mp hc with hc' | hc'
      · have := hcb c hc'
        omega
      · have : c = (x, s.appendingRoot.derive s.topology (s.topology.leafPosition x)) :=
          by simpa using hc'
        subst this
        show x < max s.inFlightKeys (x + 1)
        omega
    · show s.keys ≤ max s.inFlightKeys (x + 1)
      omega
  · refine ⟨v, _, heq, ⟨hv, hap, hch, ?_, hroots⟩, ⟨hbd, ?_, hkif⟩, rfl, rfl, rfl, rfl,
      rfl, le_rfl⟩
    · intro c hc
      rcases List.mem_append.mp hc with hc' | hc'
      · exact hcac c hc'
      · have : c = (x, v) := by simpa using hc'
        subst this
        show s.uncachedVal x = some v
        rw [Khf.uncachedVal, if_neg hxk]
        exact hval
    · intro c hc
      show c.1 < s.inFlightKeys
      rcases List.mem_append.mp hc with hc' | hc'
      · exact hcb c hc'
      · have : c = (x, v) := by simpa using hc'
        subst this
        show x < s.inFlightKeys
        omega
  · exfalso
    obtain ⟨w, hw⟩ := rootsOpt_val_some hv hroots (show x < s.keys by omega)
    rw [hnone] at hw
    exact Option.noConfusion hw

theorem update_inv {s : Khf} (hC : s.InvCore) (hB : s.Bounded) (x : Nat) :
    ∃ k s2, s.update x = some (k, s2) ∧ s2.InvCore ∧ s2.Bounded ∧
      s2.topology = s.topology ∧ s2.roots = s.roots ∧ s2.keys = s.keys ∧
      s2.appendingRoot = s.appendingRoot ∧
      (∀ y, y ∈ s2.updatedKeys → y = x ∨ y ∈ s.updatedKeys) ∧
      s.inFlightKeys ≤ s2.inFlightKeys := by
  obtain ⟨hv, hap, hch, hcac, hroots⟩ := hC
  obtain ⟨hbd, hcb, hkif⟩ := hB
  have hC' : ({ s with updatedKeys := insertSorted x s.updatedKeys } : Khf).InvCore :=
    ⟨hv, hap, insertSorted_chain x hch, hcac, hroots⟩
  rcases derive_step { s with updatedKeys := insertSorted x s.updatedKeys } x with
    ⟨k, hhit, heq⟩ | ⟨_, hxk, heq⟩ | ⟨_, hxk, ⟨v, hval, heq⟩ | ⟨hnone, _⟩⟩
  · have hxlt : x < s.inFlightKeys := by
      have h1 := hcb _ (lookupCache_some_mem hhit)
      exact h1
    refine ⟨k, _, heq, hC', ⟨?_, hcb, hkif⟩, rfl, rfl, rfl, rfl, ?_, le_rfl⟩
    · intro y hy
      show y < s.inFlightKeys
      rcases (insertSorted_mem x _ y).mp hy with rfl | hy'
      · exact hxlt
      · exact hbd y hy'
    · intro y hy
      exact (insertSorted_mem x _ y).mp hy
  · have hxk' : s.keys ≤ x := hxk
    refine ⟨_, _, heq, ⟨hv, hap, insertSorted_chain x hch, ?_, hroots⟩,
      ⟨?_, ?_, ?_⟩, rfl, rfl, rfl, rfl, ?_, Nat.le_max_left _ _⟩
    · intro c hc
      rcases List.mem_append.mp hc with hc' | hc'
      · exact hcac c hc'
      · have : c = (x, s.appendingRoot.derive s.topology (s.topology.leafPosition x)) :=
          by simpa using hc'
        subst this
        show s.uncachedVal x = _
        rw [Khf.uncachedVal, if_pos hxk']
    · intro y hy
      show y < max s.inFlightKeys (x + 1)
      rcases (insertSorted_mem x _ y).mp hy with rfl | hy'
      · omega
      · have := hbd y hy'
        omega
    · intro c hc
      show c.1 < max s.inFlightKeys (x + 1)
      rcases List.mem_append.mp hc with hc' | hc'
      · have := hcb c hc'
        omega
      · have : c = (x, s.appendingRoot.derive s.topology (s.topology.leafPosition x)) :=
          by simpa using hc'
        subst this
        show x < max s.inFlightKeys (x + 1)
        omega
    · show s.keys ≤ max s.inFlightKeys (x + 1)
      omega
    · intro y hy
      exact (insertSorted_mem x _ y).mp hy
  · have hxk' : ¬ s.keys ≤ x := hxk
    refine ⟨v, _, heq, ⟨hv, hap, insertSorted_chain x hch, ?_, hroots⟩,
      ⟨?_, ?_, hkif⟩, rfl, rfl, rfl, rfl, ?_, le_rfl⟩
    · intro c hc
      rcases List.mem_append.mp hc with hc' | hc'
      · exact hcac c hc'
      · have : c = (x, v) := by simpa using hc'
        subst this
        show s.uncachedVal x = some v
        rw [Khf.uncachedVal, if_neg hxk']
        exact hval
    · intro y hy
      show y < s.inFlightKeys
      rcases (insertSorted_mem x _ y).mp hy with rfl | hy'
      · omega
      · exact hbd y hy'
    · intro c hc
      show c.1 < s.inFlightKeys
      rcases List.mem_append.mp hc with hc' | hc'
      · exact hcb c hc'
      · have : c = (x, v) := by simpa using hc'
        subst this
        show x < s.inFlightKeys
        omega
    · intro y hy
      exact (insertSorted_mem x _ y).mp hy
  · exfalso
    have hxk' : ¬ s.keys ≤ x := hxk
    obtain ⟨w, hw⟩ := rootsOpt_val_some hv hroots (show x < s.keys from by omega)
    rw [hnone] at hw
    exact Option.noConfusion hw

theorem truncate_invCore {s : Khf} (hC : s.InvCore) (n : Nat) :
    (s.truncate n).InvCore := by
  obtain ⟨hv, hap, hch, hcac, hroots⟩ := hC
  exact ⟨hv, hap, hch, hcac, hroots⟩

theorem run_clean_inv :
    ∀ (ops : List Op) (s : Khf), cleanOps ops = true → s.InvCore → s.Bounded →
      ∃ s2, s.run ops = some s2 ∧ s2.InvCore ∧ s2.Bounded := by
  intro ops
  induction ops with
  | nil => exact fun s _ hC hB => ⟨s, rfl, hC, hB⟩
  | cons op ops ih =>
    intro s hclean hC hB
    have hop : (op.isDeriveUpdate || op.isCommitOp) = true := by
      have := List.all_eq_true.mp hclean op (by simp)
      simpa using this
    have hclean' : cleanOps ops = true := by
      rw [cleanOps] at hclean ⊢
      simp only [List.all_cons, Bool.and_eq_true] at hclean
      exact hclean.2
    have hstep : ∃ s1, s.applyOp op = some s1 ∧ s1.InvCore ∧ s1.Bounded := by
      match op with
      | .derive x =>
        obtain ⟨k, s1, heq, h1, h2, _⟩ := derive_inv hC hB x
        exact ⟨s1, by rw [Khf.applyOp, heq]; rfl, h1, h2⟩
      | .update x =>
        obtain ⟨k, s1, heq, h1, h2, _⟩ := update_inv hC hB x
        exact ⟨s1, by rw [Khf.applyOp, heq]; rfl, h1, h2⟩
      | .commit =>
        obtain ⟨res, s1, heq, _, _, _, _, _, h1, h2, _⟩ := commit_spec hC hB
        exact ⟨s1, by rw [Khf.applyOp, heq]; rfl, h1, h2⟩
      | .consolidate m => simp [Op.isDeriveUpdate, Op.isCommitOp] at hop
      | .truncate n => simp [Op.isDeriveUpdate, Op.isCommitOp] at hop
    obtain ⟨s1, heq, h1, h2⟩ := hstep
    obtain ⟨s2, hrun, h1', h2'⟩ := ih s1 hclean' h1 h2
    refine ⟨s2, ?_, h1', h2'⟩
    show (s.applyOp op).bind (fun s1 => s1.run ops) = some s2
    rw [heq, Option.some_bind]
    exact hrun

theorem run_clean_inv_of {fs : List Nat} {ctr : Nat} {ops : List Op} {s : Khf}
    (hfs : ValidFanouts fs) (hclean : cleanOps ops = true)
    (hrun : (Khf.new fs ctr).run ops = some s) : s.InvCore ∧ s.Bounded := by
  obtain ⟨hC, hB⟩ := new_inv hfs ctr
  obtain ⟨s2, h2, hc, hb⟩ := run_clean_inv ops (Khf.new fs ctr) hclean hC hB
  rw [hrun] at h2
  cases h2
  exact ⟨hc, hb⟩

/-- Within one epoch (`derive`/`update` only), the committed structures are
untouched: topology, roots, keys and the appending root are constant, the
in-flight bound only grows, and the update set only gains ids that were
passed to `update`. -/
theorem run_epoch :
    ∀ (ops : List Op) (s : Khf), (∀ op ∈ ops, op.isDeriveUpdate = true) →
      s.InvCore → s.Bounded → ∀ {s' : Khf}, s.run ops = some s' →
      s'.topology = s.topology ∧ s'.roots = s.roots ∧ s'.keys = s.keys ∧
        s'.appendingRoot = s.appendingRoot ∧
        (∀ y, y ∈ s'.updatedKeys → y ∈ s.updatedKeys ∨ (Op.update y) ∈ ops) ∧
        s.inFlightKeys ≤ s'.inFlightKeys := by
  intro ops
  induction ops with
  | nil =>
    intro s _ _ _ s' hrun
    cases hrun
    exact ⟨rfl, rfl, rfl, rfl, fun y hy => Or.inl hy, le_rfl⟩
  | cons op ops ih =>
    intro s hops hC hB s' hrun
    have hop := hops op (by simp)
    have hstep : ∃ s1, s.applyOp op = some s1 ∧ s1.InvCore ∧ s1.Bounded ∧
        s1.topology = s.topology ∧ s1.roots = s.roots ∧ s1.keys = s.keys ∧
        s1.appendingRoot = s.appendingRoot ∧
        (∀ y, y ∈ s1.updatedKeys → y ∈ s.updatedKeys ∨ op = Op.update y) ∧
        s.inFlightKeys ≤ s1.inFlightKeys := by
      match op with
      | .derive x =>
        obtain ⟨k, s1, heq, h1, h2, e1, e2, e3, e4, e5, e6⟩ := derive_inv hC hB x
        exact ⟨s1, by rw [Khf.applyOp, heq]; rfl, h1, h2, e1, e2, e3, e4,
          fun y hy => Or.inl (by rw [e5] at hy; exact hy), e6⟩
      | .update x =>
        obtain ⟨k, s1, heq, h1, h2, e1, e2, e3, e4, e5, e6⟩ := update_inv hC hB x
        refine ⟨s1, by rw [Khf.applyOp, heq]; rfl, h1, h2, e1, e2, e3, e4, ?_, e6⟩
        intro y hy
        rcases e5 y hy with rfl | hy'
        · exact Or.inr rfl
        · exact Or.inl hy'
      | .commit => simp [Op.isDeriveUpdate] at hop
      | .consolidate m => simp [Op.isDeriveUpdate] at hop
      | .truncate n => simp [Op.isDeriveUpdate] at hop
    obtain ⟨s1, heq, h1, h2, e1, e2, e3, e4, e5, e6⟩ := hstep
    have hrun' : s1.run ops = some s' := by
      have : (s.applyOp op).bind (fun t => t.run ops) = some s' := hrun
      rw [heq, Option.some_bind] at this
      exact this
    obtain ⟨f1, f2, f3, f4, f5, f6⟩ := ih s1 (fun o ho => hops o (by simp [ho])) h1 h2 hrun'
    refine ⟨f1.trans e1, f2.trans e2, f3.trans e3, f4.trans e4, ?_, le_trans e6 f6⟩
    intro y hy
    rcases f5 y hy with hy' | hy'
    · rcases e5 y hy' with hy'' | rfl
      · exact Or.inl hy''
      · exact Or.inr (by simp)
    · exact Or.inr (by simp [hy'])

/-- Derivation on a freshly committed state (empty cache, in-domain id) is the
binary search over the new roots. -/
theorem post_deriveVal {s2 : Khf} (hc2 : s2.cachedKeys = []) {x : Nat}
    (hx : x < s2.keys) :
    s2.deriveVal x = rootDeriveVal s2.topology s2.roots x := by
  have hnone : lookupCache s2.cachedKeys x = none := by
    rw [hc2]
    rfl
  rw [deriveVal_eq_dki, dki_eq_uncached hnone, Khf.uncachedVal, if_neg (by omega)]

theorem invCore_coverageOK {s : Khf} (hC : s.InvCore) : s.rootsCoverageOK = true := by
  rcases hC.2.2.2.2 with ⟨k, hk⟩ | ht
  · rw [Khf.rootsCoverageOK, consolidated_of_singleton hk]
    rfl
  · rw [Khf.rootsCoverageOK, ht.1]
    simp

/-! The claims. -/

/-- C1: Commit preserves un-revoked keys along truncation-free,
consolidation-free histories: after any sequence of `derive`, `update` and
`commit` operations on a fresh forest, a further commit leaves `derive x`
unchanged for every `x` below the post-commit domain size that is not among
the ids the commit returns. -/
theorem C1_commit_preserves_unrevoked {fs : List Nat} {ctr : Nat} {ops : List Op}
    {s : Khf} {res : List (Nat × Key)} {s' : Khf} {x : Nat}
    (hfs : ValidFanouts fs) (hclean : cleanOps ops = true)
    (hrun : (Khf.new fs ctr).run ops = some s)
    (hcommit : s.commit = some (res, s'))
    (hx : x < s'.keys) (hxres : x ∉ resultIds res) :
    s'.deriveVal x = s.deriveVal x := by
  obtain ⟨hC, hB⟩ := run_clean_inv_of hfs hclean hrun
  obtain ⟨res2, s2, hceq, q1, q2, _, q4, _, _, _, hids, _, hval⟩ := commit_spec hC hB
  rw [hcommit] at hceq
  have hres2 : res = res2 := congrArg Prod.fst (Option.some.inj hceq)
  have hs2 : s' = s2 := congrArg Prod.snd (Option.some.inj hceq)
  subst hres2
  subst hs2
  have hx' : x < s.inFlightKeys := by
    rw [q2] at hx
    exact hx
  have hxu : x ∉ s.updatedKeys := by
    rw [← hids]
    exact hxres
  rw [post_deriveVal q4 hx, q1, hval x hx' hxu]
  exact (deriveVal_eq_uncached hC.2.2.2.1 x).symm

/-- C2: Root-list coverage invariant along truncation-free,
consolidation-free histories: after any sequence of `derive`, `update` and
`commit` operations on a fresh forest, the roots are the consolidated
singleton or tile exactly `[0, keys)`. -/
theorem C2_roots_coverage_invariant {fs : List Nat} {ctr : Nat} {ops : List Op}
    {s : Khf} (hfs : ValidFanouts fs) (hclean : cleanOps ops = true)
    (hrun : (Khf.new fs ctr).run ops = some s) :
    s.rootsCoverageOK = true :=
  invCore_coverageOK (run_clean_inv_of hfs hclean hrun).1

/-- C3: The fast-path test `|updated_keys| = in_flight_keys` agrees with
"every id in `[0, in_flight_keys)` is pending" exactly when the pending set
is strictly sorted and bounded by `in_flight_keys` (as always holds without
truncation). -/
theorem C3_fast_path_condition {s : Khf} (hch : s.updatedKeys.Chain' (· < ·))
    (hbd : ∀ y ∈ s.updatedKeys, y < s.inFlightKeys) :
    s.updatedKeys.length = s.inFlightKeys ↔
      ∀ i, i < s.inFlightKeys → i ∈ s.updatedKeys :=
  sorted_bounded_length_iff hch hbd

/-- C4: Append identity: if, within one epoch of `derive`/`update`
operations, the in-flight bound rose past the committed domain and `x` in the
appended range was never passed to `update`, then after the commit `derive x`
returns the value it had during the in-flight period — the derivation from
the epoch's appending root. -/
theorem C4_append_identity {fs : List Nat} {ctr : Nat} {ops1 ops2 : List Op}
    {s0 s : Khf} {res : List (Nat × Key)} {s' : Khf} {x : Nat}
    (hfs : ValidFanouts fs) (hclean : cleanOps ops1 = true)
    (hrun1 : (Khf.new fs ctr).run ops1 = some s0)
    (hepoch0 : s0.updatedKeys = [])
    (hops2 : ∀ op ∈ ops2, op.isDeriveUpdate = true)
    (hrun2 : s0.run ops2 = some s)
    (hnoup : ∀ op ∈ ops2, op ≠ Op.update x)
    (hx1 : s.keys ≤ x) (hx2 : x < s.inFlightKeys)
    (hcommit : s.commit = some (res, s')) :
    s'.deriveVal x = s.deriveVal x ∧
      s.deriveVal x =
        some (s.appendingRoot.derive s.topology (s.topology.leafPosition x)) := by
  obtain ⟨hC0, hB0⟩ := run_clean_inv_of hfs hclean hrun1
  have hclean2 : cleanOps ops2 = true := by
    rw [cleanOps]
    apply List.all_eq_true.mpr
    intro op hop
    simp [hops2 op hop]
  obtain ⟨st, hst, hC, hB⟩ := run_clean_inv ops2 s0 hclean2 hC0 hB0
  rw [hrun2] at hst
  cases hst
  obtain ⟨_, _, _, _, e5, _⟩ := run_epoch ops2 s0 hops2 hC0 hB0 hrun2
  have hxu : x ∉ s.updatedKeys := by
    intro hmem
    rcases e5 x hmem with h | h
    · rw [hepoch0] at h
      simp at h
    · exact hnoup _ h rfl
  obtain ⟨res2, s2, hceq, q1, q2, _, q4, _, _, _, _, _, hval⟩ := commit_spec hC hB
  rw [hcommit] at hceq
  have hres2 : res = res2 := congrArg Prod.fst (Option.some.inj hceq)
  have hs2 : s' = s2 := congrArg Prod.snd (Option.some.inj hceq)
  subst hres2
  subst hs2
  have hafter : s.deriveVal x = some (s.appendingRoot.derive s.topology
      (s.topology.leafPosition x)) := by
    rw [deriveVal_eq_uncached hC.2.2.2.1 x, Khf.uncachedVal, if_pos hx1]
  refine ⟨?_, hafter⟩
  rw [post_deriveVal q4 (by rw [q2]; exact hx2), q1, hval x hx2 hxu,
    ← deriveVal_eq_uncached hC.2.2.2.1 x]

/-- C6: Truncate-then-commit semantics for a genuine shrink (`0 < n < keys`)
on a clean history: the committed size becomes `n`, the returned list holds
exactly the pending ids below `n` (those at or above `n` are dropped and
forgotten), and every surviving id outside the pending set keeps its
pre-truncate derived value. -/
theorem C6_truncate_commit {fs : List Nat} {ctr : Nat} {ops : List Op}
    {s : Khf} {n : Nat} {res : List (Nat × Key)} {s' : Khf}
    (hfs : ValidFanouts fs) (hclean : cleanOps ops = true)
    (hrun : (Khf.new fs ctr).run ops = some s)
    (h0 : 0 < n) (hn : n < s.keys)
    (hcommit : (s.truncate n).commit = some (res, s')) :
    s'.keys = n ∧
      resultIds res = s.updatedKeys.filter (fun k => decide (k < n)) ∧
      (∀ y ∈ s.updatedKeys, n ≤ y → y ∉ resultIds res) ∧
      s'.updatedKeys = [] ∧
      (∀ x, x < n → x ∉ s.updatedKeys → s'.deriveVal x = s.deriveVal x) := by
  obtain ⟨hC, hB⟩ := run_clean_inv_of hfs hclean hrun
  have hCt : (s.truncate n).InvCore := truncate_invCore hC n
  obtain ⟨res2, s2, hceq, q1, q2, _, q4, q5, _, _, hids, _, hval⟩ :=
    commit_spec_shrink hCt h0 hn
  rw [hcommit] at hceq
  have hres2 : res = res2 := congrArg Prod.fst (Option.some.inj hceq)
  have hs2 : s' = s2 := congrArg Prod.snd (Option.some.inj hceq)
  subst hres2
  subst hs2
  refine ⟨q2, hids, ?_, q5, ?_⟩
  · intro y _ hy hmem
    rw [hids] at hmem
    have h2 := (List.mem_filter.mp hmem).2
    simp only [decide_eq_true_eq] at h2
    have hn' : (s.truncate n).inFlightKeys = n := rfl
    omega
  · intro x hx hxu
    rw [post_deriveVal q4 (by rw [q2]; exact hx), q1, hval x hx hxu]
    exact (deriveVal_eq_uncached hC.2.2.2.1 x).symm

/-- C7: Derive on an uncached out-of-range id raises `in_flight_keys` to
`max(in_flight_keys, x + 1)`, returns the appending-root derivation, caches
it, and leaves `roots` and `keys` unchanged.  (On a cache hit the call
returns the cached value and mutates nothing, so the unconditional claim
fails.) -/
theorem C7_derive_out_of_range {s : Khf} {x : Nat}
    (hmiss : lookupCache s.cachedKeys x = none) (hx : s.keys ≤ x) :
    s.derive x = some (s.appendingRoot.derive s.topology (s.topology.leafPosition x),
      { s with inFlightKeys := max s.inFlightKeys (x + 1),
               cachedKeys := s.cachedKeys ++
                 [(x, s.appendingRoot.derive s.topology (s.topology.leafPosition x))] }) := by
  rcases derive_step s x with ⟨k, hhit, _⟩ | ⟨_, _, heq⟩ | ⟨_, hxk, _⟩
  · rw [hmiss] at hhit
    exact Option.noConfusion hhit
  · exact heq
  · omega

/-- C8: For every valid topology, target level `L` in `[1, H-1]` and
`start ≤ end`, the leveled coverage succeeds and yields an ordered exact
partition of `[start, end)` by positions of level at least `L` (at or below
the target level), and it is minimal among all such partitions. -/
theorem C8_coverage_partition {fs : List Nat} {L s e : Nat} (hfs : ValidFanouts fs)
    (hL1 : 1 ≤ L) (hL2 : L ≤ (Topology.new fs).height - 1) (hse : s ≤ e) :
    ∃ l, (Topology.new fs).leveledCoverage L s e = some l ∧
      tilesExactly (Topology.new fs) s e l = true ∧
      (∀ p ∈ l, L ≤ p.1 ∧ p.1 ≤ (Topology.new fs).height - 1) ∧
      ∀ l', tilesExactly (Topology.new fs) s e l' = true →
        (∀ p ∈ l', L ≤ p.1 ∧ p.1 ≤ (Topology.new fs).height - 1) →
        l.length ≤ l'.length := by
  have hv := valid_new hfs
  refine ⟨greedy (Topology.new fs) L s e, leveledCoverage_eq_greedy hv hL1 hL2 hse,
    greedy_tiles hv hL1 hL2 hse, fun p hp => greedy_levels hv hL1 hL2 hse p hp, ?_⟩
  intro l' htl hwl
  exact greedy_minimal_aux hv hL1 hL2 (e - s) s e le_rfl hse l' htl hwl

/-- C9: `fanout(H - 1)` does not return `1` as claimed: the guard in the
source compares `level` with `height()` instead of `height() - 1`, so the
call indexes `descendants[H]`, one past the end — the translation returns
`none` where the source panics. -/
theorem C9_fanout_top_level_out_of_bounds :
    (Topology.new [2, 2]).fanout ((Topology.new [2, 2]).height - 1) = none := by
  decide

theorem mapM_pairs_inv {f : Nat → Option Key} :
    ∀ {l : List Nat} {res : List (Nat × Key)},
      l.mapM (fun x => (f x).map (fun k => (x, k))) = some res →
      resultIds res = l ∧ ∀ p ∈ res, f p.1 = some p.2 := by
  intro l
  induction l with
  | nil =>
    intro res h
    have hres : res = [] := by
      have : (some [] : Option (List (Nat × Key))) = some res := h
      exact (Option.some.inj this).symm
    subst hres
    exact ⟨rfl, by simp⟩
  | cons y ys ih =>
    intro res h
    rw [List.mapM_cons] at h
    rcases hf : f y with _ | v
    · rw [hf] at h
      simp at h
    · rw [hf] at h
      simp only [Option.map_some', Option.pure_def, Option.bind_eq_bind,
        Option.some_bind] at h
      rcases hm : ys.mapM (fun x => (f x).map (fun k => (x, k))) with _ | bs
      · rw [hm] at h
        simp at h
      · rw [hm] at h
        simp only [Option.some_bind, Option.some.injEq] at h
        obtain ⟨hids, hmem⟩ := ih hm
        subst h
        refine ⟨?_, ?_⟩
        · show y :: resultIds bs = y :: ys
          rw [hids]
        · intro p hp
          rcases List.mem_cons.mp hp with rfl | hp'
          · exact hf
          · exact hmem p hp'

theorem bind_some_fst {α : Type} {r0 res : List (Nat × Key)} {s' : Khf}
    {o : Option α} {g : α → Khf}
    (h : o.bind (fun a => some (commitFinish r0 (g a))) = some (res, s')) :
    r0 = res := by
  rcases o with _ | a
  · simp at h
  · simp only [Option.some_bind, Option.some.injEq] at h
    have := congrArg Prod.fst h
    simpa [commitFinish] using this

theorem commit_inversion {s : Khf} {res : List (Nat × Key)} {s' : Khf}
    (hcommit : s.commit = some (res, s')) :
    ((s.inFlightKeys = 0 ∨ s.keys ≤ s.inFlightKeys) ∧ commitPairs s = some res) ∨
    ((¬ s.inFlightKeys = 0 ∧ ¬ s.keys ≤ s.inFlightKeys) ∧
      commitPairs { s with updatedKeys := s.updatedKeys.filter (fun k => decide (k < s.inFlightKeys)) } = some res) := by
  unfold Khf.commit at hcommit
  by_cases h0 : s.inFlightKeys = 0
  · rw [if_pos h0] at hcommit
    refine Or.inl ⟨Or.inl h0, ?_⟩
    rcases hc : commitPairs s with _ | r0
    · rw [hc] at hcommit
      simp at hcommit
    · rw [hc] at hcommit
      simp only [Option.bind_eq_bind, Option.some_bind] at hcommit
      rw [bind_some_fst hcommit]
  · rw [if_neg h0] at hcommit
    by_cases hge : s.keys ≤ s.inFlightKeys
    · rw [if_pos hge] at hcommit
      refine Or.inl ⟨Or.inr hge, ?_⟩
      by_cases hlen : s.updatedKeys.length = s.inFlightKeys
      · rw [if_pos hlen] at hcommit
        rcases hc : commitPairs s with _ | r0
        · rw [hc] at hcommit
          simp at hcommit
        · rw [hc] at hcommit
          simp only [Option.bind_eq_bind, Option.some_bind] at hcommit
          rw [bind_some_fst hcommit]
      · rw [if_neg hlen] at hcommit
        rcases hc : commitPairs s with _ | r0
        · rw [hc] at hcommit
          simp at hcommit
        · rw [hc] at hcommit
          simp only [Option.bind_eq_bind, Option.some_bind] at hcommit
          rcases hr : s.replaceKeys 1 s.keys s.inFlightKeys s.appendingRoot with _ | s1
          · rw [hr] at hcommit
            simp at hcommit
          · rw [hr] at hcommit
            simp only [Option.some_bind] at hcommit
            rw [bind_some_fst hcommit]
    · rw [if_neg hge] at hcommit
      refine Or.inr ⟨⟨h0, hge⟩, ?_⟩
      by_cases hlen : (s.updatedKeys.filter (fun k => decide (k < s.inFlightKeys))).length = s.inFlightKeys
      · simp only [hlen, if_true] at hcommit
        rcases hc : commitPairs { s with updatedKeys := s.updatedKeys.filter (fun k => decide (k < s.inFlightKeys)) } with _ | r0
        · rw [hc] at hcommit
          simp at hcommit
        · rw [hc] at hcommit
          simp only [Option.bind_eq_bind, Option.some_bind] at hcommit
          rw [bind_some_fst hcommit]
      · simp only [hlen, if_false] at hcommit
        by_cases hcons : s.isConsolidated = true
        · simp only [isConsolidated_congr, hcons, if_true] at hcommit
          rcases hc : commitPairs { s with updatedKeys := s.updatedKeys.filter (fun k => decide (k < s.inFlightKeys)) } with _ | r0
          · rw [hc] at hcommit
            simp at hcommit
          · rw [hc] at hcommit
            simp only [Option.bind_eq_bind, Option.some_bind] at hcommit
            rw [bind_some_fst hcommit]
        · simp only [isConsolidated_congr, hcons, if_false, Bool.false_eq_true] at hcommit
          rcases hc : commitPairs { s with updatedKeys := s.updatedKeys.filter (fun k => decide (k < s.inFlightKeys)) } with _ | r0
          · rw [hc] at hcommit
            simp at hcommit
          · rw [hc] at hcommit
            simp only [Option.bind_eq_bind, Option.some_bind] at hcommit
            rcases hi : s.roots.findIdx?
                (fun r => decide (s.inFlightKeys < s.topology.stop r.pos)) with _ | i
            · rw [hi] at hcommit
              simp at hcommit
            · rw [hi] at hcommit
              simp only [Option.some_bind] at hcommit
              rcases hg : s.roots.get? i with _ | r
              · rw [hg] at hcommit
                simp at hcommit
              · rw [hg] at hcommit
                simp only [Option.some_bind] at hcommit
                rw [bind_some_fst hcommit]

/-- C10: Every successful commit returns the pending updated ids in strictly
ascending order — all of them when growing or staying (`in_flight ≥ keys` or
`in_flight = 0`), and exactly those below `in_flight_keys` when truncating —
each paired with the key `derive` would have returned for that id immediately
before the commit, computed before any root replacement takes effect. -/
theorem C10_commit_returns_pairs {s : Khf} {res : List (Nat × Key)} {s' : Khf}
    (hch : s.updatedKeys.Chain' (· < ·))
    (hcommit : s.commit = some (res, s')) :
    resultIds res = (if s.inFlightKeys = 0 ∨ s.keys ≤ s.inFlightKeys
      then s.updatedKeys
      else s.updatedKeys.filter (fun k => decide (k < s.inFlightKeys))) ∧
    (resultIds res).Chain' (· < ·) ∧
    (∀ p ∈ res, s.deriveVal p.1 = some p.2) := by
  rcases commit_inversion hcommit with ⟨hcase, hcp⟩ | ⟨⟨h1, h2⟩, hcp⟩
  · unfold commitPairs at hcp
    obtain ⟨hids, hmem⟩ := mapM_pairs_inv hcp
    refine ⟨by rw [if_pos hcase]; exact hids, by rw [hids]; exact hch, ?_⟩
    intro p hp
    rw [deriveVal_eq_dki]
    exact hmem p hp
  · unfold commitPairs at hcp
    obtain ⟨hids, hmem⟩ := mapM_pairs_inv hcp
    have hcase' : ¬ (s.inFlightKeys = 0 ∨ s.keys ≤ s.inFlightKeys) := by
      rintro (h | h)
      · exact h1 h
      · exact h2 h
    refine ⟨by rw [if_neg hcase']; exact hids, ?_, ?_⟩
    · rw [hids]
      exact filter_chain hch
    · intro p hp
      rw [deriveVal_eq_dki]
      exact hmem p hp

/-- C5: Refutation of totality.  `consolidate(Leveled { level: 1 })` on a
freshly constructed forest (`keys = 0`, `in_flight_keys = 0`) fails: the
consolidated expansion covers the empty range `[0, 0)` and yields an empty
root list, after which `replace_keys` underflows `roots.len() - 1` and
indexes the empty vector — a panic, modelled here as `none`. -/
theorem C5_consolidate_fresh_leveled_panics :
    (Khf.new [2, 2] 0).consolidate (Consolidation.leveled 1) = none := by
  have hv : (Topology.new [2, 2]).Valid := valid_new ⟨by decide, by decide⟩
  have hg : greedy (Topology.new [2, 2]) 1 0 0 = [] := by
    simp [greedy]
  have hcov : (Node.new (Key.seed 1)).coverage (Topology.new [2, 2]) 1 0 (max 0 0) =
      some [] := by
    have h := node_coverage_eq_greedy hv (Node.new (Key.seed 1)) (le_refl 1)
      (by decide) (le_refl 0)
    rw [hg] at h
    exact h
  show Option.map _ (Option.bind
    ((Node.new (Key.seed 1)).coverage (Topology.new [2, 2]) 1 0 (max 0 0)) _) = none
  rw [hcov]
  rfl

/-! Evaluation of the concrete runs. -/

theorem valid22 : (Topology.new [2, 2]).Valid := valid_new ⟨by decide, by decide⟩

theorem run_cons_eq {s s1 : Khf} {op : Op} {ops : List Op}
    (h : s.applyOp op = some s1) : s.run (op :: ops) = s1.run ops := by
  show (s.applyOp op).bind (fun s2 => s2.run ops) = s1.run ops
  rw [h]
  rfl

theorem applyOp_commit_eq {s s' : Khf} {res : List (Nat × Key)}
    (h : s.commit = some (res, s')) : s.applyOp Op.commit = some s' := by
  show s.commit.map (·.2) = some s'
  rw [h]
  rfl

theorem applyOp_derive_eq {s s' : Khf} {x : Nat} {k : Key}
    (h : s.derive x = some (k, s')) : s.applyOp (Op.derive x) = some s' := by
  show (s.derive x).map (·.2) = some s'
  rw [h]
  rfl

theorem applyOp_update_eq {s s' : Khf} {x : Nat} {k : Key}
    (h : s.update x = some (k, s')) : s.applyOp (Op.update x) = some s' := by
  show (s.update x).map (·.2) = some s'
  rw [h]
  rfl

theorem applyOp_truncate_eq (s : Khf) (n : Nat) :
    s.applyOp (Op.truncate n) = some (s.truncate n) := rfl

theorem start22_leaf (i : Nat) : (Topology.new [2, 2]).start (3, i) = i := by
  show (if (3 : Nat) = 0 then 0 else i * (Topology.new [2, 2]).desc 3) = i
  rw [if_neg (by decide)]
  show i * 1 = i
  exact Nat.mul_one i

theorem path_new22 (i : Nat) :
    (Topology.new [2, 2]).path (0, 0) (3, i) = [(1, i / 4), (2, i / 2), (3, i)] := by
  show pathAux (Topology.new [2, 2]) ((Topology.new [2, 2]).start (3, i)) 0 3 = _
  rw [start22_leaf]
  simp [pathAux, Topology.offset, Topology.desc, Topology.new, descList]

theorem derive00_new22 (k : Key) (i : Nat) :
    Node.derive (Node.mk (0, 0) k) (Topology.new [2, 2]) (3, i) =
      chainK k (i / 4) (i / 2) i := by
  unfold Node.derive
  have hne : ¬ (Node.mk (0, 0) k).pos = ((3, i) : Pos) := by
    intro h
    have h1 : (0 : Nat) = 3 := congrArg Prod.fst h
    exact absurd h1 (by decide)
  rw [if_neg hne, path_new22]
  rfl

theorem derive_append_run {s : Khf} {x : Nat}
    (hmiss : lookupCache s.cachedKeys x = none) (hx : s.keys ≤ x) :
    s.derive x = some (s.appendingRoot.derive s.topology (s.topology.leafPosition x),
      { s with inFlightKeys := max s.inFlightKeys (x + 1),
               cachedKeys := s.cachedKeys ++
                 [(x, s.appendingRoot.derive s.topology (s.topology.leafPosition x))] }) := by
  rcases derive_step s x with ⟨k, hhit, _⟩ | ⟨_, _, heq⟩ | ⟨_, hxk, _⟩
  · rw [hmiss] at hhit
    exact Option.noConfusion hhit
  · exact heq
  · omega

theorem greedy22_0_1 : greedy (Topology.new [2, 2]) 1 0 1 = [(3, 0)] := by
  simp [greedy, greedyLevel, greedyLevelAux, qualB, Topology.desc, Topology.new,
    descList, Topology.height, Topology.offset]

theorem cov00_0_1 (k : Key) :
    (Node.mk (0, 0) k).coverage (Topology.new [2, 2]) 1 0 1 =
      some [Node.mk (3, 0) (chainK k 0 0 0)] := by
  rw [node_coverage_eq_greedy valid22 (Node.mk (0, 0) k) le_rfl (by decide) (by decide),
    greedy22_0_1]
  simp only [List.map_cons, List.map_nil]
  rw [derive00_new22]

theorem replaceKeys_run_cons {s : Khf} {level a b : Nat} {root : Node}
    {roots0 newRoots : List Node}
    (hlevel : ¬ level = 0) (hcons : s.isConsolidated = true)
    (hcov : (s.roots.getD 0 dummyNode).coverage s.topology level 0
      (max s.inFlightKeys b) = some roots0)
    (htail : replaceKeysTail s.topology level a b root roots0 = some newRoots) :
    s.replaceKeys level a b root = some { s with roots := newRoots } := by
  unfold Khf.replaceKeys
  rw [if_neg hlevel, if_pos hcons, hcov]
  simp only [Option.bind_eq_bind, Option.some_bind, htail]

theorem consolidateRL_run {s : Khf} {level a b : Nat} {s1 : Khf}
    (h : ({ s with rng := (Node.withRng s.rng).2 } : Khf).replaceKeys level a b
      (Node.withRng s.rng).1 = some s1) :
    s.consolidateRangedLeveled level a b =
      some (List.range' a (b - a),
        { s1 with updatedKeys := s1.updatedKeys.filter (fun k => decide (k < a) || decide (b ≤ k)) }) := by
  show (({ s with rng := (Node.withRng s.rng).2 } : Khf).replaceKeys level a b
    (Node.withRng s.rng).1).map _ = _
  rw [h]
  rfl

/-! The generic leaf derivation used by each trace evaluation. -/

theorem approot_derive_eval {s : Khf} {k : Key} (x : Nat)
    (ha : s.appendingRoot = Node.mk (0, 0) k) (ht : s.topology = Topology.new [2, 2]) :
    s.appendingRoot.derive s.topology (s.topology.leafPosition x) =
      chainK k (x / 4) (x / 2) x := by
  rw [ha, ht]
  show Node.derive (Node.mk (0, 0) k) (Topology.new [2, 2]) (3, x) = _
  exact derive00_new22 k x

/-! Trace: `derive 0` and its commit. -/

theorem derive_new_0 :
    (Khf.new [2, 2] 0).derive 0 = some (chainK (Key.seed 0) 0 0 0, exDerive0) := by
  have hmiss : lookupCache (Khf.new [2, 2] 0).cachedKeys 0 = none := rfl
  rw [derive_append_run hmiss (by decide), approot_derive_eval 0 rfl rfl]
  decide

theorem run_derive0 : (Khf.new [2, 2] 0).run [Op.derive 0] = some exDerive0 := by
  rw [run_cons_eq (applyOp_derive_eq derive_new_0)]
  rfl

theorem tail_single31 (k k' : Key) :
    replaceKeysTail (Topology.new [2, 2]) 1 0 1 (Node.mk (0, 0) k) [Node.mk (3, 0) k'] =
      some [Node.mk (3, 0) (chainK k 0 0 0)] := by
  have hfind : (([Node.mk (3, 0) k'].findIdx?
      (fun r => decide (0 < (Topology.new [2, 2]).stop r.pos))).getD
      ([Node.mk (3, 0) k'].length - 1)) = 0 := rfl
  have hget : [Node.mk (3, 0) k'].get? 0 = some (Node.mk (3, 0) k') := rfl
  have hlf : (if (Topology.new [2, 2]).start (Node.mk (3, 0) k').pos ≠ 0 then
      (Node.mk (3, 0) k').coverage (Topology.new [2, 2]) 1
        ((Topology.new [2, 2]).start (Node.mk (3, 0) k').pos) 0
      else some []) = some [] := rfl
  have hlast : ([Node.mk (3, 0) k'].drop 0).getLast? = some (Node.mk (3, 0) k') := rfl
  have hbr : ¬ 1 < (Topology.new [2, 2]).stop (Node.mk (3, 0) k').pos := by
    have h1 : ¬ (1 : Nat) < 1 := by decide
    exact h1
  rw [replaceKeysTail_run_false hfind hget hlf (cov00_0_1 k) hlast hbr]
  rfl

theorem commit_exDerive0 : exDerive0.commit = some ([], exDerive0C) := by
  have hrk : exDerive0.replaceKeys 1 0 1 (Node.mk (0, 0) (Key.seed 0)) =
      some { exDerive0 with roots := [Node.mk (3, 0) (chainK (Key.seed 0) 0 0 0)] } :=
    replaceKeys_run_cons (by decide) (by decide)
      (cov00_0_1 (Key.seed 1)) (tail_single31 (Key.seed 0) (chainK (Key.seed 1) 0 0 0))
  have hres : commitPairs exDerive0 = some [] := rfl
  have hfold : (updatedKeyRanges exDerive0.updatedKeys).foldlM
      (fun (st : Khf) (ab : Nat × Nat) => do
        let n := Node.withRng st.rng
        ({ st with rng := n.2 }).replaceKeys 1 ab.1 ab.2 n.1)
      ({ exDerive0 with roots := [Node.mk (3, 0) (chainK (Key.seed 0) 0 0 0)] } : Khf) =
      some ({ exDerive0 with roots := [Node.mk (3, 0) (chainK (Key.seed 0) 0 0 0)] } : Khf) := rfl
  have h := commit_run_grow (by decide) (by decide) (by decide) hres hrk hfold
  rw [h]
  decide

/-! Derivation through the binary search on a consolidated root list. -/

theorem derive_root_run {s : Khf} {x : Nat} {v : Key}
    (hmiss : lookupCache s.cachedKeys x = none) (hx : ¬ s.keys ≤ x)
    (hv : rootDeriveVal s.topology s.roots x = some v) :
    s.derive x = some (v, { s with cachedKeys := s.cachedKeys ++ [(x, v)] }) := by
  rcases derive_step s x with ⟨k, hhit, _⟩ | ⟨_, hge, _⟩ | ⟨_, _, hcase⟩
  · rw [hmiss] at hhit
    exact Option.noConfusion hhit
  · exact absurd hge hx
  · rcases hcase with ⟨v2, hv2, heq⟩ | ⟨hnone, _⟩
    · rw [hv] at hv2
      cases Option.some.inj hv2
      exact heq
    · rw [hv] at hnone
      exact Option.noConfusion hnone

theorem rootDeriveVal_single00 (k : Key) (x : Nat) :
    rootDeriveVal (Topology.new [2, 2]) [Node.mk (0, 0) k] x =
      some (chainK k (x / 4) (x / 2) x) := by
  have hbs : binarySearchBy [Node.mk (0, 0) k]
      (rootCmp (Topology.new [2, 2]) ((Topology.new [2, 2]).leafPosition x)) dummyNode =
      Except.ok 0 := by
    show bsAux (rootCmp (Topology.new [2, 2]) ((Topology.new [2, 2]).leafPosition x))
      [Node.mk (0, 0) k] dummyNode 0 1 = Except.ok 0
    simp [bsAux, rootCmp, Topology.isAncestor, Topology.leafPosition, Topology.height,
      Topology.new, descList]
  rw [rootDeriveVal, hbs]
  show some (Node.derive (Node.mk (0, 0) k) (Topology.new [2, 2]) (3, x)) = _
  rw [derive00_new22]

/-! Trace: `derive 0; update 1; truncate 1` and its commit. -/

theorem update_exDerive0 :
    exDerive0.update 1 = some (chainK (Key.seed 0) 0 0 1, exDerive0Upd1) := by
  show ({ exDerive0 with updatedKeys := insertSorted 1 exDerive0.updatedKeys } : Khf).derive 1 = _
  have hmiss : lookupCache ({ exDerive0 with updatedKeys := insertSorted 1 exDerive0.updatedKeys } : Khf).cachedKeys 1 = none := rfl
  rw [derive_append_run hmiss (by decide), approot_derive_eval 1 rfl rfl]
  decide

theorem run_revoke :
    (Khf.new [2, 2] 0).run [Op.derive 0, Op.update 1, Op.truncate 1] = some exRevoke := by
  rw [run_cons_eq (applyOp_derive_eq derive_new_0),
    run_cons_eq (applyOp_update_eq update_exDerive0),
    run_cons_eq (applyOp_truncate_eq exDerive0Upd1 1)]
  rfl

theorem commit_exRevoke :
    exRevoke.commit = some ([(1, chainK (Key.seed 0) 0 0 1)], exRevokeC) := by
  have hres : commitPairs exRevoke = some [(1, chainK (Key.seed 0) 0 0 1)] := rfl
  have h := commit_run_fast (by decide) (by decide) (by decide) hres
  rw [h]
  decide

theorem deriveVal_exRevokeC : exRevokeC.deriveVal 0 = some (chainK (Key.seed 2) 0 0 0) := by
  have hmiss : lookupCache exRevokeC.cachedKeys 0 = none := rfl
  have hv : rootDeriveVal exRevokeC.topology exRevokeC.roots 0 =
      some (chainK (Key.seed 2) 0 0 0) := rootDeriveVal_single00 (Key.seed 2) 0
  show (exRevokeC.derive 0).map (·.1) = _
  rw [derive_root_run hmiss (by decide) hv]
  rfl

/-! Trace: `consolidate (Ranged 0 1)` on the fresh forest. -/

theorem consol_ranged_new :
    (Khf.new [2, 2] 0).applyOp (Op.consolidate (Consolidation.ranged 0 1)) = some exConsol := by
  have hrep : ({ Khf.new [2, 2] 0 with rng := (Node.withRng (Khf.new [2, 2] 0).rng).2 } : Khf).replaceKeys 1 0 1 (Node.withRng (Khf.new [2, 2] 0).rng).1 = some ({ Khf.new [2, 2] 0 with rng := 3, roots := [Node.mk (3, 0) (chainK (Key.seed 2) 0 0 0)] } : Khf) := by
    exact replaceKeys_run_cons (by decide) (by decide) (cov00_0_1 (Key.seed 1))
      (tail_single31 (Key.seed 2) (chainK (Key.seed 1) 0 0 0))
  have h2 := consolidateRL_run hrep
  show ((Khf.new [2, 2] 0).consolidate (Consolidation.ranged 0 1)).map (·.2) = some exConsol
  have h3 : (Khf.new [2, 2] 0).consolidate (Consolidation.ranged 0 1) =
      (Khf.new [2, 2] 0).consolidateRangedLeveled 1 0 1 := rfl
  rw [h3, h2]
  decide

theorem run_consol :
    (Khf.new [2, 2] 0).run [Op.consolidate (Consolidation.ranged 0 1)] = some exConsol := by
  rw [run_cons_eq consol_ranged_new]
  rfl

/-! Trace: `update 5; truncate 1` and its commit. -/

theorem update_new_5 :
    (Khf.new [2, 2] 0).update 5 = some (chainK (Key.seed 0) 1 2 5, exUpd5) := by
  show ({ Khf.new [2, 2] 0 with updatedKeys := insertSorted 5 (Khf.new [2, 2] 0).updatedKeys } : Khf).derive 5 = _
  have hmiss : lookupCache ({ Khf.new [2, 2] 0 with updatedKeys := insertSorted 5 (Khf.new [2, 2] 0).updatedKeys } : Khf).cachedKeys 5 = none := rfl
  rw [derive_append_run hmiss (by decide), approot_derive_eval 5 rfl rfl]
  decide

theorem run_fastTrunc :
    (Khf.new [2, 2] 0).run [Op.update 5, Op.truncate 1] = some exFastTrunc := by
  rw [run_cons_eq (applyOp_update_eq update_new_5),
    run_cons_eq (applyOp_truncate_eq exUpd5 1)]
  rfl

theorem commit_exFastTrunc :
    exFastTrunc.commit = some ([(5, chainK (Key.seed 0) 1 2 5)], exFastTruncC) := by
  have hres : commitPairs exFastTrunc = some [(5, chainK (Key.seed 0) 1 2 5)] := rfl
  have h := commit_run_fast (by decide) (by decide) (by decide) hres
  rw [h]
  decide

/-! Trace: `update 0; update 1; commit`, its truncation, and the shrink-side
second epoch. -/

theorem update_new_0 :
    (Khf.new [2, 2] 0).update 0 = some (chainK (Key.seed 0) 0 0 0, exUpd0) := by
  show ({ Khf.new [2, 2] 0 with updatedKeys := insertSorted 0 (Khf.new [2, 2] 0).updatedKeys } : Khf).derive 0 = _
  have hmiss : lookupCache ({ Khf.new [2, 2] 0 with updatedKeys := insertSorted 0 (Khf.new [2, 2] 0).updatedKeys } : Khf).cachedKeys 0 = none := rfl
  rw [derive_append_run hmiss (by decide), approot_derive_eval 0 rfl rfl]
  decide

theorem update_exUpd0 :
    exUpd0.update 1 = some (chainK (Key.seed 0) 0 0 1, exUpd01) := by
  show ({ exUpd0 with updatedKeys := insertSorted 1 exUpd0.updatedKeys } : Khf).derive 1 = _
  have hmiss : lookupCache ({ exUpd0 with updatedKeys := insertSorted 1 exUpd0.updatedKeys } : Khf).cachedKeys 1 = none := rfl
  rw [derive_append_run hmiss (by decide), approot_derive_eval 1 rfl rfl]
  decide

theorem commit_exUpd01 :
    exUpd01.commit = some ([(0, chainK (Key.seed 0) 0 0 0),
      (1, chainK (Key.seed 0) 0 0 1)], exTwoCommit) := by
  have hres : commitPairs exUpd01 = some [(0, chainK (Key.seed 0) 0 0 0),
      (1, chainK (Key.seed 0) 0 0 1)] := rfl
  have h := commit_run_fast (by decide) (by decide) (by decide) hres
  rw [h]
  decide

theorem run_twoCommit :
    (Khf.new [2, 2] 0).run [Op.update 0, Op.update 1, Op.commit] = some exTwoCommit := by
  rw [run_cons_eq (applyOp_update_eq update_new_0),
    run_cons_eq (applyOp_update_eq update_exUpd0),
    run_cons_eq (applyOp_commit_eq commit_exUpd01)]
  rfl

theorem commit_truncTwoCommit :
    (exTwoCommit.truncate 1).commit = some ([], exTwoCommitTC) := by
  have hres : commitPairs ({ exTwoCommit.truncate 1 with updatedKeys := (exTwoCommit.truncate 1).updatedKeys.filter (fun k => decide (k < (exTwoCommit.truncate 1).inFlightKeys)) } : Khf) = some [] := rfl
  have hcov : ((exTwoCommit.truncate 1).roots.getD 0 dummyNode).coverage
      (exTwoCommit.truncate 1).topology 1 0 (exTwoCommit.truncate 1).inFlightKeys =
      some [Node.mk (3, 0) (chainK (Key.seed 2) 0 0 0)] := cov00_0_1 (Key.seed 2)
  have h := commit_run_shrink_cons (by decide) (by decide) (by decide) (by decide) hres hcov
  rw [h]
  decide

theorem update_exTwoCommit :
    exTwoCommit.update 1 = some (chainK (Key.seed 2) 0 0 1, exShrinkMid) := by
  show ({ exTwoCommit with updatedKeys := insertSorted 1 exTwoCommit.updatedKeys } : Khf).derive 1 = _
  have hmiss : lookupCache ({ exTwoCommit with updatedKeys := insertSorted 1 exTwoCommit.updatedKeys } : Khf).cachedKeys 1 = none := rfl
  have hv : rootDeriveVal ({ exTwoCommit with updatedKeys := insertSorted 1 exTwoCommit.updatedKeys } : Khf).topology ({ exTwoCommit with updatedKeys := insertSorted 1 exTwoCommit.updatedKeys } : Khf).roots 1 = some (chainK (Key.seed 2) 0 0 1) := by
    have h := rootDeriveVal_single00 (Key.seed 2) 1
    exact h
  rw [derive_root_run hmiss (by decide) hv]
  decide

theorem run_shrink :
    (Khf.new [2, 2] 0).run [Op.update 0, Op.update 1, Op.commit, Op.update 1,
      Op.truncate 1] = some exShrink := by
  rw [run_cons_eq (applyOp_update_eq update_new_0),
    run_cons_eq (applyOp_update_eq update_exUpd0),
    run_cons_eq (applyOp_commit_eq commit_exUpd01),
    run_cons_eq (applyOp_update_eq update_exTwoCommit),
    run_cons_eq (applyOp_truncate_eq exShrinkMid 1)]
  rfl

theorem commit_exShrink : exShrink.commit = some ([], exShrinkC) := by
  have hres : commitPairs ({ exShrink with updatedKeys := exShrink.updatedKeys.filter (fun k => decide (k < exShrink.inFlightKeys)) } : Khf) = some [] := rfl
  have hcov : (exShrink.roots.getD 0 dummyNode).coverage exShrink.topology 1 0
      exShrink.inFlightKeys = some [Node.mk (3, 0) (chainK (Key.seed 2) 0 0 0)] :=
    cov00_0_1 (Key.seed 2)
  have h := commit_run_shrink_cons (by decide) (by decide) (by decide) (by decide) hres hcov
  rw [h]
  decide

/-! Trace: `update 0; truncate 0` and its commit. -/

theorem run_trunc0 :
    (Khf.new [2, 2] 0).run [Op.update 0, Op.truncate 0] = some exTrunc0 := by
  rw [run_cons_eq (applyOp_update_eq update_new_0),
    run_cons_eq (applyOp_truncate_eq exUpd0 0)]
  rfl

theorem commit_exTrunc0 :
    exTrunc0.commit = some ([(0, chainK (Key.seed 0) 0 0 0)], exTrunc0C) := by
  have hres : commitPairs exTrunc0 = some [(0, chainK (Key.seed 0) 0 0 0)] := rfl
  have h := commit_run_zero (by decide) hres
  rw [h]
  decide

/-! Trace: `derive 5; truncate 0`. -/

theorem derive_new_5 :
    (Khf.new [2, 2] 0).derive 5 = some (chainK (Key.seed 0) 1 2 5, exDerive5) := by
  have hmiss : lookupCache (Khf.new [2, 2] 0).cachedKeys 5 = none := rfl
  rw [derive_append_run hmiss (by decide), approot_derive_eval 5 rfl rfl]
  decide

theorem run_cacheHit :
    (Khf.new [2, 2] 0).run [Op.derive 5, Op.truncate 0] = some exCacheHit := by
  rw [run_cons_eq (applyOp_derive_eq derive_new_5),
    run_cons_eq (applyOp_truncate_eq exDerive5 0)]
  rfl

/-! Trace: `commit` on the fresh forest. -/

theorem commit_new : (Khf.new [2, 2] 0).commit = some ([], exFreshC) := by
  have hres : commitPairs (Khf.new [2, 2] 0) = some [] := rfl
  have h := commit_run_zero (by decide) hres
  rw [h]
  decide

/-! Witnesses and counterexamples. -/

/-- Concrete instance of the preservation theorem: after `derive 0`, the
commit returns no ids and `derive 0` is unchanged. -/
theorem C1_unrevoked_witness :
    ValidFanouts [2, 2] ∧ cleanOps [Op.derive 0] = true ∧
    (Khf.new [2, 2] 0).run [Op.derive 0] = some exDerive0 ∧
    exDerive0.commit = some ([], exDerive0C) ∧
    0 < exDerive0C.keys ∧ 0 ∉ resultIds ([] : List (Nat × Key)) ∧
    exDerive0C.deriveVal 0 = exDerive0.deriveVal 0 :=
  ⟨⟨by decide, by decide⟩, rfl, run_derive0, commit_exDerive0, by decide, by decide,
    C1_commit_preserves_unrevoked (show ValidFanouts [2, 2] from ⟨by decide, by decide⟩)
      (show cleanOps [Op.derive 0] = true from rfl) run_derive0
      commit_exDerive0 (by decide) (by decide)⟩

/-- With a `truncate` in the history the unrestricted claim fails: after
`derive 0; update 1; truncate 1`, the commit takes the full-replacement fast
path, does not return id `0`, and still changes `derive 0`. -/
theorem C1_unrevoked_counterexample :
    (Khf.new [2, 2] 0).run [Op.derive 0, Op.update 1, Op.truncate 1] = some exRevoke ∧
    exRevoke.commit = some ([(1, chainK (Key.seed 0) 0 0 1)], exRevokeC) ∧
    0 < exRevokeC.keys ∧
    0 ∉ resultIds [(1, chainK (Key.seed 0) 0 0 1)] ∧
    exRevokeC.deriveVal 0 ≠ exRevoke.deriveVal 0 := by
  refine ⟨run_revoke, commit_exRevoke, by decide, by decide, ?_⟩
  rw [deriveVal_exRevokeC]
  intro h
  have h2 : exRevoke.deriveVal 0 = some (chainK (Key.seed 0) 0 0 0) := rfl
  rw [h2] at h
  exact absurd (Option.some.inj h) (by decide)

/-- The coverage invariant holds on the fresh forest (the empty clean run). -/
theorem C2_coverage_witness :
    ValidFanouts [2, 2] ∧ cleanOps ([] : List Op) = true ∧
    (Khf.new [2, 2] 0).run [] = some (Khf.new [2, 2] 0) ∧
    (Khf.new [2, 2] 0).rootsCoverageOK = true :=
  ⟨⟨by decide, by decide⟩, rfl, rfl,
    C2_roots_coverage_invariant (show ValidFanouts [2, 2] from ⟨by decide, by decide⟩)
      (show cleanOps ([] : List Op) = true from rfl)
      (show (Khf.new [2, 2] 0).run [] = some (Khf.new [2, 2] 0) from rfl)⟩

/-- A ranged consolidation past the committed domain breaks the claimed
invariant: one public operation leaves roots tiling `[0, 1)` while
`keys = 0`, neither consolidated nor an exact tiling of `[0, keys)`. -/
theorem C2_coverage_counterexample :
    (Khf.new [2, 2] 0).run [Op.consolidate (Consolidation.ranged 0 1)] = some exConsol ∧
    exConsol.rootsCoverageOK = false :=
  ⟨run_consol, by decide⟩

/-- Concrete instance of the fast-path equivalence on a sorted, bounded
pending set. -/
theorem C3_fast_path_witness :
    exUpd01.updatedKeys.Chain' (· < ·) ∧
    (∀ y ∈ exUpd01.updatedKeys, y < exUpd01.inFlightKeys) ∧
    (exUpd01.updatedKeys.length = exUpd01.inFlightKeys ↔
      ∀ i, i < exUpd01.inFlightKeys → i ∈ exUpd01.updatedKeys) := by
  have hch : List.Chain' (· < ·) ([0, 1] : List Nat) :=
    List.chain'_cons.mpr ⟨by decide, List.chain'_singleton 1⟩
  exact ⟨hch, by decide, C3_fast_path_condition hch (by decide)⟩

/-- After `update 5; truncate 1` the pending set is `[5]`, unbounded by
`in_flight_keys = 1`: the commit still takes the fast path (the root list
becomes the single fresh `(0, 0)` node drawn in the commit) although `0` is
not pending — the unconditioned iff of the claim fails. -/
theorem C3_fast_path_counterexample :
    (Khf.new [2, 2] 0).run [Op.update 5, Op.truncate 1] = some exFastTrunc ∧
    exFastTrunc.keys ≤ exFastTrunc.inFlightKeys ∧ 0 < exFastTrunc.inFlightKeys ∧
    exFastTrunc.commit = some ([(5, chainK (Key.seed 0) 1 2 5)], exFastTruncC) ∧
    exFastTruncC.roots = [Node.mk (0, 0) (Key.seed 2)] ∧
    0 ∉ exFastTrunc.updatedKeys :=
  ⟨run_fastTrunc, by decide, by decide, commit_exFastTrunc, by decide, by decide⟩

/-- Concrete instance of the append identity: `derive 0` on the fresh forest
appends id `0`; after the commit its value is the in-flight one. -/
theorem C4_append_witness :
    ValidFanouts [2, 2] ∧ cleanOps ([] : List Op) = true ∧
    (Khf.new [2, 2] 0).run [] = some (Khf.new [2, 2] 0) ∧
    (Khf.new [2, 2] 0).updatedKeys = [] ∧
    (∀ op ∈ [Op.derive 0], op.isDeriveUpdate = true) ∧
    (Khf.new [2, 2] 0).run [Op.derive 0] = some exDerive0 ∧
    (∀ op ∈ [Op.derive 0], op ≠ Op.update 0) ∧
    exDerive0.keys ≤ 0 ∧ 0 < exDerive0.inFlightKeys ∧
    exDerive0.commit = some ([], exDerive0C) ∧
    exDerive0C.deriveVal 0 = exDerive0.deriveVal 0 ∧
    exDerive0.deriveVal 0 = some (exDerive0.appendingRoot.derive exDerive0.topology
      (exDerive0.topology.leafPosition 0)) := by
  have hops2 : ∀ op ∈ [Op.derive 0], op.isDeriveUpdate = true := by
    intro op hop
    rw [List.mem_singleton.mp hop]
    rfl
  have hnoup : ∀ op ∈ [Op.derive 0], op ≠ Op.update 0 := by
    intro op hop
    rw [List.mem_singleton.mp hop]
    intro hcontra
    exact Op.noConfusion hcontra
  have hmain := C4_append_identity (show ValidFanouts [2, 2] from ⟨by decide, by decide⟩)
    (show cleanOps ([] : List Op) = true from rfl)
    (show (Khf.new [2, 2] 0).run [] = some (Khf.new [2, 2] 0) from rfl)
    (show (Khf.new [2, 2] 0).updatedKeys = [] from rfl) hops2
    run_derive0 hnoup (by decide) (by decide) commit_exDerive0
  exact ⟨⟨by decide, by decide⟩, rfl, rfl, rfl, hops2, run_derive0, hnoup,
    by decide, by decide, commit_exDerive0, hmain.1, hmain.2⟩

/-- Concrete instance of the truncate-then-commit theorem at `n = 1` on a
committed domain of size `2`. -/
theorem C6_truncate_witness :
    ValidFanouts [2, 2] ∧
    cleanOps [Op.update 0, Op.update 1, Op.commit] = true ∧
    (Khf.new [2, 2] 0).run [Op.update 0, Op.update 1, Op.commit] = some exTwoCommit ∧
    0 < 1 ∧ 1 < exTwoCommit.keys ∧
    (exTwoCommit.truncate 1).commit = some ([], exTwoCommitTC) ∧
    exTwoCommitTC.keys = 1 ∧
    resultIds ([] : List (Nat × Key)) =
      exTwoCommit.updatedKeys.filter (fun k => decide (k < 1)) ∧
    (∀ y ∈ exTwoCommit.updatedKeys, 1 ≤ y → y ∉ resultIds ([] : List (Nat × Key))) ∧
    exTwoCommitTC.updatedKeys = [] ∧
    (∀ x, x < 1 → x ∉ exTwoCommit.updatedKeys →
      exTwoCommitTC.deriveVal x = exTwoCommit.deriveVal x) := by
  have hmain := C6_truncate_commit (show ValidFanouts [2, 2] from ⟨by decide, by decide⟩)
    (show cleanOps [Op.update 0, Op.update 1, Op.commit] = true from rfl) run_twoCommit
    (by decide) (by decide) commit_truncTwoCommit
  exact ⟨⟨by decide, by decide⟩, rfl, run_twoCommit, by decide, by decide,
    commit_truncTwoCommit, hmain.1, hmain.2.1, hmain.2.2.1, hmain.2.2.2.1,
    hmain.2.2.2.2⟩

/-- At `n = 0` the unrestricted claim fails: after `update 0; truncate 0` the
commit still returns the pending id `0 ≥ n` instead of dropping it. -/
theorem C6_truncate_counterexample :
    (Khf.new [2, 2] 0).run [Op.update 0, Op.truncate 0] = some exTrunc0 ∧
    exTrunc0.commit = some ([(0, chainK (Key.seed 0) 0 0 0)], exTrunc0C) ∧
    0 ∈ exTrunc0.updatedKeys ∧
    0 ∈ resultIds [(0, chainK (Key.seed 0) 0 0 0)] :=
  ⟨run_trunc0, commit_exTrunc0, by decide, by decide⟩

/-- Concrete instance of the out-of-range derive on the fresh forest at
`x = 5`. -/
theorem C7_derive_witness :
    lookupCache (Khf.new [2, 2] 0).cachedKeys 5 = none ∧
    (Khf.new [2, 2] 0).keys ≤ 5 ∧
    (Khf.new [2, 2] 0).derive 5 = some ((Khf.new [2, 2] 0).appendingRoot.derive (Khf.new [2, 2] 0).topology ((Khf.new [2, 2] 0).topology.leafPosition 5), { Khf.new [2, 2] 0 with inFlightKeys := max (Khf.new [2, 2] 0).inFlightKeys 6, cachedKeys := (Khf.new [2, 2] 0).cachedKeys ++ [(5, (Khf.new [2, 2] 0).appendingRoot.derive (Khf.new [2, 2] 0).topology ((Khf.new [2, 2] 0).topology.leafPosition 5))] }) :=
  ⟨rfl, by decide, C7_derive_out_of_range rfl (by decide)⟩

/-- On a cache hit the unconditional claim fails: after `derive 5; truncate 0`
a second `derive 5` answers from the cache and leaves `in_flight_keys = 0`
instead of raising it to `max(0, 6)`. -/
theorem C7_derive_counterexample :
    (Khf.new [2, 2] 0).run [Op.derive 5, Op.truncate 0] = some exCacheHit ∧
    exCacheHit.keys ≤ 5 ∧
    exCacheHit.derive 5 = some (chainK (Key.seed 0) 1 2 5, exCacheHit) ∧
    exCacheHit.inFlightKeys ≠ max exCacheHit.inFlightKeys (5 + 1) :=
  ⟨run_cacheHit, by decide, by decide, by decide⟩

/-- Concrete instance of the coverage partition at level `1` over `[0, 3)`. -/
theorem C8_coverage_witness :
    ValidFanouts [2, 2] ∧ 1 ≤ 1 ∧ 1 ≤ (Topology.new [2, 2]).height - 1 ∧ (0 : Nat) ≤ 3 ∧
    (∃ l, (Topology.new [2, 2]).leveledCoverage 1 0 3 = some l ∧
      tilesExactly (Topology.new [2, 2]) 0 3 l = true ∧
      (∀ p ∈ l, 1 ≤ p.1 ∧ p.1 ≤ (Topology.new [2, 2]).height - 1) ∧
      ∀ l', tilesExactly (Topology.new [2, 2]) 0 3 l' = true →
        (∀ p ∈ l', 1 ≤ p.1 ∧ p.1 ≤ (Topology.new [2, 2]).height - 1) →
        l.length ≤ l'.length) :=
  ⟨⟨by decide, by decide⟩, le_rfl, by decide, by decide,
    C8_coverage_partition ⟨by decide, by decide⟩ le_rfl (by decide) (by decide)⟩

/-- Concrete instance of the commit-pairs theorem on the fresh forest. -/
theorem C10_commit_witness :
    (Khf.new [2, 2] 0).updatedKeys.Chain' (· < ·) ∧
    (Khf.new [2, 2] 0).commit = some ([], exFreshC) ∧
    resultIds ([] : List (Nat × Key)) =
      (if (Khf.new [2, 2] 0).inFlightKeys = 0 ∨ (Khf.new [2, 2] 0).keys ≤ (Khf.new [2, 2] 0).inFlightKeys then (Khf.new [2, 2] 0).updatedKeys else (Khf.new [2, 2] 0).updatedKeys.filter (fun k => decide (k < (Khf.new [2, 2] 0).inFlightKeys))) ∧
    (resultIds ([] : List (Nat × Key))).Chain' (· < ·) ∧
    (∀ p ∈ ([] : List (Nat × Key)), (Khf.new [2, 2] 0).deriveVal p.1 = some p.2) := by
  have hch : List.Chain' (· < ·) (Khf.new [2, 2] 0).updatedKeys := List.chain'_nil
  have hmain := C10_commit_returns_pairs hch commit_new
  exact ⟨hch, commit_new, hmain.1, hmain.2.1, hmain.2.2⟩

/-- Under truncation a pending id can be dropped: after
`update 0; update 1; commit; update 1; truncate 1` the pending set is `[1]`
but the commit returns no pairs at all — it does not return every pending
id. -/
theorem C10_commit_counterexample :
    (Khf.new [2, 2] 0).run [Op.update 0, Op.update 1, Op.commit, Op.update 1,
      Op.truncate 1] = some exShrink ∧
    exShrink.updatedKeys = [1] ∧
    exShrink.commit = some ([], exShrinkC) ∧
    1 ∈ exShrink.updatedKeys ∧ 1 ∉ resultIds ([] : List (Nat × Key)) :=
  ⟨run_shrink, by decide, commit_exShrink, by decide, by decide⟩

end KHF
